import Mathlib

/-!
# ewalena: dense tensor / matrix kernel

A shallow embedding of `include/ewalena/base/{math,tensor,matrix,vector}.h`
and `source/base/{tensor,matrix,vector}.cc`.

Conventions of the embedding.

* `unsigned int` values are natural numbers; every `unsigned int` product and
  sum is reduced modulo `UINT_RANGE = 2 ^ 32`.
* The scalar type `ValueType` is an arbitrary field `K` with decidable
  equality (exact arithmetic), ordered where `std::fabs` is used; `std::sqrt`
  and `std::pow` are passed to the functions that call them. `sqrt_binary64`
  is the square root rounded as in IEEE 754 binary64, for the places where the
  exactness of `std::sqrt` matters.
* A buffer (`ValueType *data`) is a `List K`; reading or writing outside of the
  allocation is reported as `Failure.undefined`.
* A failed `assert` is reported as `Failure.assertion`; a function that can
  fail returns `Except Failure _`.
* The `int` template parameters `dim` and `rank` are non-negative and are
  passed as natural numbers.
-/

namespace ewalena

/-- Number of values of an `unsigned int`. -/
def UINT_RANGE : Nat := 2 ^ 32

/-- How a call can end without returning. -/
inductive Failure where
  | assertion
  | undefined
  deriving DecidableEq, Repr

instance {ε α : Type} [DecidableEq ε] [DecidableEq α] : DecidableEq (Except ε α)
  | .ok a, .ok b => if h : a = b then isTrue (by rw [h]) else isFalse (fun e => h (by cases e; rfl))
  | .error a, .error b =>
    if h : a = b then isTrue (by rw [h]) else isFalse (fun e => h (by cases e; rfl))
  | .ok _, .error _ => isFalse (fun e => by cases e)
  | .error _, .ok _ => isFalse (fun e => by cases e)

/-- The C `assert (c)`. -/
def assert (c : Prop) [Decidable c] : Except Failure Unit :=
  if c then .ok () else .error .assertion

/-- Read `data[off]`. -/
def fetch {K : Type} (data : List K) (off : Nat) : Except Failure K :=
  match data[off]? with
  | some v => .ok v
  | none => .error .undefined

/-- Write `data[off] = v`. -/
def store {K : Type} (data : List K) (off : Nat) (v : K) : Except Failure (List K) :=
  if off < data.length then .ok (data.set off v) else .error .undefined

/-- The loop `for (unsigned int i=0; i<n; ++i) body`, threading the state the
body changes. -/
def forLoop {σ : Type} (body : Nat → σ → Except Failure σ) : Nat → σ → Except Failure σ
  | 0, s => .ok s
  | n + 1, s => forLoop body n s >>= body n

/-- The loop `for (k = start; k < start + n; ++k) body` whose body either
leaves the enclosing function by `return r`, given as `some r`, or falls through
to the next iteration, given as `none`. -/
def forReturn {ρ : Type} (body : Nat → Except Failure (Option ρ)) :
    Nat → Nat → Except Failure (Option ρ)
  | 0, _ => .ok none
  | n + 1, k => do
    match ← body k with
    | some r => return some r
    | none => forReturn body n (k + 1)

/-- Largest value of an `int`. Signed overflow is undefined behaviour. -/
def INT_MAX : Nat := 2 ^ 31 - 1

namespace math

/-- The function `math::pow` of `math.h`:
`(y == 0) ? 1 : x * (pow (x, y-1))` on `unsigned int`. -/
def pow (x : Nat) : Nat → Nat
  | 0 => 1
  | y + 1 => (x * pow x y) % UINT_RANGE

end math

/-! ## Tensor -/

/-- The class `Tensor<dim, rank, ValueType>`: the component count
`__n_components` and the buffer `data`. -/
structure Tensor (dim rank : Nat) (K : Type) where
  n_components : Nat
  data : List K
  deriving DecidableEq, Repr

namespace Tensor

variable {dim rank : Nat} {K : Type}

/-- The constructor `Tensor (const bool zero)` of `tensor.cc`:
`__n_components = math::pow (dim, rank)`, a fresh buffer of that many
components, zeroed by `reinit ()` when `zero`; otherwise the buffer keeps
whatever the allocation held, given here as `uninit`. -/
def construct (dim rank : Nat) {K : Type} [Zero K] (zero : Bool) (uninit : Nat → K) :
    Tensor dim rank K :=
  let n := math.pow dim rank
  { n_components := n
    data := if zero then List.replicate n 0 else (List.range n).map uninit }

/-- The body of the loop of `operator ()`, iterated `n` times from counter `i`:
reads the next index from the argument list, adds
`math::pow (dim, i) * base_dim` to `decimal`, and asserts `base_dim < dim`. -/
def index_loop (dim : Nat) : Nat → Nat → List Nat → Nat → Except Failure Nat
  | 0, _, _, decimal => .ok decimal
  | _ + 1, _, [], _ => .error .undefined
  | n + 1, i, base_dim :: index_list, decimal =>
    let decimal := (decimal + (math.pow dim i * base_dim) % UINT_RANGE) % UINT_RANGE
    if base_dim < dim then index_loop dim n (i + 1) index_list decimal
    else .error .assertion

/-- The offset computed by the read-write `operator () (index, ...)`
(`tensor.h`, lines 269-303); `index_list` holds the variadic arguments. -/
def offset_rw (T : Tensor dim rank K) (index : Nat) (index_list : List Nat) :
    Except Failure Nat := do
  assert (T.n_components ≠ 0)
  assert (index < dim)
  let decimal ← index_loop dim (rank - 1) 1 index_list index
  assert (decimal < T.n_components)
  return decimal

/-- The offset computed by the read-only `operator () (index, ...) const`
(`tensor.h`, lines 308-331). -/
def offset_ro (T : Tensor dim rank K) (index : Nat) (index_list : List Nat) :
    Except Failure Nat := do
  assert (T.n_components ≠ 0)
  assert (index < dim)
  let decimal ← index_loop dim (rank - 1) 1 index_list index
  assert (decimal < T.n_components)
  return decimal

/-- Reading `T (index, ...)` through the read-only operator. -/
def read (T : Tensor dim rank K) (index : Nat) (index_list : List Nat) : Except Failure K := do
  let decimal ← T.offset_ro index index_list
  fetch T.data decimal

/-- The assignment `T (index, ...) = v` through the read-write operator. -/
def write (T : Tensor dim rank K) (index : Nat) (index_list : List Nat) (v : K) :
    Except Failure (Tensor dim rank K) := do
  let decimal ← T.offset_rw index index_list
  let data ← store T.data decimal v
  return { T with data := data }

/-- The state every constructor leaves and every operation keeps: the count is
`math::pow (dim, rank)` and the buffer has that many components. -/
def WF (T : Tensor dim rank K) : Prop :=
  T.n_components = math.pow dim rank ∧ T.data.length = T.n_components

/-- A multi-index `(index, index_list...)` with `rank` components, each below
`dim`. -/
def valid_index (dim rank : Nat) (index : Nat) (index_list : List Nat) : Prop :=
  (index :: index_list).length = rank ∧ ∀ x ∈ index :: index_list, x < dim

instance (dim rank index : Nat) (index_list : List Nat) :
    Decidable (valid_index dim rank index index_list) := by
  unfold valid_index; infer_instance

/-- The base-`dim` value of a multi-index, first component least significant:
`sum_{k < rank} index_k * dim ^ k`. -/
def linear_sum (dim rank : Nat) (idx : List Nat) : Nat :=
  (Finset.range rank).sum (fun k => idx.getD k 0 * dim ^ k)

/-- The multi-index with `r` components that linearises to `d`. -/
def to_index (dim : Nat) : Nat → Nat → List Nat
  | 0, _ => []
  | r + 1, d => d % dim :: to_index dim r (d / dim)

/-- The tensor that `Tensor::invert` reads: `T` itself, or the destination when
the call is `A.invert (A)` and both references name one object. -/
def source (aliased : Bool) (self T : Tensor dim rank K) : Tensor dim rank K :=
  if aliased then self else T

/-- The value given to `determinant` in `case 2` of `Tensor::invert`, read
from `S`. -/
def determinant_2 [Field K] (S : Tensor dim rank K) : Except Failure K := do
  return (← S.read 0 [0]) * (← S.read 1 [1]) - (← S.read 0 [1]) * (← S.read 1 [0])

/-- The value given to `determinant` in `case 3` of `Tensor::invert`, read
from `S`. -/
def determinant_3 [Field K] (S : Tensor dim rank K) : Except Failure K := do
  return (← S.read 0 [0]) * ((← S.read 2 [2]) * (← S.read 1 [1]) - (← S.read 2 [1]) * (← S.read 1 [2]))
    - (← S.read 1 [0]) * ((← S.read 2 [2]) * (← S.read 0 [1]) - (← S.read 2 [1]) * (← S.read 0 [2]))
    + (← S.read 2 [0]) * ((← S.read 1 [2]) * (← S.read 0 [1]) - (← S.read 1 [1]) * (← S.read 0 [2]))

/-- The four assignments of `case 2` of `Tensor::invert`. -/
def invert_fill_2 [Field K] (aliased : Bool) (self T : Tensor dim rank K) (determinant : K) :
    Except Failure (Tensor dim rank K) := do
  let self ← self.write 0 [0] ((← (source aliased self T).read 1 [1]) / determinant)
  let self ← self.write 0 [1] (-(← (source aliased self T).read 0 [1]) / determinant)
  let self ← self.write 1 [0] (-(← (source aliased self T).read 1 [0]) / determinant)
  self.write 1 [1] ((← (source aliased self T).read 0 [0]) / determinant)

/-- The nine assignments of `case 3` of `Tensor::invert`. -/
def invert_fill_3 [Field K] (aliased : Bool) (self T : Tensor dim rank K) (determinant : K) :
    Except Failure (Tensor dim rank K) := do
  let S := source aliased self T
  let self ← self.write 0 [0]
    (((← S.read 2 [2]) * (← S.read 1 [1]) - (← S.read 2 [1]) * (← S.read 1 [2])) / determinant)
  let S := source aliased self T
  let self ← self.write 0 [1]
    (-((← S.read 2 [2]) * (← S.read 0 [1]) - (← S.read 2 [1]) * (← S.read 0 [2])) / determinant)
  let S := source aliased self T
  let self ← self.write 0 [2]
    (((← S.read 1 [2]) * (← S.read 0 [1]) - (← S.read 1 [1]) * (← S.read 0 [2])) / determinant)
  let S := source aliased self T
  let self ← self.write 1 [0]
    (-((← S.read 2 [2]) * (← S.read 1 [0]) - (← S.read 2 [0]) * (← S.read 1 [2])) / determinant)
  let S := source aliased self T
  let self ← self.write 1 [1]
    (((← S.read 2 [2]) * (← S.read 0 [0]) - (← S.read 2 [0]) * (← S.read 0 [2])) / determinant)
  let S := source aliased self T
  let self ← self.write 1 [2]
    (-((← S.read 1 [2]) * (← S.read 0 [0]) - (← S.read 1 [0]) * (← S.read 0 [2])) / determinant)
  let S := source aliased self T
  let self ← self.write 2 [0]
    (((← S.read 2 [1]) * (← S.read 1 [0]) - (← S.read 2 [0]) * (← S.read 1 [1])) / determinant)
  let S := source aliased self T
  let self ← self.write 2 [1]
    (-((← S.read 2 [1]) * (← S.read 0 [0]) - (← S.read 2 [0]) * (← S.read 0 [1])) / determinant)
  let S := source aliased self T
  self.write 2 [2]
    (((← S.read 1 [1]) * (← S.read 0 [0]) - (← S.read 1 [0]) * (← S.read 0 [1])) / determinant)

/-- The member `Tensor::invert (const Tensor &T)` (`tensor.h`, lines 512-582)
called on `self`; `aliased` tells whether `T` is the object `self`. The
pointer assertions `assert (T.data)` and `assert ((*this).data)` always hold
for a constructed tensor. Returns the new state of `self`. -/
def invert_impl [Field K] [DecidableEq K] (aliased : Bool) (self T : Tensor dim rank K) :
    Except Failure (Tensor dim rank K) := do
  assert (dim < 4)
  assert (rank = 2)
  match dim with
  | 0 => .error .assertion
  | 1 =>
    let t00 ← (source aliased self T).read 0 [0]
    assert (t00 ≠ 0)
    self.write 0 [0] (1 / t00)
  | 2 =>
    let determinant ← determinant_2 (source aliased self T)
    assert (determinant ≠ 0)
    invert_fill_2 aliased self T determinant
  | 3 =>
    let determinant ← determinant_3 (source aliased self T)
    assert (determinant ≠ 0)
    invert_fill_3 aliased self T determinant
  | _ + 4 => .error .assertion

/-- The call `self.invert (T)` with `T` an object other than `self`. -/
def invert [Field K] [DecidableEq K] (self T : Tensor dim rank K) :
    Except Failure (Tensor dim rank K) :=
  invert_impl false self T

/-- The value `T (i, j)` of a rank-2 access, `0` when the access fails. -/
def val [Zero K] (T : Tensor dim rank K) (i j : Nat) : K :=
  match T.read i [j] with
  | .ok v => v
  | .error _ => 0

/-- The determinant of a rank-2 tensor of dimension one, two or three:
`T(0,0)`, `T00*T11 - T01*T10`, and the cofactor expansion along the first
column. -/
def det_spec [Field K] (T : Tensor dim rank K) : K :=
  match dim with
  | 1 => T.val 0 0
  | 2 => T.val 0 0 * T.val 1 1 - T.val 0 1 * T.val 1 0
  | 3 => T.val 0 0 * (T.val 1 1 * T.val 2 2 - T.val 1 2 * T.val 2 1)
      - T.val 1 0 * (T.val 0 1 * T.val 2 2 - T.val 0 2 * T.val 2 1)
      + T.val 2 0 * (T.val 0 1 * T.val 1 2 - T.val 0 2 * T.val 1 1)
  | _ => 0

end Tensor

/-! ## Matrix -/

/-- The class `Matrix<ValueType>`: `__n_rows`, `__n_cols` and the buffer
`data`. -/
structure Matrix (K : Type) where
  n_rows : Nat
  n_cols : Nat
  data : List K
  deriving DecidableEq, Repr

namespace Matrix

variable {K : Type}

/-- The state of a constructed matrix whose element count `n_rows * n_cols` is
representable as `unsigned int`: the buffer holds that many elements. A
matrix constructed with a larger product holds
`n_rows * n_cols mod UINT_RANGE` elements and is not in this state. -/
def WF (M : Matrix K) : Prop :=
  M.data.length = M.n_rows * M.n_cols ∧ M.n_rows * M.n_cols < UINT_RANGE

instance (M : Matrix K) : Decidable M.WF := by unfold WF; infer_instance

/-- The member `reinit ()` of `matrix.cc`: `memset` of
`sizeof (ValueType) * n_rows * n_cols` zero bytes over the buffer (the byte
count is a `size_t` and does not wrap); undefined when the buffer is
shorter. -/
def reinit_zero [Zero K] (M : Matrix K) : Except Failure (Matrix K) :=
  if M.n_rows * M.n_cols ≤ M.data.length then
    .ok { M with data := List.replicate (M.n_rows * M.n_cols) 0 ++ M.data.drop (M.n_rows * M.n_cols) }
  else .error .undefined

/-- The member `reinit (m, n, zero)` of `matrix.cc`: the old buffer is
released, a buffer of `m*n` (an `unsigned int` product) elements is allocated,
holding `uninit`, and zeroed by `reinit ()` when `zero`. -/
def reinit [Zero K] (_self : Matrix K) (m n : Nat) (zero : Bool) (uninit : Nat → K) :
    Except Failure (Matrix K) :=
  let fresh : Matrix K :=
    { n_rows := m, n_cols := n, data := (List.range ((m * n) % UINT_RANGE)).map uninit }
  if zero then fresh.reinit_zero else .ok fresh

/-- The read-only `operator () (i, j) const` (`matrix.h`, lines 301-315). -/
def get (M : Matrix K) (i j : Nat) : Except Failure K := do
  assert (i < M.n_rows)
  assert (j < M.n_cols)
  fetch M.data (((M.n_cols * i) % UINT_RANGE + j) % UINT_RANGE)

/-- The assignment `M (i, j) = v` through the read-write `operator () (i, j)`
(`matrix.h`, lines 317-327). -/
def set (M : Matrix K) (i j : Nat) (v : K) : Except Failure (Matrix K) := do
  assert (i < M.n_rows)
  assert (j < M.n_cols)
  let data ← store M.data (((M.n_cols * i) % UINT_RANGE + j) % UINT_RANGE) v
  return { M with data := data }

/-- The value `M (i, j)`, `0` when the access fails. -/
def val [Zero K] (M : Matrix K) (i j : Nat) : K :=
  match M.get i j with
  | .ok v => v
  | .error _ => 0

/-- The matrix that `Matrix::invert` reads: `M` itself, or the destination when
the call is `A.invert (A)` and both references name one object. -/
def source (aliased : Bool) (self M : Matrix K) : Matrix K :=
  if aliased then self else M

/-- The value given to `determinant` in `case 2` of `Matrix::invert`, read
from `S`. -/
def determinant_2 [Field K] (S : Matrix K) : Except Failure K := do
  return (← S.get 0 0) * (← S.get 1 1) - (← S.get 0 1) * (← S.get 1 0)

/-- The value given to `determinant` in `case 3` of `Matrix::invert`, read
from `S`. -/
def determinant_3 [Field K] (S : Matrix K) : Except Failure K := do
  return (← S.get 0 0) * ((← S.get 2 2) * (← S.get 1 1) - (← S.get 2 1) * (← S.get 1 2))
    - (← S.get 1 0) * ((← S.get 2 2) * (← S.get 0 1) - (← S.get 2 1) * (← S.get 0 2))
    + (← S.get 2 0) * ((← S.get 1 2) * (← S.get 0 1) - (← S.get 1 1) * (← S.get 0 2))

/-- The four assignments of `case 2` of `Matrix::invert`. -/
def invert_fill_2 [Field K] (aliased : Bool) (self M : Matrix K) (determinant : K) :
    Except Failure (Matrix K) := do
  let self ← self.set 0 0 ((← (source aliased self M).get 1 1) / determinant)
  let self ← self.set 0 1 (-(← (source aliased self M).get 0 1) / determinant)
  let self ← self.set 1 0 (-(← (source aliased self M).get 1 0) / determinant)
  self.set 1 1 ((← (source aliased self M).get 0 0) / determinant)

/-- The nine assignments of `case 3` of `Matrix::invert`. -/
def invert_fill_3 [Field K] (aliased : Bool) (self M : Matrix K) (determinant : K) :
    Except Failure (Matrix K) := do
  let S := source aliased self M
  let self ← self.set 0 0
    (((← S.get 2 2) * (← S.get 1 1) - (← S.get 2 1) * (← S.get 1 2)) / determinant)
  let S := source aliased self M
  let self ← self.set 0 1
    (-((← S.get 2 2) * (← S.get 0 1) - (← S.get 2 1) * (← S.get 0 2)) / determinant)
  let S := source aliased self M
  let self ← self.set 0 2
    (((← S.get 1 2) * (← S.get 0 1) - (← S.get 1 1) * (← S.get 0 2)) / determinant)
  let S := source aliased self M
  let self ← self.set 1 0
    (-((← S.get 2 2) * (← S.get 1 0) - (← S.get 2 0) * (← S.get 1 2)) / determinant)
  let S := source aliased self M
  let self ← self.set 1 1
    (((← S.get 2 2) * (← S.get 0 0) - (← S.get 2 0) * (← S.get 0 2)) / determinant)
  let S := source aliased self M
  let self ← self.set 1 2
    (-((← S.get 1 2) * (← S.get 0 0) - (← S.get 1 0) * (← S.get 0 2)) / determinant)
  let S := source aliased self M
  let self ← self.set 2 0
    (((← S.get 2 1) * (← S.get 1 0) - (← S.get 2 0) * (← S.get 1 1)) / determinant)
  let S := source aliased self M
  let self ← self.set 2 1
    (-((← S.get 2 1) * (← S.get 0 0) - (← S.get 2 0) * (← S.get 0 1)) / determinant)
  let S := source aliased self M
  self.set 2 2
    (((← S.get 1 1) * (← S.get 0 0) - (← S.get 1 0) * (← S.get 0 1)) / determinant)

/-- The member `Matrix::invert (const Matrix &M)` (`matrix.h`, lines 562-630)
called on `self`; `aliased` tells whether `M` is the object `self`. The
pointer assertion `assert (M.data)` always holds. The contents of the buffer
that `reinit` allocates are overwritten by its `memset`. Returns the new state
of `self`. -/
def invert_impl [Field K] [DecidableEq K] (aliased : Bool) (self M : Matrix K) :
    Except Failure (Matrix K) := do
  assert (M.n_rows = M.n_cols)
  let self ← self.reinit M.n_rows M.n_cols true (fun _ => 0)
  match (source aliased self M).n_cols with
  | 0 => .error .assertion
  | 1 =>
    let m00 ← (source aliased self M).get 0 0
    assert (m00 ≠ 0)
    self.set 0 0 (1 / m00)
  | 2 =>
    let determinant ← determinant_2 (source aliased self M)
    assert (determinant ≠ 0)
    invert_fill_2 aliased self M determinant
  | 3 =>
    let determinant ← determinant_3 (source aliased self M)
    assert (determinant ≠ 0)
    invert_fill_3 aliased self M determinant
  | _ + 4 => .error .assertion

/-- The call `self.invert (M)` with `M` an object other than `self`. -/
def invert [Field K] [DecidableEq K] (self M : Matrix K) : Except Failure (Matrix K) :=
  invert_impl false self M

/-- The call `A.invert (A)`: source and destination are one object. -/
def invert_self [Field K] [DecidableEq K] (A : Matrix K) : Except Failure (Matrix K) :=
  invert_impl true A A

/-- The member `Matrix::mult (M_a, M_b)` (`matrix.h`, lines 481-497) called on
`self`, an object other than `M_a` and `M_b`:
`(*this)(i,j) += M_a(i,k)*M_b(k,j)` in the loops `i < M_a.__n_rows`,
`j < M_b.__n_cols`, `k < M_b.__n_rows`. The pointer assertions always hold.
Returns the new state of `self`. -/
def mult [Field K] (self M_a M_b : Matrix K) : Except Failure (Matrix K) := do
  assert (M_a.n_rows = M_b.n_cols)
  assert (M_a.n_cols = M_b.n_rows)
  forLoop (fun i self =>
    forLoop (fun j self =>
      forLoop (fun k self => do
        let a ← M_a.get i k
        let b ← M_b.get k j
        let c ← self.get i j
        self.set i j (c + a * b)) M_b.n_rows self) M_b.n_cols self) M_a.n_rows self

/-- The member `Matrix::Tmult (M_a, M_b)` (`matrix.h`, lines 499-515) called on
`self`, an object other than `M_a` and `M_b`:
`(*this)(i,j) += M_a(k,i)*M_b(k,j)` in the loops `i < M_a.__n_rows`,
`j < M_b.__n_cols`, `k < M_b.__n_rows`. The pointer assertions always hold.
Returns the new state of `self`. -/
def Tmult [Field K] (self M_a M_b : Matrix K) : Except Failure (Matrix K) := do
  assert (M_a.n_rows = M_b.n_rows)
  assert (M_a.n_cols = M_b.n_cols)
  forLoop (fun i self =>
    forLoop (fun j self =>
      forLoop (fun k self => do
        let a ← M_a.get k i
        let b ← M_b.get k j
        let c ← self.get i j
        self.set i j (c + a * b)) M_b.n_rows self) M_b.n_cols self) M_a.n_rows self

/-- The determinant of a square matrix with one, two or three rows: `M(0,0)`,
`M00*M11 - M01*M10`, and the cofactor expansion along the first column. -/
def det_spec [Field K] (M : Matrix K) : K :=
  match M.n_cols with
  | 1 => M.val 0 0
  | 2 => M.val 0 0 * M.val 1 1 - M.val 0 1 * M.val 1 0
  | 3 => M.val 0 0 * (M.val 1 1 * M.val 2 2 - M.val 1 2 * M.val 2 1)
      - M.val 1 0 * (M.val 0 1 * M.val 2 2 - M.val 0 2 * M.val 2 1)
      + M.val 2 0 * (M.val 0 1 * M.val 1 2 - M.val 0 2 * M.val 1 1)
  | _ => 0

end Matrix

namespace Matrix

variable {K : Type}

/-- The member `Matrix::multT (M_a, M_b)` (`matrix.h`, lines 517-533) called on
`self`, an object other than `M_a` and `M_b`:
`(*this)(i,j) += M_a(i,k)*M_b(j,k)` in the loops `i < M_a.__n_rows`,
`j < M_b.__n_cols`, `k < M_b.__n_rows`. The pointer assertions always hold.
Returns the new state of `self`. -/
def multT [Field K] (self M_a M_b : Matrix K) : Except Failure (Matrix K) := do
  assert (M_a.n_rows = M_b.n_rows)
  assert (M_a.n_cols = M_b.n_cols)
  forLoop (fun i self =>
    forLoop (fun j self =>
      forLoop (fun k self => do
        let a ← M_a.get i k
        let b ← M_b.get j k
        let c ← self.get i j
        self.set i j (c + a * b)) M_b.n_rows self) M_b.n_cols self) M_a.n_rows self

/-- The member `Matrix::identity ()` (`matrix.h`, lines 438-464). The loop
carries the cyclic counter `j` next to the matrix; `++i, ++j` ends each
iteration. Returns the new state of `self`. -/
def identity [Field K] (self : Matrix K) : Except Failure (Matrix K) := do
  assert (self.n_rows = self.n_cols)
  let self ← self.reinit_zero
  if self.n_rows = 0 then
    return self
  let st ← forLoop (fun i (st : Nat × Matrix K) => do
      let st ←
        if st.1 = (st.2.n_rows + 1) % UINT_RANGE then do
          let data ← store st.2.data i 1
          pure (0, { st.2 with data := data })
        else pure st
      return ((st.1 + 1) % UINT_RANGE, st.2))
    ((self.n_rows * self.n_cols) % UINT_RANGE) ((self.n_rows + 1) % UINT_RANGE, self)
  return st.2

/-- The member `Matrix::is_symmetric () const` (`matrix.h`, lines 420-436). The
pointer `data` is never null, so the guarded loops always run. -/
def is_symmetric [DecidableEq K] (self : Matrix K) : Except Failure Bool := do
  assert (self.n_rows = self.n_cols)
  let r ← forReturn (fun i =>
      forReturn (fun j => do
        let a ← self.get i j
        let b ← self.get j i
        if a ≠ b then return some false else return none)
        (self.n_cols - (i + 1)) (i + 1))
    self.n_rows 0
  match r with
  | some b => return b
  | none => return true

end Matrix

namespace Tensor

variable {dim rank : Nat} {K : Type}

/-- The value `T (index, ...)`, `0` when the access fails. -/
def value [Zero K] (T : Tensor dim rank K) (index : Nat) (index_list : List Nat) : K :=
  match T.read index index_list with
  | .ok v => v
  | .error _ => 0

/-- A tensor in the state the constructors leave whose component count is
`dim ^ rank`, which is the case exactly when `dim ^ rank` is representable as
`unsigned int`. -/
def Sized (T : Tensor dim rank K) : Prop :=
  T.WF ∧ T.n_components = dim ^ rank

/-- The compound assignment `T (index, ...) += v` through the read-write
operator. -/
def add_assign [Add K] (T : Tensor dim rank K) (index : Nat) (index_list : List Nat) (v : K) :
    Except Failure (Tensor dim rank K) := do
  let decimal ← T.offset_rw index index_list
  let c ← fetch T.data decimal
  let data ← store T.data decimal (c + v)
  return { T with data := data }

/-- The member `voight_components () const` of `tensor.cc` (lines 74-109). The
products are `int` arithmetic on the template parameters: a product above
`INT_MAX` is undefined. The pointer assertion always holds. -/
def voight_components (_T : Tensor dim rank K) : Except Failure (Nat × Nat) := do
  assert (rank > 0)
  match rank with
  | 1 => return (1, dim)
  | 2 =>
    if dim * (dim - 1) ≤ INT_MAX then
      return (1, ((dim * (dim - 1) / 2) % UINT_RANGE + dim) % UINT_RANGE)
    else .error .undefined
  | _ =>
    let quot := rank / 2
    let rem := rank % 2
    if dim * quot ≤ INT_MAX ∧ quot + rem ≤ INT_MAX ∧ dim * (quot + rem) ≤ INT_MAX then
      return (dim * quot, dim * (quot + rem))
    else .error .undefined

/-- The member `sadd (a, T_a)` (`tensor.h`, lines 431-445) called on `self`, an
object other than `T_a`: `this->data[i] += a*T_a.data[i]`. Returns the new
state of `self`. -/
def sadd [Field K] (self : Tensor dim rank K) (a : K) (T_a : Tensor dim rank K) :
    Except Failure (Tensor dim rank K) := do
  assert (self.n_components ≠ 0)
  assert (T_a.n_components = self.n_components)
  forLoop (fun i (self : Tensor dim rank K) => do
      let x ← fetch T_a.data i
      let c ← fetch self.data i
      let data ← store self.data i (c + a * x)
      return { self with data := data }) self.n_components self

/-- The member `sadd (a, T_a, b, T_b)` (`tensor.h`, lines 447-462):
`this->data[i] += a*T_a.data[i] + b*T_b.data[i]`. -/
def sadd_2 [Field K] (self : Tensor dim rank K) (a : K) (T_a : Tensor dim rank K) (b : K)
    (T_b : Tensor dim rank K) : Except Failure (Tensor dim rank K) := do
  assert (self.n_components ≠ 0)
  assert (T_a.n_components = self.n_components)
  assert (T_b.n_components = self.n_components)
  forLoop (fun i (self : Tensor dim rank K) => do
      let x ← fetch T_a.data i
      let y ← fetch T_b.data i
      let c ← fetch self.data i
      let data ← store self.data i (c + (a * x + b * y))
      return { self with data := data }) self.n_components self

end Tensor

/-- The function `contract (Tensor<dim,2> T_a, Tensor<dim,4> T_b)` (`tensor.h`,
lines 586-604): `tensor(k,l) += T_a(i,j)*T_b(i,j,k,l)` over `i, j, k, l < dim`
on a zero-initialised result. -/
def contract_2_4 {dim : Nat} {K : Type} [Field K] (T_a : Tensor dim 2 K) (T_b : Tensor dim 4 K) :
    Except Failure (Tensor dim 2 K) :=
  forLoop (fun i tensor =>
    forLoop (fun j tensor =>
      forLoop (fun k tensor =>
        forLoop (fun l (tensor : Tensor dim 2 K) => do
          let a ← T_a.read i [j]
          let b ← T_b.read i [j, k, l]
          tensor.add_assign k [l] (a * b)) dim tensor) dim tensor) dim tensor) dim
    (Tensor.construct dim 2 true (fun _ => 0))

/-- The function `contract (Tensor<dim,4> T_a, Tensor<dim,2> T_b)` (`tensor.h`,
lines 606-624): `tensor(i,j) += T_a(i,j,k,l)*T_b(k,l)` over `i, j, k, l < dim`
on a zero-initialised result. -/
def contract_4_2 {dim : Nat} {K : Type} [Field K] (T_a : Tensor dim 4 K) (T_b : Tensor dim 2 K) :
    Except Failure (Tensor dim 2 K) :=
  forLoop (fun i tensor =>
    forLoop (fun j tensor =>
      forLoop (fun k tensor =>
        forLoop (fun l (tensor : Tensor dim 2 K) => do
          let a ← T_a.read i [j, k, l]
          let b ← T_b.read k [l]
          tensor.add_assign i [j] (a * b)) dim tensor) dim tensor) dim tensor) dim
    (Tensor.construct dim 2 true (fun _ => 0))

/-- The function `contract (Tensor<dim,3> T_a, Tensor<dim,2> T_b)` (`tensor.h`,
lines 628-645): `tensor(i) += T_a(i,j,k)*T_b(j,k)` over `i, j, k < dim` on a
zero-initialised result. -/
def contract_3_2 {dim : Nat} {K : Type} [Field K] (T_a : Tensor dim 3 K) (T_b : Tensor dim 2 K) :
    Except Failure (Tensor dim 1 K) :=
  forLoop (fun i tensor =>
    forLoop (fun j tensor =>
      forLoop (fun k (tensor : Tensor dim 1 K) => do
        let a ← T_a.read i [j, k]
        let b ← T_b.read j [k]
        tensor.add_assign i [] (a * b)) dim tensor) dim tensor) dim
    (Tensor.construct dim 1 true (fun _ => 0))

/-- A state transformer that keeps the invariant `Inv` and adds `δ c` to the
value observed at every cell `c` of `C`. -/
def Adds {σ cell K : Type} [Add K] (Inv : σ → Prop) (obs : σ → cell → K) (C : cell → Prop)
    (f : σ → Except Failure σ) (δ : cell → K) : Prop :=
  ∀ s, Inv s → ∃ s', f s = .ok s' ∧ Inv s' ∧ ∀ c, C c → obs s' c = obs s c + δ c

namespace Tensor

variable {dim rank : Nat} {K : Type}

/-- The member `reinit ()` of `tensor.cc` (lines 112-118): `memset` of
`sizeof (ValueType) * __n_components` zero bytes over the buffer; undefined
when the buffer is shorter. -/
def reinit [Zero K] (T : Tensor dim rank K) : Except Failure (Tensor dim rank K) :=
  if T.n_components ≤ T.data.length then
    .ok { T with data := List.replicate T.n_components 0 ++ T.data.drop T.n_components }
  else .error .undefined

/-- The copy constructor `Tensor (const Tensor &T)` of `tensor.cc` (lines
50-58): the count of `T`, a fresh buffer of that many components, filled by
`memcpy` from `T.data` when the count is not zero. -/
def copy (T : Tensor dim rank K) : Except Failure (Tensor dim rank K) :=
  if T.n_components ≠ 0 then
    if T.n_components ≤ T.data.length then
      .ok { n_components := T.n_components, data := T.data.take T.n_components }
    else .error .undefined
  else .ok { n_components := T.n_components, data := [] }

/-- The member `clone (T)` of `tensor.cc` (lines 67-72) called on `self`, an
object other than `T`: `memcpy` of `sizeof (ValueType) * __n_components` bytes,
the count being that of `self`, from `T.data` to `this->data`. Returns the new
state of `self`. -/
def clone (self T : Tensor dim rank K) : Except Failure (Tensor dim rank K) :=
  if self.n_components ≤ T.data.length ∧ self.n_components ≤ self.data.length then
    .ok { self with
      data := T.data.take self.n_components ++ self.data.drop self.n_components }
  else .error .undefined

/-- The member `operator == (T) const` (`tensor.h`, lines 421-429): `memcmp`
over the first `__n_components` components of both buffers. A scalar of the
embedding has one representation, so equal bytes are equal values. -/
def equal [DecidableEq K] (self T : Tensor dim rank K) : Except Failure Bool := do
  assert (T.n_components = self.n_components)
  if self.n_components ≤ self.data.length ∧ self.n_components ≤ T.data.length then
    return decide (self.data.take self.n_components = T.data.take self.n_components)
  else .error .undefined

/-- The member `operator += (T)` (`tensor.h`, lines 375-385):
`data[i] += T.data[i]`. Iteration `i` reads and writes component `i` only, so
the result is the same when `T` is `self`. Returns the new state of `self`. -/
def plus_assign [Field K] (self T : Tensor dim rank K) :
    Except Failure (Tensor dim rank K) := do
  assert (self.n_components ≠ 0)
  assert (T.n_components = self.n_components)
  forLoop (fun i (self : Tensor dim rank K) => do
      let y ← fetch T.data i
      let c ← fetch self.data i
      let data ← store self.data i (c + y)
      return { self with data := data }) self.n_components self

/-- The member `operator -= (T)` (`tensor.h`, lines 387-397):
`data[i] -= T.data[i]` with `T` an object other than `self`. Returns the new
state of `self`. -/
def minus_assign [Field K] (self T : Tensor dim rank K) :
    Except Failure (Tensor dim rank K) := do
  assert (self.n_components ≠ 0)
  assert (T.n_components = self.n_components)
  forLoop (fun i (self : Tensor dim rank K) => do
      let y ← fetch T.data i
      let c ← fetch self.data i
      let data ← store self.data i (c - y)
      return { self with data := data }) self.n_components self

end Tensor

namespace Matrix

variable {K : Type}

/-- The default constructor `Matrix ()` of `matrix.cc`: no rows, no columns, a
buffer of no elements. -/
def construct_default : Matrix K :=
  { n_rows := 0, n_cols := 0, data := [] }

/-- The constructor `Matrix (m, n, zero)` of `matrix.cc`: a buffer of `m*n`
(an `unsigned int` product) elements holding `uninit`, zeroed by `reinit ()`
when `zero`. -/
def construct [Zero K] (m n : Nat) (zero : Bool) (uninit : Nat → K) :
    Except Failure (Matrix K) :=
  let fresh : Matrix K :=
    { n_rows := m, n_cols := n, data := (List.range ((m * n) % UINT_RANGE)).map uninit }
  if zero then fresh.reinit_zero else .ok fresh

/-- The copy constructor `Matrix (const Matrix &M)` of `matrix.cc`: the shape
of `M`, a buffer of `n_rows*n_cols` (an `unsigned int` product) elements, and a
`memcpy` of `sizeof (ValueType) * n_rows * n_cols` bytes (a `size_t` product)
from `M.data`. -/
def copy (M : Matrix K) : Except Failure (Matrix K) :=
  if M.n_rows * M.n_cols ≤ (M.n_rows * M.n_cols) % UINT_RANGE
      ∧ M.n_rows * M.n_cols ≤ M.data.length then
    .ok { n_rows := M.n_rows, n_cols := M.n_cols, data := M.data.take (M.n_rows * M.n_cols) }
  else .error .undefined

/-- The member `n_elements () const` (`matrix.h`, lines 346-351): the
`unsigned int` product of the two extents. -/
def n_elements (M : Matrix K) : Nat :=
  (M.n_rows * M.n_cols) % UINT_RANGE

/-- The loops of `tests/matrix/00.cc` (lines 16-18): `matrix (i, j) = f (i, j)`
for every `i < n_rows ()` and `j < n_cols ()`. -/
def assign_all (M : Matrix K) (f : Nat → Nat → K) : Except Failure (Matrix K) :=
  forLoop (fun i (M : Matrix K) =>
    forLoop (fun j (M : Matrix K) => M.set i j (f i j)) M.n_cols M) M.n_rows M

/-- The member `norm ()` (`matrix.h`, lines 466-479): the flat loop
`scalar += std::fabs (data[i])` over `n_rows*n_cols` (an `unsigned int`
product) elements. The pointer assertion always holds. -/
def norm [LinearOrderedField K] (M : Matrix K) : Except Failure K :=
  forLoop (fun i (scalar : K) => do
      let x ← fetch M.data i
      return scalar + |x|) ((M.n_rows * M.n_cols) % UINT_RANGE) 0

end Matrix

/-! ## Vector -/

/-- The class `Vector<ValueType>`: the element count `n_el` and the buffer
`data`. -/
structure Vector (K : Type) where
  n_el : Nat
  data : List K
  deriving DecidableEq, Repr

namespace Vector

variable {K : Type}

/-- The data-model invariant: the buffer holds `n_el` elements, and `n_el` is
an `unsigned int`. -/
def WF (v : Vector K) : Prop :=
  v.data.length = v.n_el ∧ v.n_el < UINT_RANGE

instance (v : Vector K) : Decidable v.WF := by unfold WF; infer_instance

/-- The member `l1_norm ()` (`vector.h`, lines 354-364):
`l1_norm += std::fabs (data[i])`. -/
def l1_norm [LinearOrderedField K] (v : Vector K) : Except Failure K :=
  forLoop (fun i (l1_norm : K) => do
      let x ← fetch v.data i
      return l1_norm + |x|) v.n_el 0

/-- The member `l2_norm ()` (`vector.h`, lines 366-376):
`l2_norm += data[i] * data[i]`, then `std::sqrt`, which is passed as
`sqrt`. -/
def l2_norm [Field K] (sqrt : K → K) (v : Vector K) : Except Failure K := do
  let l2_norm ← forLoop (fun i (l2_norm : K) => do
      let x ← fetch v.data i
      return l2_norm + x * x) v.n_el 0
  return sqrt l2_norm

/-- The member `lp_norm (p)` (`vector.h`, lines 378-390):
`lp_norm += std::pow (data[i], (ValueType) p)`, then
`std::pow (lp_norm, 1./p)`; `std::pow` is passed as `pow`. -/
def lp_norm [Field K] (pow : K → K → K) (v : Vector K) (p : Nat) : Except Failure K := do
  assert (p > 0)
  let lp_norm ← forLoop (fun i (lp_norm : K) => do
      let x ← fetch v.data i
      return lp_norm + pow x (p : K)) v.n_el 0
  return pow lp_norm (1 / (p : K))

end Vector

namespace Vector

variable {K : Type}

/-- The read-only `operator () (i) const` (`vector.h`, lines 269-276). -/
def get (v : Vector K) (i : Nat) : Except Failure K := do
  assert (i < v.n_el)
  fetch v.data i

/-- The member `reinit ()` of `vector.cc`: `memset` of
`sizeof (ValueType) * n_el` zero bytes over the buffer; undefined when the
buffer is shorter. -/
def reinit_zero [Zero K] (v : Vector K) : Except Failure (Vector K) :=
  if v.n_el ≤ v.data.length then
    .ok { v with data := List.replicate v.n_el 0 ++ v.data.drop v.n_el }
  else .error .undefined

/-- The default constructor `Vector ()` of `vector.cc`: no element. -/
def construct_default : Vector K :=
  { n_el := 0, data := [] }

/-- The constructor `Vector (m, zero)` of `vector.cc`: a buffer of `m`
elements holding `uninit`, zeroed by `reinit ()` when `zero`. -/
def construct [Zero K] (m : Nat) (zero : Bool) (uninit : Nat → K) : Except Failure (Vector K) :=
  let fresh : Vector K := { n_el := m, data := (List.range m).map uninit }
  if zero then fresh.reinit_zero else .ok fresh

/-- The copy constructor `Vector (const Vector &v)` of `vector.cc` (lines
56-64): the count of `v`, a fresh buffer of that many elements, filled by
`memcpy` from `v.data` when the count is not zero. -/
def copy (v : Vector K) : Except Failure (Vector K) :=
  if v.n_el ≠ 0 then
    if v.n_el ≤ v.data.length then .ok { n_el := v.n_el, data := v.data.take v.n_el }
    else .error .undefined
  else .ok { n_el := v.n_el, data := [] }

/-- The constructor `Vector (std::initializer_list list)` of `vector.cc`
(lines 66-74): `n_el` is `list.size ()` converted to `unsigned int`, the buffer
has `n_el` elements, and `std::copy` writes every list item when `n_el` is not
zero, undefined when the list is longer than the buffer. -/
def construct_list (list : List K) : Except Failure (Vector K) :=
  let n_el := list.length % UINT_RANGE
  if n_el ≠ 0 then
    if list.length ≤ n_el then .ok { n_el := n_el, data := list }
    else .error .undefined
  else .ok { n_el := n_el, data := [] }

/-- The member `reinit (m, zero)` of `vector.cc` (lines 99-113): the old
buffer is released, a buffer of `m` elements is allocated, holding `uninit`,
and zeroed when `zero`. -/
def reinit [Zero K] (_self : Vector K) (m : Nat) (zero : Bool) (uninit : Nat → K) :
    Except Failure (Vector K) :=
  let fresh : Vector K := { n_el := m, data := (List.range m).map uninit }
  if zero then
    .ok { fresh with data := List.replicate m 0 ++ fresh.data.drop m }
  else .ok fresh

/-- The member `size () const`. -/
def size (v : Vector K) : Nat := v.n_el

/-- The member `n_rows () const`. -/
def n_rows (v : Vector K) : Nat := v.n_el

/-- The vector an operator reads: `v` itself, or the destination when both
references name one object, as in `c += c`. -/
def source (aliased : Bool) (self v : Vector K) : Vector K :=
  if aliased then self else v

/-- The member `operator += (v)` (`vector.h`, lines 287-295) called on `self`;
`aliased` tells whether `v` is the object `self`. Returns the new state of
`self`. -/
def plus_assign [Field K] (aliased : Bool) (self v : Vector K) :
    Except Failure (Vector K) := do
  assert ((source aliased self v).n_el = self.n_el)
  forLoop (fun i (self : Vector K) => do
      let y ← fetch (source aliased self v).data i
      let c ← fetch self.data i
      let data ← store self.data i (c + y)
      return { self with data := data }) self.n_el self

/-- The member `operator -= (v)` (`vector.h`, lines 307-315) with `v` an object
other than `self`. Returns the new state of `self`. -/
def minus_assign [Field K] (self v : Vector K) : Except Failure (Vector K) := do
  assert (v.n_el = self.n_el)
  forLoop (fun i (self : Vector K) => do
      let y ← fetch v.data i
      let c ← fetch self.data i
      let data ← store self.data i (c - y)
      return { self with data := data }) self.n_el self

/-- The member `operator /= (scalar)` (`vector.h`, lines 326-333):
`data[i] /= scalar`. Returns the new state of `self`. -/
def div_assign [Field K] (self : Vector K) (scalar : K) : Except Failure (Vector K) :=
  forLoop (fun i (self : Vector K) => do
      let c ← fetch self.data i
      let data ← store self.data i (c / scalar)
      return { self with data := data }) self.n_el self

/-- The member `operator == (v) const` (`vector.h`, lines 335-344): `memcmp`
over the first `n_el` elements of both buffers. A scalar of the embedding has
one representation, so equal bytes are equal values. -/
def equal [DecidableEq K] (self v : Vector K) : Except Failure Bool := do
  assert (v.n_el = self.n_el)
  if self.n_el ≤ self.data.length ∧ self.n_el ≤ v.data.length then
    return decide (self.data.take self.n_el = v.data.take self.n_el)
  else .error .undefined

/-- The member `l2_normalize ()` (`vector.h`, lines 393-403); `std::sqrt` is
passed as `sqrt`. Returns the new state of `self`. -/
def l2_normalize [Field K] [DecidableEq K] (sqrt : K → K) (self : Vector K) :
    Except Failure (Vector K) := do
  let l2_norm ← self.l2_norm sqrt
  assert (l2_norm ≠ 0)
  forLoop (fun i (self : Vector K) => do
      let c ← fetch self.data i
      let data ← store self.data i (c / l2_norm)
      return { self with data := data }) self.n_el self

/-- The member `lp_normalize (p)` (`vector.h`, lines 405-414); `std::pow` is
passed as `pow`. The quotient by a zero norm is whatever the division of the
scalar type gives. Returns the new state of `self`. -/
def lp_normalize [Field K] (pow : K → K → K) (self : Vector K) (p : Nat) :
    Except Failure (Vector K) := do
  let lp_norm ← self.lp_norm pow p
  forLoop (fun i (self : Vector K) => do
      let c ← fetch self.data i
      let data ← store self.data i (c / lp_norm)
      return { self with data := data }) self.n_el self

/-- The member `diag (M)` (`vector.h`, lines 416-428): `data[i] = M (i, i)`.
Returns the new state of `self`. -/
def diag (self : Vector K) (M : Matrix K) : Except Failure (Vector K) := do
  assert (M.n_rows = M.n_cols)
  assert (self.n_el = M.n_rows)
  if self.n_el = 0 then
    return self
  forLoop (fun i (self : Vector K) => do
      let x ← M.get i i
      let data ← store self.data i x
      return { self with data := data }) self.n_el self

/-- The member `sadd (a, v)` (`vector.h`, lines 430-441) called on `self`, an
object other than `v`: `data[i] = a*v(i)`. Returns the new state of `self`. -/
def sadd [Field K] (self : Vector K) (a : K) (v : Vector K) : Except Failure (Vector K) := do
  assert (self.n_el ≠ 0)
  assert (v.n_el = self.n_el)
  forLoop (fun i (self : Vector K) => do
      let x ← v.get i
      let data ← store self.data i (a * x)
      return { self with data := data }) self.n_el self

/-- The member `sadd (a, v, b, w)` (`vector.h`, lines 443-456) called on
`self`, an object other than `v` and `w`: `data[i] = a*v(i) + b*w(i)`. Returns
the new state of `self`. -/
def sadd_2 [Field K] (self : Vector K) (a : K) (v : Vector K) (b : K) (w : Vector K) :
    Except Failure (Vector K) := do
  assert (self.n_el ≠ 0)
  assert (v.n_el = self.n_el)
  forLoop (fun i (self : Vector K) => do
      let x ← v.get i
      let y ← w.get i
      let data ← store self.data i (a * x + b * y)
      return { self with data := data }) self.n_el self

end Vector

namespace Matrix

variable {K : Type}

/-- The member `operator -= (M)` (`matrix.h`, lines 365-375) with `M` an object
other than `self`: the flat loop `data[i] -= M.data[i]` over `n_rows*n_cols`
(an `unsigned int` product) elements. Returns the new state of `self`. -/
def minus_assign [Field K] (self M : Matrix K) : Except Failure (Matrix K) := do
  assert (M.n_rows = self.n_rows)
  assert (M.n_cols = self.n_cols)
  forLoop (fun i (self : Matrix K) => do
      let y ← fetch M.data i
      let c ← fetch self.data i
      let data ← store self.data i (c - y)
      return { self with data := data }) ((self.n_rows * self.n_cols) % UINT_RANGE) self

/-- The conversion constructor `Matrix (const Tensor<dim, 2, ValueType> &T)`
(`matrix.h`, lines 537-549): both extents are `dim`, the buffer has
`n_rows*n_cols` (an `unsigned int` product) elements, and when `dim` is not
zero that many elements are copied from the buffer of `T` by `memcpy`. -/
def construct_from_tensor {dim : Nat} (T : Tensor dim 2 K) : Except Failure (Matrix K) :=
  if dim ≠ 0 ∧ dim ≠ 0 then
    if (dim * dim) % UINT_RANGE ≤ T.data.length then
      .ok { n_rows := dim, n_cols := dim, data := T.data.take ((dim * dim) % UINT_RANGE) }
    else .error .undefined
  else .ok { n_rows := dim, n_cols := dim, data := [] }

/-- The words of the specification: `transpose (A)`, the matrix with
`transpose (A)(i, j) = A(j, i)`. -/
def transpose_spec [Zero K] (A : Matrix K) : Matrix K :=
  { n_rows := A.n_cols, n_cols := A.n_rows,
    data := (List.range (A.n_cols * A.n_rows)).map
      (fun p => A.val (p % A.n_rows) (p / A.n_rows)) }

end Matrix

/-! ## Square root in binary64 -/

/-- The natural number nearest to the square root of `q >= 0`, the upper one
when two are equally near. -/
def round_sqrt (q : ℚ) : Nat :=
  if (Nat.sqrt ⌊q⌋₊ : ℚ) * Nat.sqrt ⌊q⌋₊ + Nat.sqrt ⌊q⌋₊ + 1 / 4 ≤ q then Nat.sqrt ⌊q⌋₊ + 1
  else Nat.sqrt ⌊q⌋₊

/-- The function `std::sqrt` on IEEE 754 binary64 numbers, which are rationals:
the root rounded to the nearest number with a 53-bit significand. With
`4^k <= x < 4^(k+1)` the root lies in `[2^k, 2^(k+1))` and the result is
`m * 2^(k-52)` with `m` the integer nearest to `sqrt (x) * 2^(52-k)`. Arguments
whose root is subnormal or above the largest finite number are not
modelled, and a non-positive argument gives `0`. -/
def sqrt_binary64 (x : ℚ) : ℚ :=
  if x ≤ 0 then 0
  else (round_sqrt (x * 4 ^ (52 - Int.log 4 x)) : ℚ) * 2 ^ (Int.log 4 x - 52)

/-! ## Index linearisation: lemmas -/

theorem UINT_RANGE_pos : 0 < UINT_RANGE := by decide

theorem fetch_of_lt {K : Type} {data : List K} {off : Nat} (h : off < data.length) :
    fetch data off = .ok (data.get ⟨off, h⟩) := by
  simp [fetch, List.getElem?_eq_getElem h]

theorem store_of_lt {K : Type} {data : List K} {off : Nat} (h : off < data.length) (v : K) :
    store data off v = .ok (data.set off v) := by
  simp [store, h]

theorem math.pow_eq_mod (x y : Nat) : math.pow x y = x ^ y % UINT_RANGE := by
  induction y with
  | zero => simp [math.pow, UINT_RANGE]
  | succ y ih =>
    rw [math.pow, ih, pow_succ, Nat.mul_comm (x ^ y) x, Nat.mul_mod x (x ^ y % UINT_RANGE),
      Nat.mod_mod, ← Nat.mul_mod]

theorem math.pow_eq_of_lt {x y : Nat} (h : x ^ y < UINT_RANGE) : math.pow x y = x ^ y := by
  rw [math.pow_eq_mod, Nat.mod_eq_of_lt h]

namespace Tensor

variable {dim rank : Nat} {K : Type}

theorem linear_sum_eq_ofDigits (dim : Nat) (idx : List Nat) :
    linear_sum dim idx.length idx = Nat.ofDigits dim idx := by
  induction idx with
  | nil => simp [linear_sum]
  | cons a l ih =>
    rw [Nat.ofDigits_cons, ← ih]
    simp only [linear_sum, List.length_cons, Finset.sum_range_succ', Finset.mul_sum]
    simp only [List.getD_cons_succ, List.getD_cons_zero, pow_zero, mul_one, pow_succ]
    rw [Nat.add_comm]
    congr 1
    apply Finset.sum_congr rfl
    intro k _
    ring

theorem ofDigits_lt (dim : Nat) (l : List Nat) (h : ∀ x ∈ l, x < dim) :
    Nat.ofDigits dim l < dim ^ l.length := by
  induction l with
  | nil => simp
  | cons a l ih =>
    have ha : a < dim := h a (List.mem_cons_self a l)
    have hl := ih (fun x hx => h x (List.mem_cons_of_mem a hx))
    rw [Nat.ofDigits_cons, List.length_cons, pow_succ]
    nlinarith

theorem ofDigits_inj (dim : Nat) : ∀ (l l' : List Nat), l.length = l'.length →
    (∀ x ∈ l, x < dim) → (∀ x ∈ l', x < dim) → Nat.ofDigits dim l = Nat.ofDigits dim l' →
    l = l'
  | [], [], _, _, _, _ => rfl
  | [], _ :: _, h, _, _, _ => by simp at h
  | _ :: _, [], h, _, _, _ => by simp at h
  | a :: l, b :: l', hlen, h, h', he => by
    have ha : a < dim := h a (List.mem_cons_self a l)
    have hb : b < dim := h' b (List.mem_cons_self b l')
    rw [Nat.ofDigits_cons, Nat.ofDigits_cons] at he
    have hab : a = b := by
      have := congrArg (· % dim) he
      simpa [Nat.add_mul_mod_self_left, Nat.mod_eq_of_lt ha, Nat.mod_eq_of_lt hb] using this
    subst hab
    have hpos : 0 < dim := by omega
    have ht : Nat.ofDigits dim l = Nat.ofDigits dim l' :=
      Nat.eq_of_mul_eq_mul_left hpos (Nat.add_left_cancel he)
    rw [ofDigits_inj dim l l' (by simpa using hlen)
      (fun x hx => h x (List.mem_cons_of_mem a hx))
      (fun x hx => h' x (List.mem_cons_of_mem a hx)) ht]

theorem to_index_length (dim : Nat) : ∀ (r d : Nat), (to_index dim r d).length = r
  | 0, _ => rfl
  | r + 1, d => by simp [to_index, to_index_length dim r]

theorem to_index_lt (dim : Nat) (hdim : 0 < dim) :
    ∀ (r d : Nat), ∀ x ∈ to_index dim r d, x < dim
  | 0, _ => by simp [to_index]
  | r + 1, d => by
    intro x hx
    simp only [to_index, List.mem_cons] at hx
    rcases hx with rfl | hx
    · exact Nat.mod_lt _ hdim
    · exact to_index_lt dim hdim r _ x hx

theorem ofDigits_to_index (dim : Nat) (hdim : 0 < dim) :
    ∀ (r d : Nat), d < dim ^ r → Nat.ofDigits dim (to_index dim r d) = d
  | 0, d => by intro h; simp at h; simp [to_index, h]
  | r + 1, d => by
    intro h
    have hd : d / dim < dim ^ r := by
      apply Nat.div_lt_of_lt_mul
      rwa [pow_succ, Nat.mul_comm] at h
    rw [to_index, Nat.ofDigits_cons, ofDigits_to_index dim hdim r _ hd]
    exact Nat.mod_add_div d dim

/-- What the loop of `operator ()` computes: the running value plus the
base-`dim` value of the remaining indices scaled by `dim ^ i`, reduced modulo
the range of `unsigned int`. -/
theorem index_loop_eq (dim : Nat) : ∀ (n i : Nat) (l : List Nat) (d : Nat),
    l.length = n → (∀ x ∈ l, x < dim) → d < UINT_RANGE →
    index_loop dim n i l d = .ok ((d + dim ^ i * Nat.ofDigits dim l) % UINT_RANGE)
  | 0, i, l, d, hl, _, hd => by
    have : l = [] := List.length_eq_zero.mp hl
    subst this
    simp [index_loop, Nat.mod_eq_of_lt hd]
  | n + 1, i, [], d, hl, _, _ => by simp at hl
  | n + 1, i, b :: l, d, hl, h, hd => by
    have hb : b < dim := h b (List.mem_cons_self b l)
    have ih := index_loop_eq dim n (i + 1) l
      ((d + (math.pow dim i * b) % UINT_RANGE) % UINT_RANGE) (by simpa using hl)
      (fun x hx => h x (List.mem_cons_of_mem b hx)) (Nat.mod_lt _ UINT_RANGE_pos)
    simp only [index_loop, hb, if_true]
    rw [ih, Nat.ofDigits_cons, math.pow_eq_mod]
    congr 1
    have h1 : Nat.ModEq UINT_RANGE (dim ^ i % UINT_RANGE * b % UINT_RANGE) (dim ^ i * b) :=
      (Nat.mod_modEq _ _).trans ((Nat.mod_modEq _ _).mul_right b)
    have h2 : Nat.ModEq UINT_RANGE ((d + dim ^ i % UINT_RANGE * b % UINT_RANGE) % UINT_RANGE)
        (d + dim ^ i * b) :=
      (Nat.mod_modEq _ _).trans (Nat.ModEq.add_left d h1)
    have h3 := h2.add_right (dim ^ (i + 1) * Nat.ofDigits dim l)
    have h4 : d + dim ^ i * b + dim ^ (i + 1) * Nat.ofDigits dim l
        = d + dim ^ i * (b + dim * Nat.ofDigits dim l) := by ring
    rw [h4] at h3
    exact h3

theorem offset_ro_eq_rw (T : Tensor dim rank K) (index : Nat) (index_list : List Nat) :
    T.offset_ro index index_list = T.offset_rw index index_list := rfl

theorem construct_WF (dim rank : Nat) {K : Type} [Zero K] (zero : Bool) (uninit : Nat → K) :
    (construct dim rank zero uninit).WF := by
  cases zero <;> simp [construct, WF]

theorem n_components_eq_of_fit {T : Tensor dim rank K} (hT : T.WF)
    (hfit : dim ^ rank < UINT_RANGE) : T.n_components = dim ^ rank := by
  rw [hT.1, math.pow_eq_of_lt hfit]

theorem linear_sum_lt {index : Nat} {l : List Nat} (hv : valid_index dim rank index l) :
    linear_sum dim rank (index :: l) < dim ^ rank := by
  have h := ofDigits_lt dim (index :: l) hv.2
  rw [← linear_sum_eq_ofDigits, hv.1] at h
  exact h

/-- Without wrap-around (`dim ^ rank` fits `unsigned int`) a valid multi-index
passes every assertion of `operator ()` and yields its base-`dim` value. -/
theorem offset_rw_of_fit {T : Tensor dim rank K} (hT : T.WF) (hfit : dim ^ rank < UINT_RANGE)
    (hrank : 1 ≤ rank) {index : Nat} {l : List Nat} (hv : valid_index dim rank index l) :
    T.offset_rw index l = .ok (linear_sum dim rank (index :: l)) := by
  have hn := n_components_eq_of_fit hT hfit
  have hlt := linear_sum_lt hv
  have hi : index < dim := hv.2 index (List.mem_cons_self _ _)
  have hdimU : dim ≤ dim ^ rank := Nat.le_self_pow (by omega) dim
  have hlen : l.length = rank - 1 := by have := hv.1; simp at this; omega
  have hloop := index_loop_eq dim (rank - 1) 1 l index hlen
    (fun x hx => hv.2 x (List.mem_cons_of_mem _ hx)) (by omega)
  have hs : linear_sum dim rank (index :: l) = index + dim ^ 1 * Nat.ofDigits dim l := by
    rw [← hv.1, linear_sum_eq_ofDigits, Nat.ofDigits_cons, pow_one]
  rw [← hs, Nat.mod_eq_of_lt (by omega)] at hloop
  have hne : T.n_components ≠ 0 := by omega
  have hb : linear_sum dim rank (index :: l) < T.n_components := by omega
  simp [offset_rw, assert, hne, hi, hloop, hb, bind, Except.bind, pure, Except.pure]

end Tensor

/-! ## Inversion: lemmas -/

theorem list_length_one {l : List K} (h : l.length = 1) : ∃ a, l = [a] := by
  rcases l with _ | ⟨a, _ | ⟨b, l⟩⟩ <;> simp at h
  exact ⟨a, rfl⟩

theorem list_length_four {l : List K} (h : l.length = 4) : ∃ a b c d, l = [a, b, c, d] := by
  rcases l with _ | ⟨a, _ | ⟨b, _ | ⟨c, _ | ⟨d, _ | ⟨e, l⟩⟩⟩⟩⟩ <;> simp at h
  exact ⟨a, b, c, d, rfl⟩

theorem list_length_nine {l : List K} (h : l.length = 9) :
    ∃ a b c d e f g h k, l = [a, b, c, d, e, f, g, h, k] := by
  rcases l with _ | ⟨a, _ | ⟨b, _ | ⟨c, _ | ⟨d, _ | ⟨e, _ | ⟨f, _ | ⟨g, _ | ⟨h', _ | ⟨k, _ | ⟨x, l⟩⟩⟩⟩⟩⟩⟩⟩⟩⟩ <;>
    simp at h
  exact ⟨a, b, c, d, e, f, g, h', k, rfl⟩

theorem assert_bind_of_not {α : Type} {c : Prop} [Decidable c] (h : ¬ c)
    (f : Unit → Except Failure α) : (assert c >>= f) = .error .assertion := by
  simp [assert, h, bind, Except.bind]

theorem assert_bind_of {α : Type} {c : Prop} [Decidable c] (h : c)
    (f : Unit → Except Failure α) : (assert c >>= f) = f () := by
  simp [assert, h, bind, Except.bind]

namespace Tensor

variable {K : Type}

theorem invert_impl_bad_shape [Field K] [DecidableEq K] {dim rank : Nat} (al : Bool)
    (self T : Tensor dim rank K) (h : rank ≠ 2 ∨ 4 ≤ dim) :
    invert_impl al self T = .error .assertion := by
  by_cases hd : dim < 4
  · have hr : rank ≠ 2 := by omega
    simp [invert_impl, assert, hd, hr, bind, Except.bind]
  · simp [invert_impl, assert, hd, bind, Except.bind]

theorem invert_impl_dim_zero [Field K] [DecidableEq K] (al : Bool) (self T : Tensor 0 2 K) :
    invert_impl al self T = .error .assertion := rfl

theorem lit_of_WF_one {T : Tensor 1 2 K} (h : T.WF) : ∃ a, T = ⟨1, [a]⟩ := by
  obtain ⟨n, data⟩ := T
  obtain ⟨h1, h2⟩ := h
  simp only at h1 h2
  subst h1
  obtain ⟨a, rfl⟩ := list_length_one (h2.trans (by decide))
  exact ⟨a, rfl⟩

theorem lit_of_WF_two {T : Tensor 2 2 K} (h : T.WF) : ∃ a b c d, T = ⟨4, [a, b, c, d]⟩ := by
  obtain ⟨n, data⟩ := T
  obtain ⟨h1, h2⟩ := h
  simp only at h1 h2
  subst h1
  obtain ⟨a, b, c, d, rfl⟩ := list_length_four (h2.trans (by decide))
  exact ⟨a, b, c, d, rfl⟩

theorem lit_of_WF_three {T : Tensor 3 2 K} (h : T.WF) :
    ∃ a b c d e f g h k, T = ⟨9, [a, b, c, d, e, f, g, h, k]⟩ := by
  obtain ⟨n, data⟩ := T
  obtain ⟨h1, h2⟩ := h
  simp only at h1 h2
  subst h1
  obtain ⟨a, b, c, d, e, f, g, h, k, rfl⟩ := list_length_nine (h2.trans (by decide))
  exact ⟨a, b, c, d, e, f, g, h, k, rfl⟩

theorem invert_impl_one [Field K] [DecidableEq K] (al : Bool) (x a : K) :
    invert_impl al (⟨1, [x]⟩ : Tensor 1 2 K) ⟨1, [a]⟩
      = if (if al then x else a) = 0 then .error .assertion
        else .ok ⟨1, [1 / (if al then x else a)]⟩ := by
  have hrfl : invert_impl al (⟨1, [x]⟩ : Tensor 1 2 K) ⟨1, [a]⟩
      = (assert ((if al then x else a) ≠ 0) >>= fun _ =>
          .ok ⟨1, [1 / (if al then x else a)]⟩) := by
    cases al <;> rfl
  rw [hrfl]
  by_cases h0 : (if al then x else a) = 0 <;> simp [assert, h0, bind, Except.bind]

theorem invert_dim_two [Field K] [DecidableEq K] (x0 x1 x2 x3 a b c d : K) :
    invert (⟨4, [x0, x1, x2, x3]⟩ : Tensor 2 2 K) ⟨4, [a, b, c, d]⟩
      = if a * d - c * b = 0 then .error .assertion
        else .ok ⟨4, [d / (a * d - c * b), -b / (a * d - c * b),
                      -c / (a * d - c * b), a / (a * d - c * b)]⟩ := by
  have hrfl : invert (⟨4, [x0, x1, x2, x3]⟩ : Tensor 2 2 K) ⟨4, [a, b, c, d]⟩
      = (assert (a * d - c * b ≠ 0) >>= fun _ =>
          .ok ⟨4, [d / (a * d - c * b), -b / (a * d - c * b),
                      -c / (a * d - c * b), a / (a * d - c * b)]⟩) := rfl
  rw [hrfl]
  by_cases h0 : a * d - c * b = 0 <;> simp [assert, h0, bind, Except.bind]

theorem invert_dim_three [Field K] [DecidableEq K] (x0 x1 x2 x3 x4 x5 x6 x7 x8 a b c d e f g h k : K) :
    invert (⟨9, [x0, x1, x2, x3, x4, x5, x6, x7, x8]⟩ : Tensor 3 2 K)
        ⟨9, [a, b, c, d, e, f, g, h, k]⟩
      = if a * (k * e - f * h) - b * (k * d - f * g) + c * (h * d - e * g) = 0
        then .error .assertion
        else .ok ⟨9,
          [(k * e - f * h) / (a * (k * e - f * h) - b * (k * d - f * g) + c * (h * d - e * g)),
           -(k * b - c * h) / (a * (k * e - f * h) - b * (k * d - f * g) + c * (h * d - e * g)),
           (f * b - c * e) / (a * (k * e - f * h) - b * (k * d - f * g) + c * (h * d - e * g)),
           -(k * d - f * g) / (a * (k * e - f * h) - b * (k * d - f * g) + c * (h * d - e * g)),
           (k * a - c * g) / (a * (k * e - f * h) - b * (k * d - f * g) + c * (h * d - e * g)),
           -(f * a - c * d) / (a * (k * e - f * h) - b * (k * d - f * g) + c * (h * d - e * g)),
           (h * d - e * g) / (a * (k * e - f * h) - b * (k * d - f * g) + c * (h * d - e * g)),
           -(h * a - b * g) / (a * (k * e - f * h) - b * (k * d - f * g) + c * (h * d - e * g)),
           (e * a - b * d) / (a * (k * e - f * h) - b * (k * d - f * g) + c * (h * d - e * g))]⟩ := by
  have hrfl : invert (⟨9, [x0, x1, x2, x3, x4, x5, x6, x7, x8]⟩ : Tensor 3 2 K)
        ⟨9, [a, b, c, d, e, f, g, h, k]⟩
      = (assert (a * (k * e - f * h) - b * (k * d - f * g) + c * (h * d - e * g) ≠ 0) >>= fun _ =>
        .ok ⟨9,
          [(k * e - f * h) / (a * (k * e - f * h) - b * (k * d - f * g) + c * (h * d - e * g)),
           -(k * b - c * h) / (a * (k * e - f * h) - b * (k * d - f * g) + c * (h * d - e * g)),
           (f * b - c * e) / (a * (k * e - f * h) - b * (k * d - f * g) + c * (h * d - e * g)),
           -(k * d - f * g) / (a * (k * e - f * h) - b * (k * d - f * g) + c * (h * d - e * g)),
           (k * a - c * g) / (a * (k * e - f * h) - b * (k * d - f * g) + c * (h * d - e * g)),
           -(f * a - c * d) / (a * (k * e - f * h) - b * (k * d - f * g) + c * (h * d - e * g)),
           (h * d - e * g) / (a * (k * e - f * h) - b * (k * d - f * g) + c * (h * d - e * g)),
           -(h * a - b * g) / (a * (k * e - f * h) - b * (k * d - f * g) + c * (h * d - e * g)),
           (e * a - b * d) / (a * (k * e - f * h) - b * (k * d - f * g) + c * (h * d - e * g))]⟩) :=
    rfl
  rw [hrfl]
  by_cases h0 : a * (k * e - f * h) - b * (k * d - f * g) + c * (h * d - e * g) = 0 <;>
    simp [assert, h0, bind, Except.bind]

theorem det_spec_dim_one [Field K] (a : K) : det_spec (⟨1, [a]⟩ : Tensor 1 2 K) = a := rfl

theorem det_spec_dim_two [Field K] (a b c d : K) :
    det_spec (⟨4, [a, b, c, d]⟩ : Tensor 2 2 K) = a * d - c * b := rfl

theorem det_spec_dim_three [Field K] (a b c d e f g h k : K) :
    det_spec (⟨9, [a, b, c, d, e, f, g, h, k]⟩ : Tensor 3 2 K)
      = a * (e * k - h * f) - b * (d * k - g * f) + c * (d * h - g * e) := rfl

theorem sum_val_dim_two [Field K] (x0 x1 x2 x3 y0 y1 y2 y3 : K) (i j : Nat) (hi : i < 2)
    (hj : j < 2) :
    (Finset.range 2).sum (fun k =>
        (⟨4, [x0, x1, x2, x3]⟩ : Tensor 2 2 K).val i k * (⟨4, [y0, y1, y2, y3]⟩ : Tensor 2 2 K).val k j)
      = [x0 * y0 + x2 * y1, x0 * y2 + x2 * y3,
         x1 * y0 + x3 * y1, x1 * y2 + x3 * y3].getD (2 * i + j) 0 := by
  interval_cases i <;> interval_cases j <;>
    simp only [Finset.sum_range_succ, Finset.sum_range_zero, zero_add] <;> rfl

theorem sum_val_dim_three [Field K] (x0 x1 x2 x3 x4 x5 x6 x7 x8 y0 y1 y2 y3 y4 y5 y6 y7 y8 : K)
    (i j : Nat) (hi : i < 3) (hj : j < 3) :
    (Finset.range 3).sum (fun k =>
        (⟨9, [x0, x1, x2, x3, x4, x5, x6, x7, x8]⟩ : Tensor 3 2 K).val i k
          * (⟨9, [y0, y1, y2, y3, y4, y5, y6, y7, y8]⟩ : Tensor 3 2 K).val k j)
      = [x0 * y0 + x3 * y1 + x6 * y2, x0 * y3 + x3 * y4 + x6 * y5, x0 * y6 + x3 * y7 + x6 * y8,
         x1 * y0 + x4 * y1 + x7 * y2, x1 * y3 + x4 * y4 + x7 * y5, x1 * y6 + x4 * y7 + x7 * y8,
         x2 * y0 + x5 * y1 + x8 * y2, x2 * y3 + x5 * y4 + x8 * y5,
         x2 * y6 + x5 * y7 + x8 * y8].getD (3 * i + j) 0 := by
  interval_cases i <;> interval_cases j <;>
    simp only [Finset.sum_range_succ, Finset.sum_range_zero, zero_add] <;> rfl

end Tensor

namespace Matrix

variable {K : Type}

theorem reinit_eq [Zero K] (self : Matrix K) (m n : Nat) (u : Nat → K) (h : m * n < UINT_RANGE) :
    self.reinit m n true u = .ok ⟨m, n, List.replicate (m * n) 0⟩ := by
  simp [reinit, reinit_zero, Nat.mod_eq_of_lt h]

theorem invert_impl_nonsquare [Field K] [DecidableEq K] (al : Bool) (self M : Matrix K)
    (h : M.n_rows ≠ M.n_cols) :
    invert_impl al self M = .error .assertion := by
  simp [invert_impl, assert, h, bind, Except.bind]

theorem invert_impl_zero [Field K] [DecidableEq K] (al : Bool) (self : Matrix K) (data : List K) :
    invert_impl al self ⟨0, 0, data⟩ = .error .assertion := by
  cases al <;> rfl

theorem invert_impl_large [Field K] [DecidableEq K] (al : Bool) (self : Matrix K) (n : Nat)
    (data : List K) (h : (n + 4) * (n + 4) < UINT_RANGE) :
    invert_impl al self ⟨n + 4, n + 4, data⟩ = .error .assertion := by
  cases al <;> simp [invert_impl, assert, bind, Except.bind, reinit_eq _ _ _ _ h, source]

theorem invert_one [Field K] [DecidableEq K] (self : Matrix K) (a : K) :
    invert self ⟨1, 1, [a]⟩ = if a = 0 then .error .assertion else .ok ⟨1, 1, [1 / a]⟩ := by
  have h : invert self ⟨1, 1, [a]⟩
      = (assert (a ≠ 0) >>= fun _ => .ok ⟨1, 1, [1 / a]⟩) := rfl
  rw [h]
  by_cases h0 : a = 0 <;> simp [assert, h0, bind, Except.bind]

theorem invert_two [Field K] [DecidableEq K] (self : Matrix K) (a b c d : K) :
    invert self ⟨2, 2, [a, b, c, d]⟩
      = if a * d - b * c = 0 then .error .assertion
        else .ok ⟨2, 2, [d / (a * d - b * c), -b / (a * d - b * c),
                          -c / (a * d - b * c), a / (a * d - b * c)]⟩ := by
  have h : invert self ⟨2, 2, [a, b, c, d]⟩
      = (assert (a * d - b * c ≠ 0) >>= fun _ =>
          .ok ⟨2, 2, [d / (a * d - b * c), -b / (a * d - b * c),
                          -c / (a * d - b * c), a / (a * d - b * c)]⟩) := rfl
  rw [h]
  by_cases h0 : a * d - b * c = 0 <;> simp [assert, h0, bind, Except.bind]

theorem invert_three [Field K] [DecidableEq K] (self : Matrix K) (a b c d e f g h k : K) :
    invert self ⟨3, 3, [a, b, c, d, e, f, g, h, k]⟩
      = if a * (k * e - h * f) - d * (k * b - h * c) + g * (f * b - e * c) = 0
        then .error .assertion
        else .ok ⟨3, 3,
          [(k * e - h * f) / (a * (k * e - h * f) - d * (k * b - h * c) + g * (f * b - e * c)),
           -(k * b - h * c) / (a * (k * e - h * f) - d * (k * b - h * c) + g * (f * b - e * c)),
           (f * b - e * c) / (a * (k * e - h * f) - d * (k * b - h * c) + g * (f * b - e * c)),
           -(k * d - g * f) / (a * (k * e - h * f) - d * (k * b - h * c) + g * (f * b - e * c)),
           (k * a - g * c) / (a * (k * e - h * f) - d * (k * b - h * c) + g * (f * b - e * c)),
           -(f * a - d * c) / (a * (k * e - h * f) - d * (k * b - h * c) + g * (f * b - e * c)),
           (h * d - g * e) / (a * (k * e - h * f) - d * (k * b - h * c) + g * (f * b - e * c)),
           -(h * a - g * b) / (a * (k * e - h * f) - d * (k * b - h * c) + g * (f * b - e * c)),
           (e * a - d * b) / (a * (k * e - h * f) - d * (k * b - h * c) + g * (f * b - e * c))]⟩ := by
  have hrfl : invert self ⟨3, 3, [a, b, c, d, e, f, g, h, k]⟩
      = (assert (a * (k * e - h * f) - d * (k * b - h * c) + g * (f * b - e * c) ≠ 0) >>= fun _ =>
        .ok ⟨3, 3,
          [(k * e - h * f) / (a * (k * e - h * f) - d * (k * b - h * c) + g * (f * b - e * c)),
           -(k * b - h * c) / (a * (k * e - h * f) - d * (k * b - h * c) + g * (f * b - e * c)),
           (f * b - e * c) / (a * (k * e - h * f) - d * (k * b - h * c) + g * (f * b - e * c)),
           -(k * d - g * f) / (a * (k * e - h * f) - d * (k * b - h * c) + g * (f * b - e * c)),
           (k * a - g * c) / (a * (k * e - h * f) - d * (k * b - h * c) + g * (f * b - e * c)),
           -(f * a - d * c) / (a * (k * e - h * f) - d * (k * b - h * c) + g * (f * b - e * c)),
           (h * d - g * e) / (a * (k * e - h * f) - d * (k * b - h * c) + g * (f * b - e * c)),
           -(h * a - g * b) / (a * (k * e - h * f) - d * (k * b - h * c) + g * (f * b - e * c)),
           (e * a - d * b) / (a * (k * e - h * f) - d * (k * b - h * c) + g * (f * b - e * c))]⟩) :=
    rfl
  rw [hrfl]
  by_cases h0 : a * (k * e - h * f) - d * (k * b - h * c) + g * (f * b - e * c) = 0 <;>
    simp [assert, h0, bind, Except.bind]

theorem invert_self_one [Field K] [DecidableEq K] (data : List K) :
    invert_self ⟨1, 1, data⟩ = .error .assertion := by
  have h : invert_self ⟨1, 1, data⟩
      = (assert ((0 : K) ≠ 0) >>= fun _ =>
          (⟨1, 1, [0]⟩ : Matrix K).set 0 0 (1 / 0)) := rfl
  rw [h]
  exact assert_bind_of_not (by simp) _

theorem invert_self_two [Field K] [DecidableEq K] (data : List K) :
    invert_self ⟨2, 2, data⟩ = .error .assertion := by
  have h : invert_self ⟨2, 2, data⟩
      = (assert ((0 : K) * 0 - 0 * 0 ≠ 0) >>= fun _ =>
          invert_fill_2 true ⟨2, 2, [0, 0, 0, 0]⟩ ⟨2, 2, data⟩ ((0 : K) * 0 - 0 * 0)) := rfl
  rw [h]
  exact assert_bind_of_not (by simp) _

theorem invert_self_three [Field K] [DecidableEq K] (data : List K) :
    invert_self ⟨3, 3, data⟩ = .error .assertion := by
  have h : invert_self ⟨3, 3, data⟩
      = (assert ((0 : K) * (0 * 0 - 0 * 0) - 0 * (0 * 0 - 0 * 0) + 0 * (0 * 0 - 0 * 0) ≠ 0)
          >>= fun _ =>
          invert_fill_3 true ⟨3, 3, [0, 0, 0, 0, 0, 0, 0, 0, 0]⟩ ⟨3, 3, data⟩
            ((0 : K) * (0 * 0 - 0 * 0) - 0 * (0 * 0 - 0 * 0) + 0 * (0 * 0 - 0 * 0))) := rfl
  rw [h]
  exact assert_bind_of_not (by simp) _

/-- The call `A.invert (A)` fails for every matrix. -/
theorem invert_self_fails [Field K] [DecidableEq K] (A : Matrix K)
    (hA : A.n_rows * A.n_cols < UINT_RANGE) : invert_self A = .error .assertion := by
  obtain ⟨r, c, data⟩ := A
  by_cases hrc : r = c
  · subst hrc
    match r, hA with
    | 0, _ => exact invert_impl_zero true _ data
    | 1, _ => exact invert_self_one data
    | 2, _ => exact invert_self_two data
    | 3, _ => exact invert_self_three data
    | n + 4, hA => exact invert_impl_large true _ n data hA
  · exact invert_impl_nonsquare true _ _ hrc

theorem det_spec_one [Field K] (a : K) : det_spec ⟨1, 1, [a]⟩ = a := rfl

theorem det_spec_two [Field K] (a b c d : K) :
    det_spec ⟨2, 2, [a, b, c, d]⟩ = a * d - b * c := rfl

theorem det_spec_three [Field K] (a b c d e f g h k : K) :
    det_spec ⟨3, 3, [a, b, c, d, e, f, g, h, k]⟩
      = a * (e * k - f * h) - d * (b * k - c * h) + g * (b * f - c * e) := rfl

theorem wf_lit_one (a : K) : (⟨1, 1, [a]⟩ : Matrix K).WF :=
  ⟨rfl, by show 1 * 1 < UINT_RANGE; decide⟩

theorem wf_lit_two (a b c d : K) : (⟨2, 2, [a, b, c, d]⟩ : Matrix K).WF :=
  ⟨rfl, by show 2 * 2 < UINT_RANGE; decide⟩

theorem wf_lit_three (a b c d e f g h k : K) :
    (⟨3, 3, [a, b, c, d, e, f, g, h, k]⟩ : Matrix K).WF :=
  ⟨rfl, by show 3 * 3 < UINT_RANGE; decide⟩

theorem sum_val_two [Field K] (x0 x1 x2 x3 y0 y1 y2 y3 : K) (i j : Nat) (hi : i < 2)
    (hj : j < 2) :
    (Finset.range 2).sum (fun k =>
        (⟨2, 2, [x0, x1, x2, x3]⟩ : Matrix K).val i k * (⟨2, 2, [y0, y1, y2, y3]⟩ : Matrix K).val k j)
      = [x0 * y0 + x1 * y2, x0 * y1 + x1 * y3,
         x2 * y0 + x3 * y2, x2 * y1 + x3 * y3].getD (2 * i + j) 0 := by
  interval_cases i <;> interval_cases j <;>
    simp only [Finset.sum_range_succ, Finset.sum_range_zero, zero_add] <;> rfl

theorem sum_val_three [Field K] (x0 x1 x2 x3 x4 x5 x6 x7 x8 y0 y1 y2 y3 y4 y5 y6 y7 y8 : K)
    (i j : Nat) (hi : i < 3) (hj : j < 3) :
    (Finset.range 3).sum (fun k =>
        (⟨3, 3, [x0, x1, x2, x3, x4, x5, x6, x7, x8]⟩ : Matrix K).val i k
          * (⟨3, 3, [y0, y1, y2, y3, y4, y5, y6, y7, y8]⟩ : Matrix K).val k j)
      = [x0 * y0 + x1 * y3 + x2 * y6, x0 * y1 + x1 * y4 + x2 * y7, x0 * y2 + x1 * y5 + x2 * y8,
         x3 * y0 + x4 * y3 + x5 * y6, x3 * y1 + x4 * y4 + x5 * y7, x3 * y2 + x4 * y5 + x5 * y8,
         x6 * y0 + x7 * y3 + x8 * y6, x6 * y1 + x7 * y4 + x8 * y7,
         x6 * y2 + x7 * y5 + x8 * y8].getD (3 * i + j) 0 := by
  interval_cases i <;> interval_cases j <;>
    simp only [Finset.sum_range_succ, Finset.sum_range_zero, zero_add] <;> rfl

/-- Into a destination other than the source, `invert` succeeds on a square
matrix of one, two or three rows with a non-zero determinant and leaves the
two-sided inverse. -/
theorem invert_two_sided [Field K] [DecidableEq K] (n : Nat) (dest M : Matrix K)
    (hn : n = 1 ∨ n = 2 ∨ n = 3) (hM : M.WF) (hr : M.n_rows = n) (hc : M.n_cols = n)
    (hdet : M.det_spec ≠ 0) :
    ∃ R : Matrix K, dest.invert M = .ok R ∧ R.n_rows = n ∧ R.n_cols = n ∧ R.WF
      ∧ ∀ i j, i < n → j < n →
          (Finset.range n).sum (fun k => R.val i k * M.val k j) = (if i = j then 1 else 0)
        ∧ (Finset.range n).sum (fun k => M.val i k * R.val k j) = (if i = j then 1 else 0) := by
  obtain ⟨r, c, data⟩ := M
  simp only at hr hc
  subst hr
  subst hc
  have hlen : data.length = c * c := hM.1
  rcases hn with rfl | rfl | rfl
  · obtain ⟨a, rfl⟩ := list_length_one hlen
    rw [det_spec_one] at hdet
    rw [invert_one, if_neg hdet]
    refine ⟨_, rfl, rfl, rfl, wf_lit_one _, ?_⟩
    intro i j hi hj
    interval_cases i
    interval_cases j
    simp [Finset.sum_range_succ, val, get, fetch, assert, UINT_RANGE, bind, Except.bind, hdet]
  · obtain ⟨a, b, c, d, rfl⟩ := list_length_four hlen
    rw [det_spec_two] at hdet
    rw [invert_two, if_neg hdet]
    refine ⟨_, rfl, rfl, rfl, wf_lit_two _ _ _ _, ?_⟩
    intro i j hi hj
    rw [sum_val_two _ _ _ _ _ _ _ _ i j hi hj, sum_val_two _ _ _ _ _ _ _ _ i j hi hj]
    interval_cases i <;> interval_cases j <;> refine ⟨?_, ?_⟩ <;>
      simp only [List.getD_cons_zero, List.getD_cons_succ, Nat.reduceMul, Nat.reduceAdd,
        if_true, if_false, Nat.reduceEqDiff, OfNat.ofNat_ne_zero, one_ne_zero, zero_ne_one] <;>
      field_simp <;> ring
  · obtain ⟨a, b, c, d, e, f, g, h, k, rfl⟩ := list_length_nine hlen
    rw [det_spec_three] at hdet
    have hD : a * (k * e - h * f) - d * (k * b - h * c) + g * (f * b - e * c) ≠ 0 := by
      intro h0
      apply hdet
      rw [← h0]
      ring
    rw [invert_three, if_neg hD]
    refine ⟨_, rfl, rfl, rfl, wf_lit_three _ _ _ _ _ _ _ _ _, ?_⟩
    clear hdet
    generalize hDdef : a * (k * e - h * f) - d * (k * b - h * c) + g * (f * b - e * c) = D at hD ⊢
    intro i j hi hj
    rw [sum_val_three _ _ _ _ _ _ _ _ _ _ _ _ _ _ _ _ _ _ i j hi hj,
      sum_val_three _ _ _ _ _ _ _ _ _ _ _ _ _ _ _ _ _ _ i j hi hj]
    interval_cases i <;> interval_cases j <;> refine ⟨?_, ?_⟩ <;>
      simp only [List.getD_cons_zero, List.getD_cons_succ, Nat.reduceMul, Nat.reduceAdd,
        if_true, if_false, Nat.reduceEqDiff, OfNat.ofNat_ne_zero, one_ne_zero, zero_ne_one] <;>
      field_simp <;> subst hDdef <;> ring

end Matrix

theorem Tensor.determinant_3_lit {K : Type} [Field K] (a b c d e f g h k : K) :
    Tensor.determinant_3 (⟨9, [a, b, c, d, e, f, g, h, k]⟩ : Tensor 3 2 K)
      = .ok (a * (k * e - f * h) - b * (k * d - f * g) + c * (h * d - e * g)) := rfl

/-- Into a destination other than the source, `Tensor::invert` succeeds on a
rank-2 tensor of dimension one, two or three with a non-zero determinant, which
is the value the routine computes, and leaves the two-sided inverse. -/
theorem Tensor.invert_gives_inverse {K : Type} [Field K] [DecidableEq K] (dim : Nat)
    (dest T : Tensor dim 2 K) (hdim : dim = 1 ∨ dim = 2 ∨ dim = 3) (hdest : dest.WF)
    (hT : T.WF) (hdet : T.det_spec ≠ 0) :
    (dim = 1 → T.read 0 [0] = .ok T.det_spec)
    ∧ (dim = 2 → T.determinant_2 = .ok T.det_spec)
    ∧ (dim = 3 → T.determinant_3 = .ok T.det_spec)
    ∧ ∃ R : Tensor dim 2 K, dest.invert T = .ok R ∧ R.WF
      ∧ ∀ i j, i < dim → j < dim →
          (Finset.range dim).sum (fun k => R.val i k * T.val k j) = (if i = j then 1 else 0)
        ∧ (Finset.range dim).sum (fun k => T.val i k * R.val k j) = (if i = j then 1 else 0) := by
  rcases hdim with rfl | rfl | rfl
  · obtain ⟨a, rfl⟩ := Tensor.lit_of_WF_one hT
    obtain ⟨x, rfl⟩ := Tensor.lit_of_WF_one hdest
    rw [Tensor.det_spec_dim_one] at hdet
    refine ⟨fun _ => rfl, fun h => absurd h (by decide), fun h => absurd h (by decide), ?_⟩
    have hinv := Tensor.invert_impl_one false x a
    simp only [Bool.false_eq_true, if_false, if_neg hdet] at hinv
    refine ⟨_, hinv, ⟨rfl, rfl⟩, ?_⟩
    intro i j hi hj
    interval_cases i
    interval_cases j
    simp [Finset.sum_range_succ, Tensor.val, Tensor.read, Tensor.offset_ro, Tensor.index_loop,
      fetch, assert, bind, Except.bind, pure, Except.pure, hdet]
  · obtain ⟨a, b, c, d, rfl⟩ := Tensor.lit_of_WF_two hT
    obtain ⟨x0, x1, x2, x3, rfl⟩ := Tensor.lit_of_WF_two hdest
    rw [Tensor.det_spec_dim_two] at hdet
    refine ⟨fun h => absurd h (by decide), fun _ => rfl, fun h => absurd h (by decide), ?_⟩
    rw [Tensor.invert_dim_two, if_neg hdet]
    refine ⟨_, rfl, ⟨rfl, rfl⟩, ?_⟩
    intro i j hi hj
    rw [Tensor.sum_val_dim_two _ _ _ _ _ _ _ _ i j hi hj, Tensor.sum_val_dim_two _ _ _ _ _ _ _ _ i j hi hj]
    interval_cases i <;> interval_cases j <;> refine ⟨?_, ?_⟩ <;>
      simp only [List.getD_cons_zero, List.getD_cons_succ, Nat.reduceMul, Nat.reduceAdd,
        if_true, if_false, Nat.reduceEqDiff, OfNat.ofNat_ne_zero, one_ne_zero, zero_ne_one] <;>
      field_simp <;> ring
  · obtain ⟨a, b, c, d, e, f, g, h, k, rfl⟩ := Tensor.lit_of_WF_three hT
    obtain ⟨x0, x1, x2, x3, x4, x5, x6, x7, x8, rfl⟩ := Tensor.lit_of_WF_three hdest
    rw [Tensor.det_spec_dim_three] at hdet
    have hD : a * (k * e - f * h) - b * (k * d - f * g) + c * (h * d - e * g) ≠ 0 := by
      intro h0
      apply hdet
      rw [← h0]
      ring
    refine ⟨fun h => absurd h (by decide), fun h => absurd h (by decide), fun _ => ?_, ?_⟩
    · rw [Tensor.det_spec_dim_three, Tensor.determinant_3_lit]
      congr 1
      ring
    rw [Tensor.invert_dim_three, if_neg hD]
    refine ⟨_, rfl, ⟨rfl, rfl⟩, ?_⟩
    clear hdet
    generalize hDdef : a * (k * e - f * h) - b * (k * d - f * g) + c * (h * d - e * g) = D at hD ⊢
    intro i j hi hj
    rw [Tensor.sum_val_dim_three _ _ _ _ _ _ _ _ _ _ _ _ _ _ _ _ _ _ i j hi hj,
      Tensor.sum_val_dim_three _ _ _ _ _ _ _ _ _ _ _ _ _ _ _ _ _ _ i j hi hj]
    interval_cases i <;> interval_cases j <;> refine ⟨?_, ?_⟩ <;>
      simp only [List.getD_cons_zero, List.getD_cons_succ, Nat.reduceMul, Nat.reduceAdd,
        if_true, if_false, Nat.reduceEqDiff, OfNat.ofNat_ne_zero, one_ne_zero, zero_ne_one] <;>
      field_simp <;> subst hDdef <;> ring

theorem Tensor.wf_lit_dim_two {K : Type} (a b c d : K) : (⟨4, [a, b, c, d]⟩ : Tensor 2 2 K).WF :=
  ⟨rfl, rfl⟩

/-- Outside of its success condition `Tensor::invert` fails at an assertion. -/
theorem Tensor.invert_fails_outside {K : Type} [Field K] [DecidableEq K] {dim rank : Nat}
    (dest T : Tensor dim rank K) (hdest : dest.WF) (hT : T.WF)
    (h : ¬ (rank = 2 ∧ (dim = 1 ∨ dim = 2 ∨ dim = 3) ∧ T.det_spec ≠ 0)) :
    dest.invert T = .error .assertion := by
  by_cases hshape : rank ≠ 2 ∨ 4 ≤ dim
  · exact Tensor.invert_impl_bad_shape false dest T hshape
  · have hrank : rank = 2 := by omega
    have hd : dim < 4 := by omega
    subst hrank
    simp only [true_and, not_and, not_not] at h
    match dim, dest, T, hdest, hT, h, hd with
    | 0, dest, T, _, _, _, _ => exact Tensor.invert_impl_dim_zero false dest T
    | 1, dest, T, hdest, hT, h, _ =>
      obtain ⟨a, rfl⟩ := Tensor.lit_of_WF_one hT
      obtain ⟨x, rfl⟩ := Tensor.lit_of_WF_one hdest
      have h0 : a = 0 := h (Or.inl rfl)
      have hinv := Tensor.invert_impl_one false x a
      simp only [Bool.false_eq_true, if_false, if_pos h0] at hinv
      exact hinv
    | 2, dest, T, hdest, hT, h, _ =>
      obtain ⟨a, b, c, d, rfl⟩ := Tensor.lit_of_WF_two hT
      obtain ⟨x0, x1, x2, x3, rfl⟩ := Tensor.lit_of_WF_two hdest
      have h0 : a * d - c * b = 0 := h (Or.inr (Or.inl rfl))
      rw [Tensor.invert_dim_two, if_pos h0]
    | 3, dest, T, hdest, hT, h, _ =>
      obtain ⟨a, b, c, d, e, f, g, h', k, rfl⟩ := Tensor.lit_of_WF_three hT
      obtain ⟨x0, x1, x2, x3, x4, x5, x6, x7, x8, rfl⟩ := Tensor.lit_of_WF_three hdest
      have h0 := h (Or.inr (Or.inr rfl))
      rw [Tensor.det_spec_dim_three] at h0
      rw [Tensor.invert_dim_three, if_pos (by rw [← h0]; ring)]
    | n + 4, _, _, _, _, _, hd => omega

/-- Outside of its success condition `Matrix::invert` fails at an assertion. -/
theorem Matrix.invert_fails_of_not {K : Type} [Field K] [DecidableEq K] (dest M : Matrix K)
    (hM : M.WF)
    (h : ¬ (M.n_rows = M.n_cols ∧ (M.n_cols = 1 ∨ M.n_cols = 2 ∨ M.n_cols = 3)
      ∧ M.det_spec ≠ 0)) :
    dest.invert M = .error .assertion := by
  obtain ⟨r, c, data⟩ := M
  by_cases hrc : r = c
  · subst hrc
    have hlen : data.length = r * r := hM.1
    have hfit : r * r < UINT_RANGE := hM.2
    simp only [true_and, not_and, not_not] at h
    match r, hlen, hfit, h with
    | 0, _, _, _ => exact Matrix.invert_impl_zero false _ data
    | 1, hlen, _, h =>
      obtain ⟨a, rfl⟩ := list_length_one hlen
      have h0 : a = 0 := h (Or.inl rfl)
      rw [Matrix.invert_one, if_pos h0]
    | 2, hlen, _, h =>
      obtain ⟨a, b, c, d, rfl⟩ := list_length_four hlen
      have h0 : a * d - b * c = 0 := h (Or.inr (Or.inl rfl))
      rw [Matrix.invert_two, if_pos h0]
    | 3, hlen, _, h =>
      obtain ⟨a, b, c, d, e, f, g, h', k, rfl⟩ := list_length_nine hlen
      have h0 := h (Or.inr (Or.inr rfl))
      rw [Matrix.det_spec_three] at h0
      rw [Matrix.invert_three, if_pos (by rw [← h0]; ring)]
    | n + 4, _, hfit, _ => exact Matrix.invert_impl_large false _ n data hfit
  · exact Matrix.invert_impl_nonsquare false _ _ hrc

/-- On three rows `det_spec` is the determinant of the matrix of values. -/
theorem Matrix.det_spec_eq_det_three {K : Type} [Field K] (M : Matrix K) (h : M.n_cols = 3) :
    M.det_spec = Matrix.det (Matrix.of fun (i j : Fin 3) => M.val i j) := by
  obtain ⟨r, c, data⟩ := M
  simp only at h
  subst h
  simp only [Matrix.det_spec, Matrix.det_fin_three, Matrix.of_apply]
  simp only [Fin.val_zero, Fin.val_one, Fin.val_two]
  ring

/-- On two rows `det_spec` is the determinant of the matrix of values. -/
theorem Matrix.det_spec_eq_det_two {K : Type} [Field K] (M : Matrix K) (h : M.n_cols = 2) :
    M.det_spec = Matrix.det (Matrix.of fun (i j : Fin 2) => M.val i j) := by
  obtain ⟨r, c, data⟩ := M
  simp only at h
  subst h
  simp only [Matrix.det_spec, Matrix.det_fin_two, Matrix.of_apply]
  simp only [Fin.val_zero, Fin.val_one]

/-- On three components per index `det_spec` is the determinant of the matrix
of values. -/
theorem Tensor.det_spec_eq_det_dim_three {K : Type} [Field K] {rank : Nat} (T : Tensor 3 rank K) :
    T.det_spec = Matrix.det (Matrix.of fun (i j : Fin 3) => T.val i j) := by
  simp only [Tensor.det_spec, Matrix.det_fin_three, Matrix.of_apply]
  simp only [Fin.val_zero, Fin.val_one, Fin.val_two]
  ring

/-- On two components per index `det_spec` is the determinant of the matrix of
values. -/
theorem Tensor.det_spec_eq_det_dim_two {K : Type} [Field K] {rank : Nat} (T : Tensor 2 rank K) :
    T.det_spec = Matrix.det (Matrix.of fun (i j : Fin 2) => T.val i j) := by
  simp only [Tensor.det_spec, Matrix.det_fin_two, Matrix.of_apply]
  simp only [Fin.val_zero, Fin.val_one]

/-! ## Products: lemmas -/

/-- Loop invariant rule for `forLoop`: the loop returns, in a state satisfying
the invariant at `n`. -/
theorem forLoop_inv {σ : Type} (body : Nat → σ → Except Failure σ) (P : Nat → σ → Prop) :
    ∀ (n : Nat) (s : σ), P 0 s →
      (∀ k s, k < n → P k s → ∃ s', body k s = .ok s' ∧ P (k + 1) s') →
      ∃ s', forLoop body n s = .ok s' ∧ P n s'
  | 0, s, h0, _ => ⟨s, rfl, h0⟩
  | n + 1, s, h0, hstep => by
    obtain ⟨s1, h1, hP1⟩ :=
      forLoop_inv body P n s h0 (fun k s hk hP => hstep k s (by omega) hP)
    obtain ⟨s2, h2, hP2⟩ := hstep n s1 (by omega) hP1
    refine ⟨s2, ?_, hP2⟩
    simp only [forLoop, h1, bind, Except.bind, h2]

theorem fetch_eq_getD {K : Type} {data : List K} {off : Nat} (h : off < data.length) (d : K) :
    fetch data off = .ok (data.getD off d) := by
  simp [fetch, List.getElem?_eq_getElem h, List.getD_eq_getElem _ d h]

namespace Matrix

variable {K : Type}

theorem offset_eq {M : Matrix K} (hM : M.WF) {i j : Nat} (hi : i < M.n_rows)
    (hj : j < M.n_cols) :
    ((M.n_cols * i) % UINT_RANGE + j) % UINT_RANGE = M.n_cols * i + j
      ∧ M.n_cols * i + j < M.data.length := by
  have h1 : M.n_cols * i + j < M.n_rows * M.n_cols := by
    have : M.n_cols * (i + 1) ≤ M.n_cols * M.n_rows := Nat.mul_le_mul_left _ hi
    rw [Nat.mul_comm M.n_rows]
    rw [Nat.mul_succ] at this
    omega
  have h2 := hM.2
  have h3 : M.n_cols * i < UINT_RANGE := by omega
  refine ⟨?_, by rw [hM.1]; exact h1⟩
  rw [Nat.mod_eq_of_lt h3, Nat.mod_eq_of_lt (by omega)]

theorem get_eq [Zero K] {M : Matrix K} (hM : M.WF) {i j : Nat} (hi : i < M.n_rows)
    (hj : j < M.n_cols) : M.get i j = .ok (M.data.getD (M.n_cols * i + j) 0) := by
  obtain ⟨ho, hlt⟩ := offset_eq hM hi hj
  simp only [get, assert, hi, hj, if_true, bind, Except.bind, ho]
  exact fetch_eq_getD hlt 0

theorem val_eq [Zero K] {M : Matrix K} (hM : M.WF) {i j : Nat} (hi : i < M.n_rows)
    (hj : j < M.n_cols) : M.val i j = M.data.getD (M.n_cols * i + j) 0 := by
  simp only [val, get_eq hM hi hj]

theorem get_eq_val [Zero K] {M : Matrix K} (hM : M.WF) {i j : Nat} (hi : i < M.n_rows)
    (hj : j < M.n_cols) : M.get i j = .ok (M.val i j) := by
  rw [val_eq hM hi hj, get_eq hM hi hj]

theorem offset_inj {c i j i' j' : Nat} (hj : j < c) (hj' : j' < c)
    (h : c * i + j = c * i' + j') : i = i' ∧ j = j' := by
  have hc : 0 < c := by omega
  have h1 : (c * i + j) / c = i := by
    rw [Nat.mul_add_div hc, Nat.div_eq_of_lt hj, Nat.add_zero]
  have h2 : (c * i' + j') / c = i' := by
    rw [Nat.mul_add_div hc, Nat.div_eq_of_lt hj', Nat.add_zero]
  have hi : i = i' := by rw [← h1, ← h2, h]
  subst hi
  exact ⟨rfl, by omega⟩

/-- The effect of the assignment `M (i, j) = v` on a well-formed matrix. -/
theorem set_spec [Zero K] {M : Matrix K} (hM : M.WF) {i j : Nat} (hi : i < M.n_rows)
    (hj : j < M.n_cols) (v : K) :
    ∃ M' : Matrix K, M.set i j v = .ok M' ∧ M'.WF ∧ M'.n_rows = M.n_rows
      ∧ M'.n_cols = M.n_cols
      ∧ ∀ i' j', i' < M.n_rows → j' < M.n_cols →
          M'.val i' j' = if i' = i ∧ j' = j then v else M.val i' j' := by
  obtain ⟨ho, hlt⟩ := offset_eq hM hi hj
  have hWF : (Matrix.mk M.n_rows M.n_cols (M.data.set (M.n_cols * i + j) v)).WF :=
    ⟨by simp only [List.length_set]; exact hM.1, hM.2⟩
  refine ⟨⟨M.n_rows, M.n_cols, M.data.set (M.n_cols * i + j) v⟩, ?_, hWF, rfl, rfl, ?_⟩
  · simp only [set, assert, hi, hj, if_true, bind, Except.bind, ho, store_of_lt hlt]
    rfl
  · intro i' j' hi' hj'
    rw [val_eq hWF hi' hj', val_eq hM hi' hj']
    show (M.data.set (M.n_cols * i + j) v).getD (M.n_cols * i' + j') 0 = _
    by_cases he : i' = i ∧ j' = j
    · obtain ⟨rfl, rfl⟩ := he
      simp only [and_self, if_true]
      rw [List.getD_eq_getElem _ 0 (by simp only [List.length_set]; exact hlt)]
      exact List.getElem_set_self _
    · rw [if_neg he]
      have hne : M.n_cols * i + j ≠ M.n_cols * i' + j' := by
        intro h
        have := offset_inj hj hj' h
        exact he ⟨this.1.symm, this.2.symm⟩
      simp only [List.getD_eq_getElem?_getD, List.getElem?_set_ne hne]

/-- The innermost loop of the product routines: `n` accumulations into the
element `(i, j)`. -/
theorem accumulate_loop [Field K] (ea eb : Nat → Except Failure K) (fa fb : Nat → K)
    (n : Nat) (hea : ∀ k, k < n → ea k = .ok (fa k)) (heb : ∀ k, k < n → eb k = .ok (fb k))
    (S : Matrix K) (hS : S.WF) (i j : Nat) (hi : i < S.n_rows) (hj : j < S.n_cols) :
    ∃ S' : Matrix K,
      forLoop (fun k self => do
        let a ← ea k
        let b ← eb k
        let c ← self.get i j
        self.set i j (c + a * b)) n S = .ok S'
      ∧ S'.WF ∧ S'.n_rows = S.n_rows ∧ S'.n_cols = S.n_cols
      ∧ ∀ i' j', i' < S.n_rows → j' < S.n_cols →
          S'.val i' j' = if i' = i ∧ j' = j
            then S.val i j + (Finset.range n).sum (fun t => fa t * fb t) else S.val i' j' := by
  apply forLoop_inv _ (fun t (S' : Matrix K) =>
      S'.WF ∧ S'.n_rows = S.n_rows ∧ S'.n_cols = S.n_cols
      ∧ ∀ i' j', i' < S.n_rows → j' < S.n_cols →
          S'.val i' j' = if i' = i ∧ j' = j
            then S.val i j + (Finset.range t).sum (fun t => fa t * fb t) else S.val i' j')
  · refine ⟨hS, rfl, rfl, ?_⟩
    intro i' j' _ _
    by_cases he : i' = i ∧ j' = j
    · obtain ⟨rfl, rfl⟩ := he
      simp
    · simp [he]
  · rintro k S1 hk ⟨hWF, hr, hc, hval⟩
    have hi1 : i < S1.n_rows := by omega
    have hj1 : j < S1.n_cols := by omega
    obtain ⟨S2, hset, hWF2, hr2, hc2, hval2⟩ :=
      set_spec hWF hi1 hj1 (S1.val i j + fa k * fb k)
    refine ⟨S2, ?_, hWF2, by omega, by omega, ?_⟩
    · simp only [hea k hk, heb k hk, get_eq_val hWF hi1 hj1, bind, Except.bind, hset]
    · intro i' j' hi' hj'
      rw [hval2 i' j' (by omega) (by omega)]
      by_cases he : i' = i ∧ j' = j
      · simp only [he, and_self, if_true]
        rw [hval i j hi hj]
        simp only [and_self, if_true, Finset.sum_range_succ]
        ring
      · rw [if_neg he, hval i' j' hi' hj', if_neg he, if_neg he]

/-- The three nested loops of the product routines: for `i < m`, `j < n` the
element `(i, j)` gains `sum_{t < p} fa i j t * fb i j t`; every other element
keeps its value. -/
theorem product_loops [Field K] (ea eb : Nat → Nat → Nat → Except Failure K)
    (fa fb : Nat → Nat → Nat → K) (m n p : Nat)
    (hea : ∀ i j k, i < m → j < n → k < p → ea i j k = .ok (fa i j k))
    (heb : ∀ i j k, i < m → j < n → k < p → eb i j k = .ok (fb i j k))
    (S : Matrix K) (hS : S.WF) (hm : m ≤ S.n_rows) (hn : n ≤ S.n_cols) :
    ∃ S' : Matrix K,
      forLoop (fun i self =>
        forLoop (fun j self =>
          forLoop (fun k self => do
            let a ← ea i j k
            let b ← eb i j k
            let c ← self.get i j
            self.set i j (c + a * b)) p self) n self) m S = .ok S'
      ∧ S'.WF ∧ S'.n_rows = S.n_rows ∧ S'.n_cols = S.n_cols
      ∧ ∀ i' j', i' < S.n_rows → j' < S.n_cols →
          S'.val i' j' = if i' < m ∧ j' < n
            then S.val i' j' + (Finset.range p).sum (fun t => fa i' j' t * fb i' j' t)
            else S.val i' j' := by
  apply forLoop_inv _ (fun u (S' : Matrix K) =>
      S'.WF ∧ S'.n_rows = S.n_rows ∧ S'.n_cols = S.n_cols
      ∧ ∀ i' j', i' < S.n_rows → j' < S.n_cols →
          S'.val i' j' = if i' < u ∧ j' < n
            then S.val i' j' + (Finset.range p).sum (fun t => fa i' j' t * fb i' j' t)
            else S.val i' j')
  · exact ⟨hS, rfl, rfl, fun i' j' _ _ => by simp⟩
  · rintro i S1 hi ⟨hWF1, hr1, hc1, hval1⟩
    have hrow : ∃ S2 : Matrix K,
        forLoop (fun j self =>
          forLoop (fun k self => do
            let a ← ea i j k
            let b ← eb i j k
            let c ← self.get i j
            self.set i j (c + a * b)) p self) n S1 = .ok S2
        ∧ S2.WF ∧ S2.n_rows = S.n_rows ∧ S2.n_cols = S.n_cols
        ∧ ∀ i' j', i' < S.n_rows → j' < S.n_cols →
            S2.val i' j' = if i' = i ∧ j' < n
              then S1.val i' j' + (Finset.range p).sum (fun t => fa i' j' t * fb i' j' t)
              else S1.val i' j' := by
      apply forLoop_inv _ (fun v (S' : Matrix K) =>
        S'.WF ∧ S'.n_rows = S.n_rows ∧ S'.n_cols = S.n_cols
        ∧ ∀ i' j', i' < S.n_rows → j' < S.n_cols →
            S'.val i' j' = if i' = i ∧ j' < v
              then S1.val i' j' + (Finset.range p).sum (fun t => fa i' j' t * fb i' j' t)
              else S1.val i' j')
      · exact ⟨hWF1, hr1, hc1, fun i' j' _ _ => by simp⟩
      · rintro j S2 hj ⟨hWF2, hr2, hc2, hval2⟩
        obtain ⟨S3, hloop, hWF3, hr3, hc3, hval3⟩ :=
          accumulate_loop (ea i j) (eb i j) (fa i j) (fb i j) p
            (fun k hk => hea i j k hi hj hk) (fun k hk => heb i j k hi hj hk)
            S2 hWF2 i j (by omega) (by omega)
        refine ⟨S3, hloop, hWF3, by omega, by omega, ?_⟩
        intro i' j' hi' hj'
        rw [hval3 i' j' (by omega) (by omega)]
        by_cases he : i' = i ∧ j' = j
        · obtain ⟨rfl, rfl⟩ := he
          rw [if_pos ⟨rfl, rfl⟩, if_pos ⟨rfl, by omega⟩, hval2 i' j' hi' hj',
            if_neg (by omega)]
        · rw [if_neg he, hval2 i' j' hi' hj']
          by_cases h1 : i' = i ∧ j' < j
          · rw [if_pos h1, if_pos ⟨h1.1, by omega⟩]
          · rw [if_neg h1, if_neg (by omega)]
    obtain ⟨S2, hloop, hWF2, hr2, hc2, hval2⟩ := hrow
    refine ⟨S2, hloop, hWF2, hr2, hc2, ?_⟩
    intro i' j' hi' hj'
    rw [hval2 i' j' hi' hj', hval1 i' j' hi' hj']
    by_cases h1 : i' = i ∧ j' < n
    · rw [if_pos h1, if_neg (by omega), if_pos ⟨by omega, h1.2⟩]
    · rw [if_neg h1]
      by_cases h2 : i' < i ∧ j' < n
      · rw [if_pos h2, if_pos ⟨by omega, h2.2⟩]
      · rw [if_neg h2, if_neg (by omega)]

/-- What `Matrix::mult` does when its two shape assertions hold and the
destination has `M_a.n_rows` rows and `M_b.n_cols` columns. -/
theorem mult_spec [Field K] (R A B : Matrix K) (hR : R.WF) (hA : A.WF) (hB : B.WF)
    (h1 : A.n_rows = B.n_cols) (h2 : A.n_cols = B.n_rows)
    (hr : R.n_rows = A.n_rows) (hc : R.n_cols = B.n_cols) :
    ∃ R' : Matrix K, R.mult A B = .ok R' ∧ R'.WF ∧ R'.n_rows = R.n_rows
      ∧ R'.n_cols = R.n_cols
      ∧ ∀ i j, i < A.n_rows → j < B.n_cols →
          R'.val i j = R.val i j + (Finset.range A.n_cols).sum (fun t => A.val i t * B.val t j) := by
  obtain ⟨R', hloop, hWF, hr', hc', hval⟩ :=
    product_loops (fun i _ k => A.get i k) (fun _ j k => B.get k j)
      (fun i _ k => A.val i k) (fun _ j k => B.val k j) A.n_rows B.n_cols B.n_rows
      (fun i j k hi _ hk => get_eq_val hA hi (by omega))
      (fun i j k _ hj hk => get_eq_val hB hk hj)
      R hR (by omega) (by omega)
  refine ⟨R', ?_, hWF, hr', hc', ?_⟩
  · unfold mult
    rw [assert_bind_of h1, assert_bind_of h2]
    exact hloop
  · intro i j hi hj
    rw [hval i j (by omega) (by omega), if_pos ⟨hi, hj⟩, h2]

end Matrix

/-! ## Index linearisation: the claims -/

/-- C1 (amended): for `dim >= 1`, `rank >= 1` with `dim ^ rank` representable
as `unsigned int`, and every multi-index with `rank` components below `dim`,
`Tensor::operator()` addresses the buffer element at offset
`sum_{k < rank} i_k * dim ^ k`; the read-only and the read-write overloads
compute the same offset, the read returns that element and the write replaces
exactly that element. -/
theorem C1_offset_is_base_dim_value (dim rank : Nat) (K : Type) (T : Tensor dim rank K)
    (index : Nat) (index_list : List Nat) (v : K)
    (_hdim : 1 ≤ dim) (hrank : 1 ≤ rank) (hfit : dim ^ rank < UINT_RANGE) (hT : T.WF)
    (hv : Tensor.valid_index dim rank index index_list) :
    T.offset_rw index index_list
        = .ok ((Finset.range rank).sum (fun k => (index :: index_list).getD k 0 * dim ^ k))
    ∧ T.offset_ro index index_list = T.offset_rw index index_list
    ∧ ∃ h : (Finset.range rank).sum (fun k => (index :: index_list).getD k 0 * dim ^ k)
          < T.data.length,
        T.read index index_list = .ok (T.data.get ⟨_, h⟩)
        ∧ T.write index index_list v = .ok (Tensor.mk T.n_components (T.data.set
            ((Finset.range rank).sum (fun k => (index :: index_list).getD k 0 * dim ^ k)) v)) := by
  have ho := Tensor.offset_rw_of_fit hT hfit hrank hv
  have hlt := Tensor.linear_sum_lt hv
  have hn := Tensor.n_components_eq_of_fit hT hfit
  have hlen : Tensor.linear_sum dim rank (index :: index_list) < T.data.length := by
    rw [hT.2, hn]; exact hlt
  refine ⟨ho, rfl, hlen, ?_, ?_⟩
  · simp only [Tensor.read, Tensor.offset_ro_eq_rw, ho]
    exact fetch_of_lt hlen
  · simp only [Tensor.write, ho]
    show (store T.data (Tensor.linear_sum dim rank (index :: index_list)) v >>= _) = _
    rw [store_of_lt hlen]
    rfl

theorem C1_witness :
    (Tensor.construct 3 2 true (fun _ => (0 : ℚ))).offset_rw 2 [1]
      = .ok ((Finset.range 2).sum (fun k => ([2, 1] : List Nat).getD k 0 * 3 ^ k)) :=
  (C1_offset_is_base_dim_value 3 2 ℚ (Tensor.construct 3 2 true (fun _ => (0 : ℚ))) 2 [1] 7
    (by decide) (by decide) (by decide) (Tensor.construct_WF 3 2 true _) (by decide)).1

/-- C1 as stated fails where `unsigned int` wraps: in a `Tensor<70000, 2>` the
valid multi-index `(0, 61357)` is sent to offset `22704`, not to
`0 + 61357 * 70000`. -/
theorem C1_counterexample :
    1 ≤ 70000 ∧ 1 ≤ 2 ∧ Tensor.valid_index 70000 2 0 [61357]
    ∧ (Tensor.construct 70000 2 true (fun _ => (0 : ℚ))).offset_rw 0 [61357] = .ok 22704
    ∧ (Tensor.construct 70000 2 true (fun _ => (0 : ℚ))).offset_ro 0 [61357] = .ok 22704
    ∧ 22704 ≠ 0 * 70000 ^ 0 + 61357 * 70000 ^ 1 := by
  decide

/-- C2 (amended): for `dim >= 1`, `rank >= 1` with `dim ^ rank` representable
as `unsigned int`, a constructed tensor has `n_components = dim ^ rank`, which
is not zero, and for every multi-index whose components are all below `dim`
both overloads of `operator()` return an offset strictly below `n_components`:
neither the initialised assertion nor the final bounds assertion fires. -/
theorem C2_offset_below_n_components (dim rank : Nat) (K : Type) [Zero K] (zero : Bool)
    (uninit : Nat → K) (index : Nat) (index_list : List Nat)
    (_hdim : 1 ≤ dim) (hrank : 1 ≤ rank) (hfit : dim ^ rank < UINT_RANGE)
    (hv : Tensor.valid_index dim rank index index_list) :
    (Tensor.construct dim rank zero uninit).n_components = dim ^ rank
    ∧ (Tensor.construct dim rank zero uninit).n_components ≠ 0
    ∧ ∃ decimal, decimal < (Tensor.construct dim rank zero uninit).n_components
        ∧ (Tensor.construct dim rank zero uninit).offset_rw index index_list = .ok decimal
        ∧ (Tensor.construct dim rank zero uninit).offset_ro index index_list = .ok decimal := by
  have hT := Tensor.construct_WF dim rank zero uninit
  have hn := Tensor.n_components_eq_of_fit hT hfit
  have hlt := Tensor.linear_sum_lt hv
  have ho := Tensor.offset_rw_of_fit hT hfit hrank hv
  refine ⟨hn, ?_, Tensor.linear_sum dim rank (index :: index_list), ?_, ho, ho⟩
  · rw [hn]; omega
  · rw [hn]; exact hlt

theorem C2_witness :
    (Tensor.construct 3 2 true (fun _ => (0 : ℚ))).n_components = 3 ^ 2
    ∧ (Tensor.construct 3 2 true (fun _ => (0 : ℚ))).n_components ≠ 0
    ∧ ∃ decimal, decimal < (Tensor.construct 3 2 true (fun _ => (0 : ℚ))).n_components
        ∧ (Tensor.construct 3 2 true (fun _ => (0 : ℚ))).offset_rw 2 [2] = .ok decimal
        ∧ (Tensor.construct 3 2 true (fun _ => (0 : ℚ))).offset_ro 2 [2] = .ok decimal :=
  C2_offset_below_n_components 3 2 ℚ true (fun _ => 0) 2 [2]
    (by decide) (by decide) (by decide) (by decide)

/-- C2 as stated fails where `unsigned int` wraps: a `Tensor<65536, 2>` has
`n_components = 0`, not `65536 ^ 2`, so the initialised assertion fires on the
valid multi-index `(0, 0)`; and in a `Tensor<70000, 2>` the valid multi-index
`(0, 61356)` fails the final bounds assertion. -/
theorem C2_counterexample :
    (1 ≤ 65536 ∧ 1 ≤ 2 ∧ Tensor.valid_index 65536 2 0 [0]
      ∧ (Tensor.construct 65536 2 true (fun _ => (0 : ℚ))).n_components = 0
      ∧ (Tensor.construct 65536 2 true (fun _ => (0 : ℚ))).offset_rw 0 [0]
          = .error Failure.assertion)
    ∧ (1 ≤ 70000 ∧ 1 ≤ 2 ∧ Tensor.valid_index 70000 2 0 [61356]
      ∧ (Tensor.construct 70000 2 true (fun _ => (0 : ℚ))).n_components = 605032704
      ∧ 0 * 70000 ^ 0 + 61356 * 70000 ^ 1 = 4294920000
      ∧ (Tensor.construct 70000 2 true (fun _ => (0 : ℚ))).offset_rw 0 [61356]
          = .error Failure.assertion) := by
  decide

/-- C3 (amended): for `dim >= 1`, `rank >= 1` with `dim ^ rank` representable
as `unsigned int`, index linearisation is a bijection between the valid
multi-indices and the offsets below `dim ^ rank`: two valid multi-indices with
the same offset are equal, and every offset below `dim ^ rank` is that of a
valid multi-index. Consequently the write `T (i...) = x` succeeds, a following
read of `T (i...)` returns `x`, and the read at every other valid multi-index
returns what it returned before. -/
theorem C3_linearisation_bijective (dim rank : Nat) (K : Type) (T : Tensor dim rank K)
    (_hdim : 1 ≤ dim) (hrank : 1 ≤ rank) (hfit : dim ^ rank < UINT_RANGE) (hT : T.WF) :
    (∀ i l i' l', Tensor.valid_index dim rank i l → Tensor.valid_index dim rank i' l' →
        T.offset_rw i l = T.offset_rw i' l' → i = i' ∧ l = l')
    ∧ (∀ d, d < dim ^ rank →
        ∃ i l, Tensor.valid_index dim rank i l ∧ T.offset_rw i l = .ok d)
    ∧ (∀ i l (x : K), Tensor.valid_index dim rank i l →
        ∃ T' : Tensor dim rank K, T.write i l x = .ok T' ∧ T'.WF ∧ T'.read i l = .ok x
          ∧ ∀ i' l', Tensor.valid_index dim rank i' l' → ¬ (i' = i ∧ l' = l) →
              T'.read i' l' = T.read i' l') := by
  have hinj : ∀ i l i' l', Tensor.valid_index dim rank i l → Tensor.valid_index dim rank i' l' →
      Tensor.linear_sum dim rank (i :: l) = Tensor.linear_sum dim rank (i' :: l') →
      i = i' ∧ l = l' := by
    intro i l i' l' hv hv' he
    have e1 := Tensor.linear_sum_eq_ofDigits dim (i :: l)
    have e2 := Tensor.linear_sum_eq_ofDigits dim (i' :: l')
    rw [hv.1] at e1
    rw [hv'.1] at e2
    rw [e1, e2] at he
    have := Tensor.ofDigits_inj dim (i :: l) (i' :: l') (hv.1.trans hv'.1.symm) hv.2 hv'.2 he
    exact List.cons.inj this
  refine ⟨?_, ?_, ?_⟩
  · intro i l i' l' hv hv' he
    rw [Tensor.offset_rw_of_fit hT hfit hrank hv, Tensor.offset_rw_of_fit hT hfit hrank hv'] at he
    exact hinj i l i' l' hv hv' (Except.ok.inj he)
  · intro d hd
    obtain ⟨r, rfl⟩ : ∃ r, rank = r + 1 := ⟨rank - 1, by omega⟩
    have hdim : 0 < dim := by omega
    have hv : Tensor.valid_index dim (r + 1) (d % dim) (Tensor.to_index dim r (d / dim)) := by
      refine ⟨by simp [Tensor.to_index_length], ?_⟩
      exact Tensor.to_index_lt dim hdim (r + 1) d
    refine ⟨d % dim, Tensor.to_index dim r (d / dim), hv, ?_⟩
    rw [Tensor.offset_rw_of_fit hT hfit hrank hv]
    have e := Tensor.linear_sum_eq_ofDigits dim (d % dim :: Tensor.to_index dim r (d / dim))
    rw [hv.1] at e
    rw [e]
    exact congrArg Except.ok (Tensor.ofDigits_to_index dim hdim (r + 1) d hd)
  · intro i l x hv
    have ho := Tensor.offset_rw_of_fit hT hfit hrank hv
    have hn := Tensor.n_components_eq_of_fit hT hfit
    have hlen : Tensor.linear_sum dim rank (i :: l) < T.data.length := by
      rw [hT.2, hn]; exact Tensor.linear_sum_lt hv
    have hWF : (Tensor.mk T.n_components
        (T.data.set (Tensor.linear_sum dim rank (i :: l)) x) : Tensor dim rank K).WF :=
      ⟨hT.1, by simp [hT.2]⟩
    refine ⟨Tensor.mk T.n_components (T.data.set (Tensor.linear_sum dim rank (i :: l)) x),
      ?_, hWF, ?_, ?_⟩
    · simp only [Tensor.write, ho]
      show (store T.data (Tensor.linear_sum dim rank (i :: l)) x >>= _) = _
      rw [store_of_lt hlen]
      rfl
    · simp only [Tensor.read, Tensor.offset_ro_eq_rw, Tensor.offset_rw_of_fit hWF hfit hrank hv]
      show fetch (T.data.set (Tensor.linear_sum dim rank (i :: l)) x) _ = _
      simp [fetch, hlen]
    · intro i' l' hv' hne
      have hoff : Tensor.linear_sum dim rank (i :: l) ≠ Tensor.linear_sum dim rank (i' :: l') := by
        intro he
        have := hinj i l i' l' hv hv' he
        exact hne ⟨this.1.symm, this.2.symm⟩
      simp only [Tensor.read, Tensor.offset_ro_eq_rw, Tensor.offset_rw_of_fit hWF hfit hrank hv',
        Tensor.offset_rw_of_fit hT hfit hrank hv']
      show fetch (T.data.set (Tensor.linear_sum dim rank (i :: l)) x) _ = fetch T.data _
      simp [fetch, List.getElem?_set_ne hoff]

theorem C3_witness :
    (∀ i l i' l', Tensor.valid_index 3 2 i l → Tensor.valid_index 3 2 i' l' →
        (Tensor.construct 3 2 true (fun _ => (0 : ℚ))).offset_rw i l
          = (Tensor.construct 3 2 true (fun _ => (0 : ℚ))).offset_rw i' l' → i = i' ∧ l = l')
    ∧ (∀ d, d < 3 ^ 2 → ∃ i l, Tensor.valid_index 3 2 i l
        ∧ (Tensor.construct 3 2 true (fun _ => (0 : ℚ))).offset_rw i l = .ok d)
    ∧ (∀ i l (x : ℚ), Tensor.valid_index 3 2 i l →
        ∃ T' : Tensor 3 2 ℚ, (Tensor.construct 3 2 true (fun _ => (0 : ℚ))).write i l x = .ok T'
          ∧ T'.WF ∧ T'.read i l = .ok x
          ∧ ∀ i' l', Tensor.valid_index 3 2 i' l' → ¬ (i' = i ∧ l' = l) →
              T'.read i' l' = (Tensor.construct 3 2 true (fun _ => (0 : ℚ))).read i' l') :=
  C3_linearisation_bijective 3 2 ℚ (Tensor.construct 3 2 true (fun _ => (0 : ℚ)))
    (by decide) (by decide) (by decide) (Tensor.construct_WF 3 2 true _)

/-- C3 as stated fails where `unsigned int` wraps: in a `Tensor<70000, 2>` the
distinct valid multi-indices `(22704, 0)` and `(0, 61357)` both pass every
assertion and are sent to the same offset `22704`. -/
theorem C3_counterexample :
    1 ≤ 70000 ∧ 1 ≤ 2
    ∧ Tensor.valid_index 70000 2 22704 [0] ∧ Tensor.valid_index 70000 2 0 [61357]
    ∧ (Tensor.construct 70000 2 true (fun _ => (0 : ℚ))).offset_rw 22704 [0] = .ok 22704
    ∧ (Tensor.construct 70000 2 true (fun _ => (0 : ℚ))).offset_rw 0 [61357] = .ok 22704
    ∧ ¬ ((22704 : Nat) = 0 ∧ ([0] : List Nat) = [61357]) := by
  decide

/-! ## Inversion: the claims -/

/-- C4: for `dim` in `{1, 2, 3}`, a rank-2 tensor `T` whose determinant (the
value the routine computes and tests) is non-zero, and a destination other than
`T`: `dest.invert (T)` succeeds and leaves in `dest` the two-sided inverse of
`T`, that is `sum_k dest(i,k) * T(k,j) = delta_ij` and
`sum_k T(i,k) * dest(k,j) = delta_ij` for all `i, j < dim`. -/
theorem C4_tensor_invert_two_sided (K : Type) [Field K] [DecidableEq K] (dim : Nat)
    (dest T : Tensor dim 2 K) (hdim : dim = 1 ∨ dim = 2 ∨ dim = 3) (hdest : dest.WF)
    (hT : T.WF) (hdet : T.det_spec ≠ 0) :
    (dim = 1 → T.read 0 [0] = .ok T.det_spec)
    ∧ (dim = 2 → T.determinant_2 = .ok T.det_spec)
    ∧ (dim = 3 → T.determinant_3 = .ok T.det_spec)
    ∧ ∃ R : Tensor dim 2 K, dest.invert T = .ok R ∧ R.WF
      ∧ ∀ i j, i < dim → j < dim →
          (Finset.range dim).sum (fun k => R.val i k * T.val k j) = (if i = j then 1 else 0)
        ∧ (Finset.range dim).sum (fun k => T.val i k * R.val k j) = (if i = j then 1 else 0) :=
  Tensor.invert_gives_inverse dim dest T hdim hdest hT hdet

theorem C4_witness :
    ∃ R : Tensor 2 2 ℚ, (Tensor.construct 2 2 true (fun _ => 0)).invert ⟨4, [1, 3, 2, 4]⟩ = .ok R
      ∧ R.WF
      ∧ ∀ i j, i < 2 → j < 2 →
          (Finset.range 2).sum (fun k => R.val i k * (Tensor.mk 4 [1, 3, 2, 4] : Tensor 2 2 ℚ).val k j)
            = (if i = j then 1 else 0)
        ∧ (Finset.range 2).sum (fun k => (Tensor.mk 4 [1, 3, 2, 4] : Tensor 2 2 ℚ).val i k * R.val k j)
            = (if i = j then 1 else 0) :=
  (C4_tensor_invert_two_sided ℚ 2 (Tensor.construct 2 2 true (fun _ => 0)) ⟨4, [1, 3, 2, 4]⟩
    (Or.inr (Or.inl rfl)) (Tensor.construct_WF 2 2 true _) (Tensor.wf_lit_dim_two _ _ _ _)
    (by rw [Tensor.det_spec_dim_two]; norm_num)).2.2.2

/-- C5: for `n` in `{1, 2, 3}`, an `n x n` matrix `M` with non-zero determinant
and a destination other than `M` (of any shape): `dest.invert (M)` succeeds,
`dest` becomes `n x n` and is the two-sided inverse of `M`. In particular
`[[2,0],[0,4]]` yields exactly `[[1/2,0],[0,1/4]]` and the `1 x 1` identity
yields the `1 x 1` identity. -/
theorem C5_matrix_invert_two_sided (K : Type) [Field K] [DecidableEq K] (n : Nat)
    (dest M : Matrix K) (hn : n = 1 ∨ n = 2 ∨ n = 3) (hM : M.WF) (hr : M.n_rows = n)
    (hc : M.n_cols = n) (hdet : M.det_spec ≠ 0) :
    (∃ R : Matrix K, dest.invert M = .ok R ∧ R.n_rows = n ∧ R.n_cols = n ∧ R.WF
      ∧ ∀ i j, i < n → j < n →
          (Finset.range n).sum (fun k => R.val i k * M.val k j) = (if i = j then 1 else 0)
        ∧ (Finset.range n).sum (fun k => M.val i k * R.val k j) = (if i = j then 1 else 0))
    ∧ (∀ d : Matrix ℚ, d.invert ⟨2, 2, [2, 0, 0, 4]⟩ = .ok ⟨2, 2, [1 / 2, 0, 0, 1 / 4]⟩)
    ∧ (∀ d : Matrix ℚ, d.invert ⟨1, 1, [1]⟩ = .ok ⟨1, 1, [1]⟩) := by
  refine ⟨Matrix.invert_two_sided n dest M hn hM hr hc hdet, ?_, ?_⟩
  · intro d
    rw [Matrix.invert_two, if_neg (by norm_num)]
    norm_num
  · intro d
    rw [Matrix.invert_one, if_neg (by norm_num)]
    norm_num

theorem C5_witness :
    ∃ R : Matrix ℚ, (Matrix.mk 0 0 []).invert ⟨2, 2, [1, 2, 3, 4]⟩ = .ok R
      ∧ R.n_rows = 2 ∧ R.n_cols = 2 ∧ R.WF
      ∧ ∀ i j, i < 2 → j < 2 →
          (Finset.range 2).sum (fun k => R.val i k * (Matrix.mk 2 2 [1, 2, 3, 4]).val k j)
            = (if i = j then 1 else 0)
        ∧ (Finset.range 2).sum (fun k => (Matrix.mk 2 2 [1, 2, 3, 4]).val i k * R.val k j)
            = (if i = j then 1 else 0) :=
  (C5_matrix_invert_two_sided ℚ 2 (Matrix.mk 0 0 []) ⟨2, 2, [1, 2, 3, 4]⟩ (Or.inr (Or.inl rfl))
    (Matrix.wf_lit_two _ _ _ _) rfl rfl (by rw [Matrix.det_spec_two]; norm_num)).1

/-- C6 (amended): for every matrix `M` whose element count `n_rows*n_cols` is
representable as `unsigned int` (its buffer then holds `n_rows*n_cols`
elements) and into a destination other than `M`, `Matrix::invert (M)` succeeds
if and only if `M` is square with one, two or three rows and its determinant
is non-zero; in every other case it fails at an assertion: for every singular
`M` such as the all-ones `3 x 3` matrix, for every non-square `M`, for the
`0 x 0` matrix and for every `n >= 4` with `n*n < 2^32`. -/
theorem C6_matrix_invert_succeeds_iff (K : Type) [Field K] [DecidableEq K]
    (dest M : Matrix K) (hM : M.WF) :
    ((∃ R, dest.invert M = .ok R) ↔
      (M.n_rows = M.n_cols ∧ (M.n_cols = 1 ∨ M.n_cols = 2 ∨ M.n_cols = 3) ∧ M.det_spec ≠ 0))
    ∧ (¬ (M.n_rows = M.n_cols ∧ (M.n_cols = 1 ∨ M.n_cols = 2 ∨ M.n_cols = 3)
          ∧ M.det_spec ≠ 0) → dest.invert M = .error .assertion)
    ∧ dest.invert ⟨3, 3, [1, 1, 1, 1, 1, 1, 1, 1, 1]⟩ = .error .assertion
    ∧ dest.invert ⟨0, 0, []⟩ = .error .assertion := by
  refine ⟨⟨?_, ?_⟩, Matrix.invert_fails_of_not dest M hM, ?_, ?_⟩
  · rintro ⟨R, hR⟩
    by_contra hcon
    rw [Matrix.invert_fails_of_not dest M hM hcon] at hR
    cases hR
  · rintro ⟨hsq, hn, hdet⟩
    obtain ⟨R, hR, _⟩ := Matrix.invert_two_sided M.n_cols dest M hn hM hsq rfl hdet
    exact ⟨R, hR⟩
  · rw [Matrix.invert_three, if_pos (by ring)]
  · exact Matrix.invert_impl_zero false dest []

theorem C6_witness :
    ((∃ R, (Matrix.mk 0 0 []).invert (Matrix.mk 2 2 [(2 : ℚ), 0, 0, 4]) = .ok R) ↔
      ((Matrix.mk 2 2 [(2 : ℚ), 0, 0, 4]).n_rows = (Matrix.mk 2 2 [(2 : ℚ), 0, 0, 4]).n_cols
        ∧ ((Matrix.mk 2 2 [(2 : ℚ), 0, 0, 4]).n_cols = 1
          ∨ (Matrix.mk 2 2 [(2 : ℚ), 0, 0, 4]).n_cols = 2
          ∨ (Matrix.mk 2 2 [(2 : ℚ), 0, 0, 4]).n_cols = 3)
        ∧ (Matrix.mk 2 2 [(2 : ℚ), 0, 0, 4]).det_spec ≠ 0)) :=
  (C6_matrix_invert_succeeds_iff ℚ (Matrix.mk 0 0 []) (Matrix.mk 2 2 [2, 0, 0, 4])
    (Matrix.wf_lit_two _ _ _ _)).1

/-- C7: into a well-formed destination other than `T`, `Tensor::invert (T)`
succeeds if and only if `rank == 2`, `dim` is in `{1, 2, 3}` and the
determinant of `T` is non-zero. For every tensor with `rank != 2` or
`dim >= 4` it fails at an assertion whatever the component values, and for
rank 2 with `dim` in `{1, 2, 3}` it fails, at an assertion, exactly when the
determinant is zero. -/
theorem C7_tensor_invert_succeeds_iff (K : Type) [Field K] [DecidableEq K] (dim rank : Nat)
    (dest T : Tensor dim rank K) (hdest : dest.WF) (hT : T.WF) :
    ((∃ R, dest.invert T = .ok R) ↔
      (rank = 2 ∧ (dim = 1 ∨ dim = 2 ∨ dim = 3) ∧ T.det_spec ≠ 0))
    ∧ ((rank ≠ 2 ∨ 4 ≤ dim) →
        ∀ d' t' : Tensor dim rank K, d'.invert t' = .error .assertion)
    ∧ (rank = 2 → (dim = 1 ∨ dim = 2 ∨ dim = 3) →
        (dest.invert T = .error .assertion ↔ T.det_spec = 0)) := by
  have hfail := Tensor.invert_fails_outside dest T hdest hT
  have hok : (rank = 2 ∧ (dim = 1 ∨ dim = 2 ∨ dim = 3) ∧ T.det_spec ≠ 0) →
      ∃ R, dest.invert T = .ok R := by
    rintro ⟨hrank, hdim, hdet⟩
    subst hrank
    obtain ⟨_, _, _, R, hR, _⟩ := Tensor.invert_gives_inverse dim dest T hdim hdest hT hdet
    exact ⟨R, hR⟩
  refine ⟨⟨?_, hok⟩, ?_, ?_⟩
  · rintro ⟨R, hR⟩
    by_contra hcon
    rw [hfail hcon] at hR
    cases hR
  · intro hshape d' t'
    exact Tensor.invert_impl_bad_shape false d' t' hshape
  · intro hrank hdim
    constructor
    · intro herr
      by_contra hdet
      obtain ⟨R, hR⟩ := hok ⟨hrank, hdim, hdet⟩
      rw [herr] at hR
      cases hR
    · intro hdet
      exact hfail (fun hc => hc.2.2 hdet)

theorem C7_witness :
    ((∃ R, (Tensor.construct 2 2 true (fun _ => (0 : ℚ))).invert ⟨4, [1, 3, 2, 4]⟩ = .ok R) ↔
      (2 = 2 ∧ (2 = 1 ∨ 2 = 2 ∨ 2 = 3)
        ∧ (Tensor.mk 4 [1, 3, 2, 4] : Tensor 2 2 ℚ).det_spec ≠ 0)) :=
  (C7_tensor_invert_succeeds_iff ℚ 2 2 (Tensor.construct 2 2 true (fun _ => 0))
    ⟨4, [1, 3, 2, 4]⟩ (Tensor.construct_WF 2 2 true _) (Tensor.wf_lit_dim_two _ _ _ _)).1

/-- C8 (amended): the call `A.invert (A)`, where source and destination are
the same object, fails at an assertion for every matrix `A` whose element
count `n_rows*n_cols` is representable as `unsigned int`, invertible or not:
`reinit` zero-fills the buffer that the routine then reads, so the non-zero
test on the determinant (or, for other shapes, the shape test) fails. In
particular `A = [[2,0],[0,4]]` does not become `[[1/2,0],[0,1/4]]`. -/
theorem C8_self_inversion_fails (K : Type) [Field K] [DecidableEq K] (A : Matrix K)
    (hfit : A.n_rows * A.n_cols < UINT_RANGE) : A.invert_self = .error .assertion :=
  Matrix.invert_self_fails A hfit

theorem C8_witness :
    (Matrix.mk 2 2 [(2 : ℚ), 0, 0, 4]).n_rows * (Matrix.mk 2 2 [(2 : ℚ), 0, 0, 4]).n_cols
        < UINT_RANGE
    ∧ (Matrix.mk 2 2 [(2 : ℚ), 0, 0, 4]).invert_self = .error .assertion :=
  ⟨by decide, C8_self_inversion_fails ℚ (Matrix.mk 2 2 [2, 0, 0, 4]) (by decide)⟩

/-- C8 as stated fails: `A = [[2,0],[0,4]]` is a well-formed `2 x 2` matrix
with determinant `8`, and `A.invert (A)` does not succeed. -/
theorem C8_counterexample :
    (Matrix.mk 2 2 [(2 : ℚ), 0, 0, 4]).WF
    ∧ (Matrix.mk 2 2 [(2 : ℚ), 0, 0, 4]).det_spec = 8
    ∧ (Matrix.mk 2 2 [(2 : ℚ), 0, 0, 4]).invert_self = .error .assertion
    ∧ ¬ (Matrix.mk 2 2 [(2 : ℚ), 0, 0, 4]).invert_self = .ok ⟨2, 2, [1 / 2, 0, 0, 1 / 4]⟩ := by
  have h := Matrix.invert_self_two (K := ℚ) [2, 0, 0, 4]
  refine ⟨Matrix.wf_lit_two _ _ _ _, ?_, h, ?_⟩
  · rw [Matrix.det_spec_two]; norm_num
  · rw [h]; intro hc; cases hc

/-! ## Products: the claims -/

/-- C9 (amended): for all matrices `A` (`m x k`) and `B` (`k x n`) with
`A.cols == B.rows` and every destination `R` pre-sized to `m x n`, other than
`A` and `B`, the element count `n_rows*n_cols` of each of the three being
representable as `unsigned int` (each buffer then holds `n_rows*n_cols`
elements): when moreover `A.rows == B.cols`, as the routine asserts,
`R.mult (A, B)` succeeds, keeps the shape of `R` and leaves
`R(i,j) = R_old(i,j) + sum_{t < k} A(i,t) * B(t,j)` for all `i < m`, `j < n`
(the operands are passed by `const` reference and are not written); when
`A.rows != B.cols` the call fails at that assertion. -/
theorem C9_mult_accumulates_product (K : Type) [Field K] (R A B : Matrix K)
    (hR : R.WF) (hA : A.WF) (hB : B.WF) (hshape : A.n_cols = B.n_rows)
    (hr : R.n_rows = A.n_rows) (hc : R.n_cols = B.n_cols) :
    (A.n_rows = B.n_cols →
      ∃ R' : Matrix K, R.mult A B = .ok R' ∧ R'.WF ∧ R'.n_rows = R.n_rows
        ∧ R'.n_cols = R.n_cols
        ∧ ∀ i j, i < A.n_rows → j < B.n_cols →
            R'.val i j
              = R.val i j + (Finset.range A.n_cols).sum (fun t => A.val i t * B.val t j))
    ∧ (A.n_rows ≠ B.n_cols → R.mult A B = .error .assertion) := by
  refine ⟨fun hguard => Matrix.mult_spec R A B hR hA hB hguard hshape hr hc, fun hne => ?_⟩
  unfold Matrix.mult
  exact assert_bind_of_not hne _

theorem C9_witness :
    ∃ R' : Matrix ℚ, (Matrix.mk 1 1 [5]).mult ⟨1, 2, [1, 2]⟩ ⟨2, 1, [3, 4]⟩ = .ok R' ∧ R'.WF
      ∧ R'.n_rows = 1 ∧ R'.n_cols = 1
      ∧ ∀ i j, i < 1 → j < 1 →
          R'.val i j = (Matrix.mk 1 1 [(5 : ℚ)]).val i j
            + (Finset.range 2).sum
                (fun t => (Matrix.mk 1 2 [(1 : ℚ), 2]).val i t * (Matrix.mk 2 1 [(3 : ℚ), 4]).val t j) :=
  (C9_mult_accumulates_product ℚ (Matrix.mk 1 1 [5]) ⟨1, 2, [1, 2]⟩ ⟨2, 1, [3, 4]⟩
    ⟨rfl, by decide⟩ ⟨rfl, by decide⟩ ⟨rfl, by decide⟩ rfl rfl rfl).1 rfl

/-- C9 as stated fails: `A` is `1 x 1`, `B` is `1 x 2`, so `A.cols == B.rows`,
and `R` is pre-sized to `1 x 2`; `R.mult (A, B)` fails at the assertion
`M_a.__n_rows == M_b.__n_cols`. -/
theorem C9_counterexample :
    (Matrix.mk 1 1 [(2 : ℚ)]).WF ∧ (Matrix.mk 1 2 [(3 : ℚ), 4]).WF
    ∧ (Matrix.mk 1 2 [(0 : ℚ), 0]).WF
    ∧ (Matrix.mk 1 1 [(2 : ℚ)]).n_cols = (Matrix.mk 1 2 [(3 : ℚ), 4]).n_rows
    ∧ (Matrix.mk 1 2 [(0 : ℚ), 0]).n_rows = (Matrix.mk 1 1 [(2 : ℚ)]).n_rows
    ∧ (Matrix.mk 1 2 [(0 : ℚ), 0]).n_cols = (Matrix.mk 1 2 [(3 : ℚ), 4]).n_cols
    ∧ (Matrix.mk 1 2 [(0 : ℚ), 0]).mult ⟨1, 1, [2]⟩ ⟨1, 2, [3, 4]⟩ = .error .assertion :=
  ⟨⟨rfl, by decide⟩, ⟨rfl, by decide⟩, ⟨rfl, by decide⟩, rfl, rfl, rfl, rfl⟩

/-- C10, the code at two inputs that pass the shape assertions of `Tmult`.
With `A = B = [[1, 1]]` (`1 x 2`) and `R` the zero `2 x 2` matrix, `Tmult`
returns `[[1, 1], [0, 0]]`: row `1` is never written, although
`(transpose(A) * B)(1, 0) = A(0,1) * B(0,0) = 1`. With `A` and `B` of shape
`2 x 1` and `R` of shape `1 x 1` the call fails at an assertion. -/
theorem C10_Tmult_wrong_row_bound :
    ((Matrix.mk 2 2 [(0 : ℚ), 0, 0, 0]).Tmult ⟨1, 2, [1, 1]⟩ ⟨1, 2, [1, 1]⟩
          = .ok ⟨2, 2, [1, 1, 0, 0]⟩
      ∧ (Matrix.mk 2 2 [(1 : ℚ), 1, 0, 0]).val 1 0 = 0
      ∧ (Matrix.mk 2 2 [(0 : ℚ), 0, 0, 0]).val 1 0
          + (Finset.range 1).sum
              (fun t => (Matrix.mk 1 2 [(1 : ℚ), 1]).val t 1 * (Matrix.mk 1 2 [(1 : ℚ), 1]).val t 0)
          = 1)
    ∧ (Matrix.mk 1 1 [(0 : ℚ)]).Tmult ⟨2, 1, [1, 1]⟩ ⟨2, 1, [1, 1]⟩ = .error .assertion := by
  refine ⟨⟨?_, rfl, ?_⟩, rfl⟩
  · have h : (Matrix.mk 2 2 [(0 : ℚ), 0, 0, 0]).Tmult ⟨1, 2, [1, 1]⟩ ⟨1, 2, [1, 1]⟩
        = .ok ⟨2, 2, [0 + 1 * 1, 0 + 1 * 1, 0, 0]⟩ := rfl
    rw [h]
    norm_num
  · have h1 : (Matrix.mk 2 2 [(0 : ℚ), 0, 0, 0]).val 1 0 = 0 := rfl
    have h2 : (Matrix.mk 1 2 [(1 : ℚ), 1]).val 0 1 = 1 := rfl
    have h3 : (Matrix.mk 1 2 [(1 : ℚ), 1]).val 0 0 = 1 := rfl
    simp only [Finset.sum_range_one, h1, h2, h3]
    norm_num

/-! ## Voigt shape: lemmas -/

/-- The number of index pairs `(i, j)` with `i <= j < dim`. -/
theorem card_upper_triangle (dim : Nat) :
    ((Finset.range dim ×ˢ Finset.range dim).filter (fun p => p.1 ≤ p.2)).card
      = dim * (dim + 1) / 2 := by
  have h : ((Finset.range dim ×ˢ Finset.range dim).filter (fun p => p.1 ≤ p.2)).card
      = (Finset.range dim).sum (fun j => j + 1) := by
    rw [Finset.card_eq_sum_ones, Finset.sum_filter, Finset.sum_product_right]
    apply Finset.sum_congr rfl
    intro j hj
    rw [← Finset.sum_filter, ← Finset.card_eq_sum_ones]
    have hj' : j < dim := Finset.mem_range.mp hj
    have : (Finset.range dim).filter (fun i => i ≤ j) = Finset.range (j + 1) := by
      ext i
      simp only [Finset.mem_filter, Finset.mem_range]
      omega
    rw [this, Finset.card_range]
  rw [h, Finset.sum_add_distrib, Finset.sum_const, Finset.card_range, smul_eq_mul, mul_one]
  have hg := Finset.sum_range_id_mul_two dim
  have : dim * (dim + 1) = ((Finset.range dim).sum (fun i => i) + dim) * 2 := by
    rw [Nat.add_mul, hg]
    cases dim with
    | zero => rfl
    | succ n => simp only [Nat.add_sub_cancel]; ring
  rw [this, Nat.mul_div_cancel _ (by decide : 0 < 2)]

theorem half_product_add (dim : Nat) : dim * (dim - 1) / 2 + dim = dim * (dim + 1) / 2 := by
  cases dim with
  | zero => rfl
  | succ n =>
    simp only [Nat.add_sub_cancel]
    have h : (n + 1) * (n + 1 + 1) = (n + 1) * n + 2 * (n + 1) := by ring
    rw [h, Nat.add_mul_div_left _ _ (by decide : 0 < 2)]

theorem Tensor.voight_rank_two {dim : Nat} {K : Type} (T : Tensor dim 2 K)
    (h : dim * (dim - 1) ≤ INT_MAX) :
    T.voight_components = .ok (1, dim * (dim - 1) / 2 + dim) := by
  have hI : INT_MAX < UINT_RANGE := by decide
  have h1 : dim * (dim - 1) / 2 < UINT_RANGE := by
    have := Nat.div_le_self (dim * (dim - 1)) 2
    omega
  have hU : UINT_RANGE = 4294967296 := by decide
  have hM : INT_MAX = 2147483647 := by decide
  have h2 : dim * (dim - 1) / 2 + dim < UINT_RANGE := by
    rcases Nat.lt_or_ge dim 65536 with hd | hd
    · omega
    · have : 65536 * 65535 ≤ dim * (dim - 1) := Nat.mul_le_mul hd (by omega)
      omega
  simp only [Tensor.voight_components, assert, bind, Except.bind, pure, Except.pure, h]
  simp [Nat.mod_eq_of_lt h1, Nat.mod_eq_of_lt h2]

theorem Tensor.voight_rank_ge_three {dim rank : Nat} {K : Type} (T : Tensor dim rank K)
    (hrank : 3 ≤ rank) (hr : rank ≤ INT_MAX)
    (h : dim * (rank / 2 + rank % 2) ≤ INT_MAX) :
    T.voight_components = .ok (dim * (rank / 2), dim * (rank / 2 + rank % 2)) := by
  have h1 : dim * (rank / 2) ≤ INT_MAX :=
    le_trans (Nat.mul_le_mul_left dim (Nat.le_add_right _ _)) h
  have h2 : rank / 2 + rank % 2 ≤ INT_MAX := by omega
  obtain ⟨r, rfl⟩ : ∃ r, rank = r + 3 := ⟨rank - 3, by omega⟩
  simp only [Tensor.voight_components, assert, bind, Except.bind, pure, Except.pure]
  simp [h1, h2, h]

/-! ## Voigt shape and multT: the claims -/

/-- C11, the code at two inputs that pass the shape assertions of `multT`.
With `A = B = [[1, 1]]` (`1 x 2`) and `R` the zero `1 x 1` matrix
(`A.rows x B.rows`) the call fails at an assertion, although
`(A * transpose(B))(0,0) = 1*1 + 1*1 = 2`; with `A` and `B` of shape `2 x 1`
and `R` the zero `2 x 2` matrix it fails at an assertion as well. -/
theorem C11_multT_wrong_loop_bounds :
    ((Matrix.mk 1 1 [(0 : ℚ)]).multT ⟨1, 2, [1, 1]⟩ ⟨1, 2, [1, 1]⟩ = .error .assertion
      ∧ (Matrix.mk 1 1 [(0 : ℚ)]).val 0 0
          + (Finset.range 2).sum
              (fun t => (Matrix.mk 1 2 [(1 : ℚ), 1]).val 0 t * (Matrix.mk 1 2 [(1 : ℚ), 1]).val 0 t)
          = 2)
    ∧ (Matrix.mk 2 2 [(0 : ℚ), 0, 0, 0]).multT ⟨2, 1, [1, 1]⟩ ⟨2, 1, [1, 1]⟩
        = .error .assertion := by
  refine ⟨⟨rfl, ?_⟩, rfl⟩
  have h1 : (Matrix.mk 1 1 [(0 : ℚ)]).val 0 0 = 0 := rfl
  have h2 : (Matrix.mk 1 2 [(1 : ℚ), 1]).val 0 0 = 1 := rfl
  have h3 : (Matrix.mk 1 2 [(1 : ℚ), 1]).val 0 1 = 1 := rfl
  simp only [Finset.sum_range_succ, Finset.sum_range_zero, h1, h2, h3]
  norm_num

/-- C18 (amended): `voight_components ()` fails for rank 0; for rank 1 it
returns `(1, dim)`; for rank 2 it returns `(1, dim*(dim-1)/2 + dim)` provided
the `int` product `dim*(dim-1)` does not overflow; and for every rank `>= 3` it
returns `(dim*q, dim*(q+r))` with `q = rank div 2`, `r = rank mod 2`, provided
the `int` product `dim*(q+r)` does not overflow. -/
theorem C18_voight_components_by_rank (dim rank : Nat) (K : Type) (T : Tensor dim rank K)
    (hr : rank ≤ INT_MAX)
    (h2 : rank = 2 → dim * (dim - 1) ≤ INT_MAX)
    (h3 : 3 ≤ rank → dim * (rank / 2 + rank % 2) ≤ INT_MAX) :
    ((∃ p, T.voight_components = .ok p) ↔ 1 ≤ rank)
    ∧ (rank = 0 → T.voight_components = .error .assertion)
    ∧ (rank = 1 → T.voight_components = .ok (1, dim))
    ∧ (rank = 2 → T.voight_components = .ok (1, dim * (dim - 1) / 2 + dim))
    ∧ (3 ≤ rank →
        T.voight_components = .ok (dim * (rank / 2), dim * (rank / 2 + rank % 2))) := by
  have c0 : rank = 0 → T.voight_components = .error .assertion := by
    intro h; subst h; rfl
  have c1 : rank = 1 → T.voight_components = .ok (1, dim) := by
    intro h; subst h; rfl
  have c2 : rank = 2 → T.voight_components = .ok (1, dim * (dim - 1) / 2 + dim) := by
    intro h; subst h; exact Tensor.voight_rank_two T (h2 rfl)
  have c3 : 3 ≤ rank →
      T.voight_components = .ok (dim * (rank / 2), dim * (rank / 2 + rank % 2)) :=
    fun h => Tensor.voight_rank_ge_three T h hr (h3 h)
  refine ⟨⟨?_, ?_⟩, c0, c1, c2, c3⟩
  · rintro ⟨p, hp⟩
    by_contra hcon
    rw [c0 (by omega)] at hp
    cases hp
  · intro h
    rcases Nat.lt_or_ge rank 3 with hlt | hge
    · rcases Nat.lt_or_ge rank 2 with hlt2 | hge2
      · exact ⟨_, c1 (by omega)⟩
      · exact ⟨_, c2 (by omega)⟩
    · exact ⟨_, c3 hge⟩

theorem C18_witness :
    (Tensor.construct 3 4 true (fun _ => (0 : ℚ))).voight_components
      = .ok (3 * (4 / 2), 3 * (4 / 2 + 4 % 2)) :=
  (C18_voight_components_by_rank 3 4 ℚ (Tensor.construct 3 4 true (fun _ => 0)) (by decide)
    (by decide) (by decide)).2.2.2.2 (by decide)

/-- C18 as stated fails where `int` overflows: for a `Tensor<50000, 2>` the
product `dim*(dim-1) = 2499950000` exceeds `INT_MAX`, the computation is
undefined and does not return `(1, 1250025000)`. -/
theorem C18_counterexample :
    (Tensor.construct 50000 2 true (fun _ => (0 : ℚ))).voight_components = .error .undefined
    ∧ 50000 * (50000 - 1) = 2499950000 ∧ INT_MAX = 2147483647
    ∧ 50000 * (50000 - 1) / 2 + 50000 = 1250025000 := by
  decide

/-- C19 (amended): for every `dim >= 1` whose `int` product `dim*(dim-1)` does
not overflow, the column count returned by `voight_components ()` for a rank-2
tensor, `dim*(dim-1)/2 + dim`, equals the number of index pairs `(i, j)` with
`0 <= i <= j < dim`, which is `dim*(dim+1)/2`. -/
theorem C19_voight_columns_count_pairs (dim : Nat) (K : Type) (T : Tensor dim 2 K)
    (_hdim : 1 ≤ dim) (hfit : dim * (dim - 1) ≤ INT_MAX) :
    ∃ cols, T.voight_components = .ok (1, cols)
      ∧ cols = dim * (dim - 1) / 2 + dim
      ∧ cols = ((Finset.range dim ×ˢ Finset.range dim).filter (fun p => p.1 ≤ p.2)).card
      ∧ cols = dim * (dim + 1) / 2 :=
  ⟨dim * (dim - 1) / 2 + dim, Tensor.voight_rank_two T hfit, rfl,
    by rw [card_upper_triangle, half_product_add], half_product_add dim⟩

theorem C19_witness :
    ∃ cols, (Tensor.construct 3 2 true (fun _ => (0 : ℚ))).voight_components = .ok (1, cols)
      ∧ cols = 3 * (3 - 1) / 2 + 3
      ∧ cols = ((Finset.range 3 ×ˢ Finset.range 3).filter (fun p => p.1 ≤ p.2)).card
      ∧ cols = 3 * (3 + 1) / 2 :=
  C19_voight_columns_count_pairs 3 ℚ (Tensor.construct 3 2 true (fun _ => 0)) (by decide)
    (by decide)

/-- C19 as stated fails where `int` overflows: for `dim = 46342` the product
`dim*(dim-1) = 2147534622` exceeds `INT_MAX = 2147483647`, so the rank-2 column
count is undefined, while the number of pairs is `46342*46343/2`. -/
theorem C19_counterexample :
    1 ≤ 46342
    ∧ (Tensor.construct 46342 2 true (fun _ => (0 : ℚ))).voight_components = .error .undefined
    ∧ 46342 * (46342 - 1) = 2147534622 ∧ INT_MAX = 2147483647
    ∧ 46342 * (46342 + 1) / 2 = 1073813653 := by
  decide

/-! ## Scale-add: lemmas -/

theorem getD_set_ne {K : Type} (l : List K) {k p : Nat} (h : k ≠ p) (v d : K) :
    (l.set k v).getD p d = l.getD p d := by
  simp only [List.getD_eq_getElem?_getD, List.getElem?_set_ne h]

theorem getD_set_self {K : Type} (l : List K) {k : Nat} (h : k < l.length) (v d : K) :
    (l.set k v).getD k d = v := by
  rw [List.getD_eq_getElem _ d (by simp only [List.length_set]; exact h), List.getElem_set_self]

namespace Tensor

variable {dim rank : Nat} {K : Type}

end Tensor

/-! ## Scale-add: the claim -/

theorem succ_mod_of_zero {t m : Nat} (hm : 2 ≤ m) (h : t % m = 0) : (t + 1) % m = 1 := by
  rw [Nat.add_mod, h, Nat.zero_add, Nat.mod_mod, Nat.mod_eq_of_lt (by omega)]

theorem succ_mod_of_lt {t m : Nat} (h : t % m + 1 < m) : (t + 1) % m = t % m + 1 := by
  have h1 : 1 % m = 1 := Nat.mod_eq_of_lt (by omega)
  rw [Nat.add_mod, h1, Nat.mod_eq_of_lt h]

theorem succ_mod_of_eq {t m : Nat} (hm : 2 ≤ m) (h : t % m + 1 = m) : (t + 1) % m = 0 := by
  have h1 : 1 % m = 1 := Nat.mod_eq_of_lt (by omega)
  rw [Nat.add_mod, h1, h, Nat.mod_self]

/-- Row-major offsets of an `n x n` matrix that are multiples of `n + 1` are
those of the diagonal. -/
theorem diag_offset_mod {n i j : Nat} (hi : i < n) (hj : j < n) :
    (n * i + j) % (n + 1) = 0 ↔ i = j := by
  rcases Nat.lt_or_ge j i with hlt | hge
  · have e : n * i + j = (n + 1) * (i - 1) + (n + 1 + j - i) := by
      have h1 : (n + 1) * (i - 1) = n * (i - 1) + (i - 1) := by ring
      have h2 : n * i = n * (i - 1) + n := by
        obtain ⟨k, rfl⟩ : ∃ k, i = k + 1 := ⟨i - 1, by omega⟩
        simp only [Nat.add_sub_cancel]; ring
      omega
    rw [e, Nat.mul_add_mod, Nat.mod_eq_of_lt (by omega)]
    constructor <;> intro h <;> omega
  · have e : n * i + j = (n + 1) * i + (j - i) := by
      have h1 : (n + 1) * i = n * i + i := by ring
      omega
    rw [e, Nat.mul_add_mod, Nat.mod_eq_of_lt (by omega)]
    constructor <;> intro h <;> omega

namespace Matrix

variable {K : Type}

theorem reinit_zero_eq [Zero K] {M : Matrix K} (hM : M.WF) :
    M.reinit_zero = .ok ⟨M.n_rows, M.n_cols, List.replicate (M.n_rows * M.n_cols) 0⟩ := by
  have h : M.n_rows * M.n_cols ≤ M.data.length := by rw [hM.1]
  simp only [reinit_zero, h, if_true]
  rw [List.drop_of_length_le (by rw [hM.1]), List.append_nil]

theorem identity_nonsquare [Field K] (M : Matrix K) (h : M.n_rows ≠ M.n_cols) :
    M.identity = .error .assertion := by
  unfold identity
  exact assert_bind_of_not h _

theorem side_lt_of_square_lt {n : Nat} (h : n * n < UINT_RANGE) : n + 1 < UINT_RANGE := by
  have hU : UINT_RANGE = 4294967296 := by decide
  rcases Nat.lt_or_ge n 65536 with hlt | hge
  · omega
  · have : 65536 * 65536 ≤ n * n := Nat.mul_le_mul hge hge
    omega

/-- The flat loop of `identity ()` on the zeroed `n x n` buffer. -/
theorem identity_loop [Field K] (n : Nat) (hn : 1 ≤ n) (hfit : n * n < UINT_RANGE) :
    ∃ st : Nat × Matrix K,
      forLoop (fun i (st : Nat × Matrix K) => do
          let st ←
            if st.1 = (st.2.n_rows + 1) % UINT_RANGE then do
              let data ← store st.2.data i 1
              pure (0, { st.2 with data := data })
            else pure st
          return ((st.1 + 1) % UINT_RANGE, st.2))
        (n * n) (n + 1, ⟨n, n, List.replicate (n * n) 0⟩) = .ok st
      ∧ st.2.n_rows = n ∧ st.2.n_cols = n ∧ st.2.data.length = n * n
      ∧ ∀ p, p < n * n → st.2.data.getD p 0 = if p % (n + 1) = 0 then 1 else 0 := by
  have hn1 := side_lt_of_square_lt hfit
  have key : ∀ m, m ≤ n * n → ∃ st : Nat × Matrix K,
      forLoop (fun i (st : Nat × Matrix K) => do
          let st ←
            if st.1 = (st.2.n_rows + 1) % UINT_RANGE then do
              let data ← store st.2.data i 1
              pure (0, { st.2 with data := data })
            else pure st
          return ((st.1 + 1) % UINT_RANGE, st.2))
        m (n + 1, ⟨n, n, List.replicate (n * n) 0⟩) = .ok st
      ∧ st.2.n_rows = n ∧ st.2.n_cols = n ∧ st.2.data.length = n * n
      ∧ st.1 = (if m % (n + 1) = 0 then n + 1 else m % (n + 1))
      ∧ ∀ p, p < n * n →
          st.2.data.getD p 0 = if p < m ∧ p % (n + 1) = 0 then 1 else 0 := by
    intro m hm
    apply forLoop_inv _ (fun t (st : Nat × Matrix K) =>
      st.2.n_rows = n ∧ st.2.n_cols = n ∧ st.2.data.length = n * n
      ∧ st.1 = (if t % (n + 1) = 0 then n + 1 else t % (n + 1))
      ∧ ∀ p, p < n * n →
          st.2.data.getD p 0 = if p < t ∧ p % (n + 1) = 0 then 1 else 0)
    · refine ⟨rfl, rfl, by simp, by simp, ?_⟩
      intro p hp
      simp [List.getD_eq_getElem?_getD, List.getElem?_replicate, hp]
    · rintro t ⟨j, S⟩ ht ⟨hr, hc, hl, hj, hv⟩
      simp only at hr hc hl hj hv
      have hmod : t % (n + 1) < n + 1 := Nat.mod_lt _ (by omega)
      by_cases h0 : t % (n + 1) = 0
      · rw [if_pos h0] at hj
        have hcond : j = (S.n_rows + 1) % UINT_RANGE := by
          rw [hr, Nat.mod_eq_of_lt hn1]; exact hj
        have hst : t < S.data.length := by omega
        refine ⟨(1, ⟨S.n_rows, S.n_cols, S.data.set t 1⟩), ?_, hr, hc,
          by simp only [List.length_set]; exact hl, ?_, ?_⟩
        · simp only [hcond, if_true, store_of_lt hst, bind, Except.bind, pure, Except.pure]
          have : (0 + 1) % UINT_RANGE = 1 := by decide
          rw [this]
        · have := succ_mod_of_zero (show 2 ≤ n + 1 by omega) h0
          simp only [this]
          simp
        · intro p hp
          show (S.data.set t 1).getD p 0 = _
          by_cases hpt : p = t
          · subst hpt
            rw [getD_set_self _ hst, if_pos ⟨by omega, h0⟩]
          · rw [getD_set_ne _ (fun h => hpt h.symm), hv p hp]
            by_cases h1 : p < t ∧ p % (n + 1) = 0
            · rw [if_pos h1, if_pos ⟨by omega, h1.2⟩]
            · rw [if_neg h1, if_neg (fun h2 => h1 ⟨by omega, h2.2⟩)]
      · rw [if_neg h0] at hj
        have hcond : ¬ j = (S.n_rows + 1) % UINT_RANGE := by
          rw [hr, Nat.mod_eq_of_lt hn1]; omega
        refine ⟨(j + 1, S), ?_, hr, hc, hl, ?_, ?_⟩
        · simp only [hcond, if_false, bind, Except.bind, pure, Except.pure]
          rw [Nat.mod_eq_of_lt (by omega)]
        · show j + 1 = _
          by_cases h2 : t % (n + 1) + 1 = n + 1
          · rw [if_pos (succ_mod_of_eq (by omega) h2)]; omega
          · have h3 := succ_mod_of_lt (show t % (n + 1) + 1 < n + 1 by omega)
            rw [if_neg (by omega), h3]; omega
        · intro p hp
          rw [hv p hp]
          by_cases h1 : p < t ∧ p % (n + 1) = 0
          · rw [if_pos h1, if_pos ⟨by omega, h1.2⟩]
          · rw [if_neg h1, if_neg]
            rintro ⟨h2, h3⟩
            have : p = t := by
              by_contra hne
              exact h1 ⟨by omega, h3⟩
            subst this
            exact h0 h3
  obtain ⟨st, h1, h2, h3, h4, _, h6⟩ := key (n * n) (le_refl _)
  refine ⟨st, h1, h2, h3, h4, ?_⟩
  intro p hp
  rw [h6 p hp]
  by_cases h : p % (n + 1) = 0
  · rw [if_pos ⟨hp, h⟩, if_pos h]
  · rw [if_neg (fun hh => h hh.2), if_neg h]

theorem identity_eq [Field K] (M : Matrix K) :
    M.identity = (assert (M.n_rows = M.n_cols) >>= fun _ =>
      M.reinit_zero >>= fun self =>
        if self.n_rows = 0 then .ok self
        else
          forLoop (fun i (st : Nat × Matrix K) => do
              let st ←
                if st.1 = (st.2.n_rows + 1) % UINT_RANGE then do
                  let data ← store st.2.data i 1
                  pure (0, { st.2 with data := data })
                else pure st
              return ((st.1 + 1) % UINT_RANGE, st.2))
            ((self.n_rows * self.n_cols) % UINT_RANGE) ((self.n_rows + 1) % UINT_RANGE, self)
          >>= fun st => .ok st.2) := by
  rfl

/-- What `identity ()` does on a well-formed square matrix. -/
theorem identity_spec [Field K] {M : Matrix K} (hM : M.WF) (hsq : M.n_rows = M.n_cols) :
    ∃ I : Matrix K, M.identity = .ok I ∧ I.WF ∧ I.n_rows = M.n_rows ∧ I.n_cols = M.n_cols
      ∧ (∀ p, p < M.n_rows * M.n_rows →
          I.data.getD p 0 = if p % (M.n_rows + 1) = 0 then 1 else 0)
      ∧ ∀ i j, i < M.n_rows → j < M.n_rows → I.val i j = if i = j then 1 else 0 := by
  obtain ⟨n, c, data⟩ := M
  simp only at hsq
  subst hsq
  have hfit : n * n < UINT_RANGE := hM.2
  rw [identity_eq, assert_bind_of rfl, reinit_zero_eq hM]
  show ∃ I : Matrix K, (if n = 0 then _ else _) = _ ∧ _
  dsimp only
  by_cases h0 : n = 0
  · subst h0
    rw [if_pos rfl]
    refine ⟨_, rfl, ⟨rfl, by show 0 * 0 < UINT_RANGE; decide⟩, rfl, rfl, ?_, ?_⟩
    · intro p hp; omega
    · intro i j hi; omega
  · rw [if_neg h0]
    have hn1 := side_lt_of_square_lt hfit
    obtain ⟨st, hloop, hr, hc, hl, hv⟩ := @identity_loop K _ n (by omega) hfit
    have hWF : st.2.WF := ⟨by rw [hl, hr, hc], by rw [hr, hc]; exact hfit⟩
    refine ⟨st.2, ?_, hWF, hr, hc, hv, ?_⟩
    · show (forLoop _ ((n * n) % UINT_RANGE) ((n + 1) % UINT_RANGE, _) >>= _) = _
      rw [Nat.mod_eq_of_lt hfit, Nat.mod_eq_of_lt hn1, hloop]
      rfl
    · intro i j hi hj
      rw [val_eq hWF (by omega) (by omega), hc]
      have hp : n * i + j < n * n := by
        have : n * (i + 1) ≤ n * n := Nat.mul_le_mul_left _ hi
        rw [Nat.mul_succ] at this
        omega
      rw [hv _ hp]
      by_cases hij : i = j
      · rw [if_pos ((diag_offset_mod hi hj).2 hij), if_pos hij]
      · rw [if_neg (fun h => hij ((diag_offset_mod hi hj).1 h)), if_neg hij]

end Matrix

theorem forReturn_none {ρ : Type} (body : Nat → Except Failure (Option ρ)) :
    ∀ n start, (∀ k, start ≤ k → k < start + n → body k = .ok none) →
      forReturn body n start = .ok none
  | 0, _, _ => rfl
  | n + 1, start, h => by
    have h0 := h start (le_refl _) (by omega)
    have ih := forReturn_none body n (start + 1) (fun k h1 h2 => h k (by omega) (by omega))
    simp only [forReturn, h0, bind, Except.bind]
    exact ih

theorem forReturn_some {ρ : Type} (body : Nat → Except Failure (Option ρ)) (P : Nat → Prop)
    (r : ρ) :
    ∀ n start, (∃ k, start ≤ k ∧ k < start + n ∧ P k) →
      (∀ k, start ≤ k → k < start + n → P k → body k = .ok (some r)) →
      (∀ k, start ≤ k → k < start + n → ¬ P k → body k = .ok none) →
      forReturn body n start = .ok (some r)
  | 0, _, ⟨k, h1, h2, _⟩, _, _ => by omega
  | n + 1, start, ⟨k, h1, h2, hk⟩, hyes, hno => by
    by_cases hP : P start
    · have h0 := hyes start (le_refl _) (by omega) hP
      simp only [forReturn, h0, bind, Except.bind]
      rfl
    · have h0 := hno start (le_refl _) (by omega) hP
      have hne : k ≠ start := fun h => hP (h ▸ hk)
      have ih := forReturn_some body P r n (start + 1) ⟨k, by omega, by omega, hk⟩
        (fun k h1 h2 => hyes k (by omega) (by omega))
        (fun k h1 h2 => hno k (by omega) (by omega))
      simp only [forReturn, h0, bind, Except.bind]
      exact ih

namespace Matrix

variable {K : Type}

theorem is_symmetric_eq [DecidableEq K] (M : Matrix K) :
    M.is_symmetric = (assert (M.n_rows = M.n_cols) >>= fun _ =>
      forReturn (fun i =>
        forReturn (fun j =>
          M.get i j >>= fun a => M.get j i >>= fun b =>
            if a ≠ b then .ok (some false) else .ok none)
          (M.n_cols - (i + 1)) (i + 1))
        M.n_rows 0 >>= fun r =>
      match r with
      | some b => .ok b
      | none => .ok true) := rfl

theorem is_symmetric_nonsquare [DecidableEq K] (M : Matrix K) (h : M.n_rows ≠ M.n_cols) :
    M.is_symmetric = .error .assertion := by
  rw [is_symmetric_eq]
  exact assert_bind_of_not h _

theorem symmetric_row_body [Zero K] [DecidableEq K] {M : Matrix K} (hM : M.WF)
    (hsq : M.n_rows = M.n_cols) {i j : Nat} (hi : i < M.n_rows) (hj : j < M.n_rows) :
    (M.get i j >>= fun a => M.get j i >>= fun b =>
      if a ≠ b then Except.ok (some false) else (Except.ok none : Except Failure (Option Bool)))
      = if M.val i j ≠ M.val j i then .ok (some false) else .ok none := by
  rw [get_eq_val hM hi (by omega), get_eq_val hM hj (by omega)]
  rfl

/-- What `is_symmetric ()` returns on a well-formed square matrix. -/
theorem is_symmetric_spec [Zero K] [DecidableEq K] {M : Matrix K} (hM : M.WF)
    (hsq : M.n_rows = M.n_cols) :
    ((∀ i j, i < j → j < M.n_rows → M.val i j = M.val j i) → M.is_symmetric = .ok true)
    ∧ ((∃ i j, i < j ∧ j < M.n_rows ∧ M.val i j ≠ M.val j i) →
        M.is_symmetric = .ok false) := by
  constructor
  · intro hall
    have hrow : ∀ i, i < M.n_rows →
        forReturn (fun j =>
          M.get i j >>= fun a => M.get j i >>= fun b =>
            if a ≠ b then .ok (some false) else .ok none)
          (M.n_cols - (i + 1)) (i + 1) = .ok none := by
      intro i hi
      apply forReturn_none
      intro j h1 h2
      have hj : j < M.n_rows := by omega
      show (M.get i j >>= fun a => M.get j i >>= fun b =>
        if a ≠ b then Except.ok (some false) else Except.ok none) = _
      rw [symmetric_row_body hM hsq hi hj, if_neg (fun h => h (hall i j (by omega) hj))]
    have hout := forReturn_none (fun i =>
        forReturn (fun j =>
          M.get i j >>= fun a => M.get j i >>= fun b =>
            if a ≠ b then .ok (some false) else .ok none)
          (M.n_cols - (i + 1)) (i + 1)) M.n_rows 0
      (fun k _ h2 => hrow k (by omega))
    rw [is_symmetric_eq, assert_bind_of hsq, hout]
    rfl
  · intro hex
    have hrow_no : ∀ i, i < M.n_rows →
        ¬ (∃ j, i < j ∧ j < M.n_rows ∧ M.val i j ≠ M.val j i) →
        forReturn (fun j =>
          M.get i j >>= fun a => M.get j i >>= fun b =>
            if a ≠ b then .ok (some false) else .ok none)
          (M.n_cols - (i + 1)) (i + 1) = .ok none := by
      intro i hi hno
      apply forReturn_none
      intro j h1 h2
      have hj : j < M.n_rows := by omega
      show (M.get i j >>= fun a => M.get j i >>= fun b =>
        if a ≠ b then Except.ok (some false) else Except.ok none) = _
      rw [symmetric_row_body hM hsq hi hj,
        if_neg (fun h => hno ⟨j, by omega, hj, h⟩)]
    have hrow_yes : ∀ i, i < M.n_rows →
        (∃ j, i < j ∧ j < M.n_rows ∧ M.val i j ≠ M.val j i) →
        forReturn (fun j =>
          M.get i j >>= fun a => M.get j i >>= fun b =>
            if a ≠ b then .ok (some false) else .ok none)
          (M.n_cols - (i + 1)) (i + 1) = .ok (some false) := by
      rintro i hi ⟨j, h1, h2, h3⟩
      apply forReturn_some _ (fun j => M.val i j ≠ M.val j i) false
      · exact ⟨j, by omega, by omega, h3⟩
      · intro k h1 h2 hP
        show (M.get i k >>= fun a => M.get k i >>= fun b =>
          if a ≠ b then Except.ok (some false) else Except.ok none) = _
        rw [symmetric_row_body hM hsq hi (by omega), if_pos hP]
      · intro k h1 h2 hP
        show (M.get i k >>= fun a => M.get k i >>= fun b =>
          if a ≠ b then Except.ok (some false) else Except.ok none) = _
        rw [symmetric_row_body hM hsq hi (by omega), if_neg hP]
    have hout := forReturn_some (fun i =>
        forReturn (fun j =>
          M.get i j >>= fun a => M.get j i >>= fun b =>
            if a ≠ b then .ok (some false) else .ok none)
          (M.n_cols - (i + 1)) (i + 1))
      (fun i => ∃ j, i < j ∧ j < M.n_rows ∧ M.val i j ≠ M.val j i) false M.n_rows 0
      (by
        obtain ⟨i, j, h1, h2, h3⟩ := hex
        exact ⟨i, by omega, by omega, j, h1, h2, h3⟩)
      (fun k _ h2 hP => hrow_yes k (by omega) hP)
      (fun k _ h2 hP => hrow_no k (by omega) hP)
    rw [is_symmetric_eq, assert_bind_of hsq, hout]
    rfl

/-- Two well-formed matrices of one shape with equal elements are equal. -/
theorem eq_of_val [Zero K] {M N : Matrix K} (hM : M.WF) (hN : N.WF)
    (hr : M.n_rows = N.n_rows) (hc : M.n_cols = N.n_cols)
    (h : ∀ i j, i < M.n_rows → j < M.n_cols → M.val i j = N.val i j) : M = N := by
  obtain ⟨r, c, d⟩ := M
  obtain ⟨r', c', d'⟩ := N
  simp only at hr hc
  subst hr hc
  have hl : d.length = d'.length := by rw [hM.1, hN.1]
  have hd : d = d' := by
    apply List.ext_getElem hl
    intro p h1 h2
    have hp : p < r * c := by rw [← hM.1]; exact h1
    have hc0 : 0 < c := by
      rcases Nat.eq_zero_or_pos c with h0 | h0
      · subst h0; simp at hp
      · exact h0
    have hi : p / c < r := by
      rw [Nat.div_lt_iff_lt_mul hc0]; exact hp
    have hj : p % c < c := Nat.mod_lt _ hc0
    have hv := h (p / c) (p % c) hi hj
    rw [val_eq hM hi hj, val_eq hN hi hj] at hv
    dsimp only at hv
    rw [Nat.div_add_mod, List.getD_eq_getElem _ 0 h1, List.getD_eq_getElem _ 0 h2] at hv
    exact hv
  rw [hd]

end Matrix

namespace Matrix

variable {K : Type}

theorem val_zero_matrix [Zero K] (r c : Nat) (hfit : r * c < UINT_RANGE) {i j : Nat}
    (hi : i < r) (hj : j < c) : (Matrix.mk r c (List.replicate (r * c) (0 : K))).val i j = 0 := by
  have hWF : (Matrix.mk r c (List.replicate (r * c) (0 : K))).WF :=
    ⟨by simp, hfit⟩
  rw [val_eq hWF hi hj]
  obtain ⟨_, hlt⟩ := offset_eq hWF hi hj
  show (List.replicate (r * c) (0 : K)).getD (c * i + j) 0 = 0
  rw [List.getD_eq_getElem _ 0 hlt]
  simp

/-- Accumulating `I * B` into a zero matrix, where `I` holds the identity
pattern, gives `B`. -/
theorem mult_identity_left [Field K] {I B : Matrix K} (hI : I.WF) (hB : B.WF)
    (hIr : I.n_rows = I.n_cols) (hBr : B.n_rows = I.n_rows) (hBc : B.n_cols = I.n_rows)
    (hval : ∀ i j, i < I.n_rows → j < I.n_rows → I.val i j = if i = j then 1 else 0) :
    (Matrix.mk B.n_rows B.n_cols (List.replicate (B.n_rows * B.n_cols) 0)).mult I B
      = .ok B := by
  have hR : (Matrix.mk B.n_rows B.n_cols (List.replicate (B.n_rows * B.n_cols) (0 : K))).WF :=
    ⟨by simp, hB.2⟩
  obtain ⟨R', hmult, hWF, hr', hc', hv⟩ :=
    mult_spec (Matrix.mk B.n_rows B.n_cols (List.replicate (B.n_rows * B.n_cols) 0)) I B
      hR hI hB (by omega) (by omega) hBr rfl
  rw [hmult]
  congr 1
  apply eq_of_val hWF hB hr' hc'
  intro i j hi hj
  rw [hr'] at hi
  rw [hc'] at hj
  dsimp only at hi hj
  rw [hv i j (by omega) hj, val_zero_matrix _ _ hB.2 hi hj, zero_add]
  rw [Finset.sum_eq_single i]
  · rw [hval i i (by omega) (by omega), if_pos rfl, one_mul]
  · intro t ht hne
    rw [Finset.mem_range] at ht
    rw [hval i t (by omega) (by omega), if_neg (fun h => hne h.symm), zero_mul]
  · intro h
    rw [Finset.mem_range] at h
    omega

end Matrix

/-! ## Identity and symmetry: the claims -/

/-- C12 (amended): for every `n >= 0` with `n*n` representable as
`unsigned int` and every `n x n` matrix `M` holding any values (its buffer
then has `n*n` elements), `M.identity ()`
returns, the shape is still `n x n` and `M(i,j)` is `1` if `i == j` and `0`
otherwise for all `i, j < n`; in the buffer the ones sit exactly at the offsets
`i*(n+1)`, `i < n`. On a matrix that is not square `identity ()` fails at its
assertion. -/
theorem C12_identity_sets_diagonal (K : Type) [Field K] (n : Nat) (M : Matrix K)
    (hM : M.WF) (hr : M.n_rows = n) (hc : M.n_cols = n) :
    (∃ I : Matrix K, M.identity = .ok I ∧ I.WF ∧ I.n_rows = n ∧ I.n_cols = n
      ∧ (∀ i j, i < n → j < n → I.val i j = if i = j then 1 else 0)
      ∧ (∀ i, i < n → I.data.getD (i * (n + 1)) 0 = 1)
      ∧ (∀ p, p < n * n → (∀ i, i < n → p ≠ i * (n + 1)) → I.data.getD p 0 = 0))
    ∧ ∀ N : Matrix K, N.n_rows ≠ N.n_cols → N.identity = .error .assertion := by
  refine ⟨?_, fun N hN => Matrix.identity_nonsquare N hN⟩
  subst hr
  obtain ⟨I, hI, hWF, hr', hc', hdata, hval⟩ := Matrix.identity_spec hM hc.symm
  refine ⟨I, hI, hWF, hr', by rw [hc', hc], hval, ?_, ?_⟩
  · intro i hi
    have hp : i * (M.n_rows + 1) < M.n_rows * M.n_rows := by
      have h1 : M.n_rows * (i + 1) ≤ M.n_rows * M.n_rows := Nat.mul_le_mul_left _ hi
      have h2 : i * (M.n_rows + 1) = M.n_rows * i + i := by ring
      rw [Nat.mul_succ] at h1
      omega
    rw [hdata _ hp, if_pos (Nat.mul_mod_left _ _)]
  · intro p hp hne
    rw [hdata _ hp, if_neg]
    intro hmod
    have hpos : 0 < M.n_rows + 1 := by omega
    have hq : p = p / (M.n_rows + 1) * (M.n_rows + 1) := by
      have := Nat.div_add_mod p (M.n_rows + 1)
      rw [hmod, Nat.add_zero, Nat.mul_comm] at this
      exact this.symm
    refine hne (p / (M.n_rows + 1)) ?_ hq
    by_contra hge
    have h1 : M.n_rows * (M.n_rows + 1) ≤ p / (M.n_rows + 1) * (M.n_rows + 1) :=
      Nat.mul_le_mul_right _ (by omega)
    have h2 : M.n_rows * (M.n_rows + 1) = M.n_rows * M.n_rows + M.n_rows := by ring
    omega

theorem C12_witness :
    ∃ I : Matrix ℚ, (Matrix.mk 2 2 [9, 8, 7, 6]).identity = .ok I ∧ I.WF ∧ I.n_rows = 2
      ∧ I.n_cols = 2
      ∧ (∀ i j, i < 2 → j < 2 → I.val i j = if i = j then 1 else 0)
      ∧ (∀ i, i < 2 → I.data.getD (i * (2 + 1)) 0 = 1)
      ∧ (∀ p, p < 2 * 2 → (∀ i, i < 2 → p ≠ i * (2 + 1)) → I.data.getD p 0 = 0) :=
  (C12_identity_sets_diagonal ℚ 2 ⟨2, 2, [9, 8, 7, 6]⟩ ⟨rfl, by decide⟩ rfl rfl).1

/-- C13 (amended): for every `n >= 1` with `n*n` representable as
`unsigned int` (the buffers of the matrices then hold `n_rows*n_cols`
elements), with `I` the `n x n` matrix after `M.identity ()`,
`I.is_symmetric ()` returns `true`. For a vector `v` held as
an `n x 1` matrix and the zero `n x 1` destination `R`, `R.mult (I, v)`
succeeds and leaves `R` equal to `v` when `n = 1`, and for `n >= 2` it fails
at the assertion `M_a.__n_rows == M_b.__n_cols` of `mult`. For a square
`n x n` operand `B` and the zero `n x n` destination, `R.mult (I, B)` succeeds
and leaves `R` equal to `B`. -/
theorem C13_identity_law (K : Type) [Field K] [DecidableEq K] (n : Nat) (M : Matrix K)
    (hn : 1 ≤ n) (hM : M.WF) (hr : M.n_rows = n) (hc : M.n_cols = n) :
    ∃ I : Matrix K, M.identity = .ok I ∧ I.is_symmetric = .ok true
      ∧ (∀ v : Matrix K, v.WF → v.n_rows = n → v.n_cols = 1 →
          (n = 1 → (Matrix.mk n 1 (List.replicate (n * 1) 0)).mult I v = .ok v)
          ∧ (2 ≤ n →
              (Matrix.mk n 1 (List.replicate (n * 1) 0)).mult I v = .error .assertion))
      ∧ ∀ B : Matrix K, B.WF → B.n_rows = n → B.n_cols = n →
          (Matrix.mk n n (List.replicate (n * n) 0)).mult I B = .ok B := by
  subst hr
  obtain ⟨I, hI, hWF, hr', hc', _, hval⟩ := Matrix.identity_spec hM hc.symm
  have hsq : I.n_rows = I.n_cols := by rw [hr', hc', hc]
  have hvalI : ∀ i j, i < I.n_rows → j < I.n_rows → I.val i j = if i = j then 1 else 0 :=
    fun i j hi hj => hval i j (by omega) (by omega)
  refine ⟨I, hI, ?_, ?_, ?_⟩
  · apply (Matrix.is_symmetric_spec hWF hsq).1
    intro i j hij hj
    rw [hvalI i j (by omega) hj, hvalI j i hj (by omega)]
    rw [if_neg (by omega), if_neg (by omega)]
  · intro v hv hvr hvc
    constructor
    · intro h1
      have := Matrix.mult_identity_left hWF hv hsq (by omega) (by omega) hvalI
      rw [hvr, hvc] at this
      exact this
    · intro h2
      unfold Matrix.mult
      exact assert_bind_of_not (by omega) _
  · intro B hB hBr hBc
    have := Matrix.mult_identity_left hWF hB hsq (by omega) (by omega) hvalI
    rw [hBr, hBc] at this
    exact this

theorem C13_witness :
    ∃ I : Matrix ℚ, (Matrix.mk 2 2 [(9 : ℚ), 8, 7, 6]).identity = .ok I
      ∧ I.is_symmetric = .ok true
      ∧ (∀ v : Matrix ℚ, v.WF → v.n_rows = 2 → v.n_cols = 1 →
          (2 = 1 → (Matrix.mk 2 1 (List.replicate (2 * 1) 0)).mult I v = .ok v)
          ∧ (2 ≤ 2 →
              (Matrix.mk 2 1 (List.replicate (2 * 1) 0)).mult I v = .error .assertion))
      ∧ ∀ B : Matrix ℚ, B.WF → B.n_rows = 2 → B.n_cols = 2 →
          (Matrix.mk 2 2 (List.replicate (2 * 2) 0)).mult I B = .ok B :=
  C13_identity_law ℚ 2 ⟨2, 2, [9, 8, 7, 6]⟩ (by decide) ⟨rfl, by decide⟩ rfl rfl

/-- C13 as stated fails for `n = 2`: `M.identity ()` gives `[[1,0],[0,1]]`,
which `is_symmetric ()` accepts, but with `v = (3, 4)` held as a `2 x 1`
matrix and `R` the zero `2 x 1` matrix, `R.mult (M, v)` fails at the assertion
`M_a.__n_rows == M_b.__n_cols` (`2 == 1`). -/
theorem C13_counterexample :
    (Matrix.mk 2 2 [(9 : ℚ), 9, 9, 9]).identity = .ok ⟨2, 2, [1, 0, 0, 1]⟩
    ∧ (Matrix.mk 2 2 [(1 : ℚ), 0, 0, 1]).is_symmetric = .ok true
    ∧ (Matrix.mk 2 1 [(3 : ℚ), 4]).WF
    ∧ (Matrix.mk 2 1 [(0 : ℚ), 0]).mult ⟨2, 2, [1, 0, 0, 1]⟩ ⟨2, 1, [3, 4]⟩
        = .error .assertion := by
  refine ⟨by decide, by decide, ⟨rfl, by decide⟩, by decide⟩

/-- C14 (amended): for every square `n x n` matrix `M` (`n >= 0`) with `n*n`
representable as `unsigned int` (its buffer then holds `n*n` elements),
`M.is_symmetric ()` returns, and it returns `true` if and
only if `M(i,j) == M(j,i)` for all `i < j < n`. It is `true` for the `0 x 0`
matrix and for the `2 x 2` matrix with `(0,1) = 5`, `(1,0) = 5` and zeros
elsewhere, `false` once `(1,0)` is `6`, and on a matrix that is not square the
call fails at its assertion. -/
theorem C14_is_symmetric_iff (K : Type) [Field K] [DecidableEq K] (M : Matrix K)
    (hM : M.WF) (hsq : M.n_rows = M.n_cols) :
    (∃ b, M.is_symmetric = .ok b
      ∧ (b = true ↔ ∀ i j, i < j → j < M.n_rows → M.val i j = M.val j i))
    ∧ (Matrix.mk 0 0 ([] : List ℚ)).is_symmetric = .ok true
    ∧ (Matrix.mk 2 2 [(0 : ℚ), 5, 5, 0]).is_symmetric = .ok true
    ∧ (Matrix.mk 2 2 [(0 : ℚ), 5, 6, 0]).is_symmetric = .ok false
    ∧ ∀ N : Matrix K, N.n_rows ≠ N.n_cols → N.is_symmetric = .error .assertion := by
  refine ⟨?_, by decide, by decide, by decide,
    fun N hN => Matrix.is_symmetric_nonsquare N hN⟩
  obtain ⟨hyes, hno⟩ := Matrix.is_symmetric_spec hM hsq
  by_cases hall : ∀ i j, i < j → j < M.n_rows → M.val i j = M.val j i
  · exact ⟨true, hyes hall, fun _ => hall, fun _ => rfl⟩
  · refine ⟨false, hno ?_, ⟨fun h => Bool.noConfusion h, fun h => absurd h hall⟩⟩
    by_contra hcon
    apply hall
    intro i j h1 h2
    by_contra hne
    exact hcon ⟨i, j, h1, h2, hne⟩

theorem C14_witness :
    ∃ b, (Matrix.mk 2 2 [(1 : ℚ), 2, 2, 3]).is_symmetric = .ok b
      ∧ (b = true ↔ ∀ i j, i < j → j < 2 →
          (Matrix.mk 2 2 [(1 : ℚ), 2, 2, 3]).val i j = (Matrix.mk 2 2 [(1 : ℚ), 2, 2, 3]).val j i) :=
  (C14_is_symmetric_iff ℚ ⟨2, 2, [1, 2, 2, 3]⟩ ⟨rfl, by decide⟩ rfl).1

/-! ## Contraction: lemmas -/

/-- A loop whose `k`-th body adds `δ k` adds the sum of the `δ k`. -/
theorem Adds_forLoop {σ cell K : Type} [AddCommMonoid K] (Inv : σ → Prop) (obs : σ → cell → K)
    (C : cell → Prop) (body : Nat → σ → Except Failure σ) (δ : Nat → cell → K) :
    ∀ n, (∀ k, k < n → Adds Inv obs C (body k) (δ k)) →
      Adds Inv obs C (fun s => forLoop body n s)
        (fun c => (Finset.range n).sum (fun k => δ k c))
  | 0, _ => by
    intro s hs
    exact ⟨s, rfl, hs, fun c _ => by simp⟩
  | n + 1, h => by
    intro s hs
    obtain ⟨s1, h1, hI1, hv1⟩ :=
      Adds_forLoop Inv obs C body δ n (fun k hk => h k (by omega)) s hs
    obtain ⟨s2, h2, hI2, hv2⟩ := h n (by omega) s1 hI1
    refine ⟨s2, ?_, hI2, ?_⟩
    · show forLoop body (n + 1) s = _
      simp only [forLoop, bind, Except.bind]
      simp only at h1
      rw [h1]
      exact h2
    · intro c hc
      rw [hv2 c hc, hv1 c hc]
      show obs s c + (Finset.range n).sum (fun k => δ k c) + δ n c
        = obs s c + (Finset.range (n + 1)).sum (fun k => δ k c)
      rw [Finset.sum_range_succ, add_assoc]

namespace Tensor

variable {dim rank : Nat} {K : Type}

theorem fit_of_Sized {T : Tensor dim rank K} (hT : T.Sized) : dim ^ rank < UINT_RANGE := by
  have h := hT.1.1
  rw [hT.2, math.pow_eq_mod] at h
  rw [h]
  exact Nat.mod_lt _ UINT_RANGE_pos

theorem Sized_of_fit {T : Tensor dim rank K} (hT : T.WF) (hfit : dim ^ rank < UINT_RANGE) :
    T.Sized :=
  ⟨hT, n_components_eq_of_fit hT hfit⟩

theorem read_eq [Zero K] {T : Tensor dim rank K} (hT : T.Sized) (hrank : 1 ≤ rank)
    {index : Nat} {l : List Nat} (hv : valid_index dim rank index l) :
    T.read index l = .ok (T.data.getD (linear_sum dim rank (index :: l)) 0) := by
  have hlt : linear_sum dim rank (index :: l) < T.data.length := by
    rw [hT.1.2, hT.2]; exact linear_sum_lt hv
  unfold read
  rw [offset_ro_eq_rw, offset_rw_of_fit hT.1 (fit_of_Sized hT) hrank hv]
  exact fetch_eq_getD hlt 0

theorem value_eq [Zero K] {T : Tensor dim rank K} (hT : T.Sized) (hrank : 1 ≤ rank)
    {index : Nat} {l : List Nat} (hv : valid_index dim rank index l) :
    T.value index l = T.data.getD (linear_sum dim rank (index :: l)) 0 := by
  simp only [value, read_eq hT hrank hv]

theorem read_eq_value [Zero K] {T : Tensor dim rank K} (hT : T.Sized) (hrank : 1 ≤ rank)
    {index : Nat} {l : List Nat} (hv : valid_index dim rank index l) :
    T.read index l = .ok (T.value index l) := by
  rw [value_eq hT hrank hv, read_eq hT hrank hv]

theorem linear_sum_inj {index index' : Nat} {l l' : List Nat}
    (hv : valid_index dim rank index l) (hv' : valid_index dim rank index' l')
    (h : linear_sum dim rank (index :: l) = linear_sum dim rank (index' :: l')) :
    index :: l = index' :: l' := by
  have h1 := linear_sum_eq_ofDigits dim (index :: l)
  have h2 := linear_sum_eq_ofDigits dim (index' :: l')
  rw [hv.1] at h1
  rw [hv'.1] at h2
  rw [h1, h2] at h
  exact ofDigits_inj dim _ _ (by rw [hv.1, hv'.1]) hv.2 hv'.2 h

/-- The effect of `T (index, ...) += v` on a tensor whose component count is
`dim ^ rank`. -/
theorem add_assign_spec [AddCommMonoid K] {T : Tensor dim rank K} (hT : T.Sized)
    (hrank : 1 ≤ rank) {index : Nat} {l : List Nat} (hv : valid_index dim rank index l)
    (v : K) :
    ∃ T' : Tensor dim rank K, T.add_assign index l v = .ok T' ∧ T'.Sized
      ∧ ∀ c : Nat × List Nat, valid_index dim rank c.1 c.2 →
          T'.value c.1 c.2 = T.value c.1 c.2 + if c.1 :: c.2 = index :: l then v else 0 := by
  have hlt : linear_sum dim rank (index :: l) < T.data.length := by
    rw [hT.1.2, hT.2]; exact linear_sum_lt hv
  have hS : (Tensor.mk T.n_components
      (T.data.set (linear_sum dim rank (index :: l))
        (T.data.getD (linear_sum dim rank (index :: l)) 0 + v)) : Tensor dim rank K).Sized :=
    ⟨⟨hT.1.1, by simp only [List.length_set]; exact hT.1.2⟩, hT.2⟩
  refine ⟨_, ?_, hS, ?_⟩
  · unfold add_assign
    rw [offset_rw_of_fit hT.1 (fit_of_Sized hT) hrank hv]
    show (fetch T.data _ >>= fun c => store T.data _ (c + v) >>= fun data => _) = _
    rw [fetch_eq_getD hlt 0]
    show (store T.data _ _ >>= fun data => _) = _
    rw [store_of_lt hlt]
    rfl
  · rintro ⟨i', l'⟩ hv'
    simp only at hv'
    rw [value_eq hS hrank hv', value_eq hT hrank hv']
    show (T.data.set _ _).getD _ 0 = _
    by_cases he : i' :: l' = index :: l
    · rw [if_pos he, he, getD_set_self _ hlt]
    · rw [if_neg he, add_zero, getD_set_ne]
      intro h
      exact he (linear_sum_inj hv hv' h).symm

theorem construct_zero_value [Zero K] (dim rank : Nat) (hfit : dim ^ rank < UINT_RANGE)
    (hrank : 1 ≤ rank) {index : Nat} {l : List Nat} (hv : valid_index dim rank index l) :
    (construct dim rank true (fun _ => (0 : K))).value index l = 0 := by
  have hS := Sized_of_fit (construct_WF dim rank true (fun _ => (0 : K))) hfit
  rw [value_eq hS hrank hv]
  show (List.replicate (math.pow dim rank) (0 : K)).getD _ 0 = 0
  simp only [List.getD_eq_getElem?_getD, List.getElem?_replicate]
  split_ifs <;> rfl

end Tensor

theorem sum_ite_irrel {K : Type} [AddCommMonoid K] (P : Prop) [Decidable P] (n : Nat)
    (f : Nat → K) :
    (Finset.range n).sum (fun k => if P then f k else 0)
      = if P then (Finset.range n).sum f else 0 := by
  split_ifs
  · rfl
  · exact Finset.sum_const_zero

theorem sum_single_ite {K : Type} [AddCommMonoid K] (n : Nat) (f : Nat → K) {i0 : Nat}
    (hi : i0 < n) :
    (Finset.range n).sum (fun i => if [i0] = [i] then f i else 0) = f i0 := by
  rw [Finset.sum_eq_single i0]
  · rw [if_pos rfl]
  · intro i _ hne
    rw [if_neg]
    intro h
    exact hne (List.cons.inj h).1.symm
  · intro h
    exact absurd (Finset.mem_range.2 hi) h

theorem sum_pair_ite {K : Type} [AddCommMonoid K] (n : Nat) (f : Nat → Nat → K) {k0 l0 : Nat}
    (hk : k0 < n) (hl : l0 < n) :
    (Finset.range n).sum (fun k =>
      (Finset.range n).sum (fun l => if [k0, l0] = [k, l] then f k l else 0)) = f k0 l0 := by
  rw [Finset.sum_eq_single k0]
  · rw [Finset.sum_eq_single l0]
    · rw [if_pos rfl]
    · intro l _ hne
      rw [if_neg]
      intro h
      exact hne (List.cons.inj (List.cons.inj h).2).1.symm
    · intro h
      exact absurd (Finset.mem_range.2 hl) h
  · intro k _ hne
    apply Finset.sum_eq_zero
    intro l _
    rw [if_neg]
    intro h
    exact hne (List.cons.inj h).1.symm
  · intro h
    exact absurd (Finset.mem_range.2 hk) h

namespace Tensor

variable {dim : Nat} {K : Type}

theorem valid_one {i : Nat} (hi : i < dim) : valid_index dim 1 i [] :=
  ⟨rfl, by intro x hx; simp at hx; subst hx; exact hi⟩

theorem valid_two {i j : Nat} (hi : i < dim) (hj : j < dim) : valid_index dim 2 i [j] :=
  ⟨rfl, by
    intro x hx
    simp at hx
    rcases hx with rfl | rfl
    · exact hi
    · exact hj⟩

theorem valid_three {i j k : Nat} (hi : i < dim) (hj : j < dim) (hk : k < dim) :
    valid_index dim 3 i [j, k] :=
  ⟨rfl, by
    intro x hx
    simp at hx
    rcases hx with rfl | rfl | rfl
    · exact hi
    · exact hj
    · exact hk⟩

theorem valid_four {i j k l : Nat} (hi : i < dim) (hj : j < dim) (hk : k < dim)
    (hl : l < dim) : valid_index dim 4 i [j, k, l] :=
  ⟨rfl, by
    intro x hx
    simp at hx
    rcases hx with rfl | rfl | rfl | rfl
    · exact hi
    · exact hj
    · exact hk
    · exact hl⟩

/-- The statement `tensor (index, ...) += a * b` with both factors read from
operands whose accesses succeed. -/
theorem accumulate_Adds [Field K] {rank : Nat} (hrank : 1 ≤ rank) (ea eb : Except Failure K)
    (a b : K) (ha : ea = .ok a) (hb : eb = .ok b) {index : Nat} {l : List Nat}
    (hv : valid_index dim rank index l) :
    Adds (fun s : Tensor dim rank K => s.Sized) (fun s c => s.value c.1 c.2)
      (fun c : Nat × List Nat => valid_index dim rank c.1 c.2)
      (fun tensor => ea >>= fun x => eb >>= fun y => tensor.add_assign index l (x * y))
      (fun c => if c.1 :: c.2 = index :: l then a * b else 0) := by
  intro s hs
  obtain ⟨s', h1, h2, h3⟩ := add_assign_spec hs hrank hv (a * b)
  refine ⟨s', ?_, h2, h3⟩
  show (ea >>= fun x => eb >>= fun y => s.add_assign index l (x * y)) = _
  rw [ha, hb]
  exact h1

end Tensor

/-- What `contract (T_a, T_b)` with a rank-2 and a rank-4 operand returns. -/
theorem contract_2_4_spec {dim : Nat} {K : Type} [Field K] (A : Tensor dim 2 K)
    (B : Tensor dim 4 K) (hA : A.Sized) (hB : B.Sized) :
    ∃ R : Tensor dim 2 K, contract_2_4 A B = .ok R ∧ R.Sized
      ∧ ∀ k l, k < dim → l < dim →
          R.value k [l] = (Finset.range dim).sum (fun i =>
            (Finset.range dim).sum (fun j => A.value i [j] * B.value i [j, k, l])) := by
  have hfit := Tensor.fit_of_Sized hA
  have h4 : ∀ i j k l, i < dim → j < dim → k < dim → l < dim → _ :=
    fun i j k l hi hj hk hl =>
      Tensor.accumulate_Adds (by decide) (A.read i [j]) (B.read i [j, k, l]) _ _
        (Tensor.read_eq_value hA (by decide) (Tensor.valid_two hi hj))
        (Tensor.read_eq_value hB (by decide) (Tensor.valid_four hi hj hk hl))
        (Tensor.valid_two hk hl)
  have h3 : ∀ i j k, i < dim → j < dim → k < dim → _ := fun i j k hi hj hk =>
    Adds_forLoop _ _ _ _ _ dim (fun l hl => h4 i j k l hi hj hk hl)
  have h2 : ∀ i j, i < dim → j < dim → _ := fun i j hi hj =>
    Adds_forLoop _ _ _ _ _ dim (fun k hk => h3 i j k hi hj hk)
  have h1 : ∀ i, i < dim → _ := fun i hi =>
    Adds_forLoop _ _ _ _ _ dim (fun j hj => h2 i j hi hj)
  have h0 := Adds_forLoop _ _ _ _ _ dim (fun i hi => h1 i hi)
  obtain ⟨R, hR, hS, hval⟩ := h0 (Tensor.construct dim 2 true (fun _ => 0))
    (Tensor.Sized_of_fit (Tensor.construct_WF dim 2 true _) hfit)
  refine ⟨R, hR, hS, ?_⟩
  intro k l hk hl
  have := hval (k, [l]) (Tensor.valid_two hk hl)
  dsimp only at this
  rw [Tensor.construct_zero_value dim 2 hfit (by decide) (Tensor.valid_two hk hl), zero_add]
    at this
  rw [this]
  apply Finset.sum_congr rfl
  intro i _
  apply Finset.sum_congr rfl
  intro j _
  exact sum_pair_ite dim (fun k l => A.value i [j] * B.value i [j, k, l]) hk hl

/-- What `contract (T_a, T_b)` with a rank-4 and a rank-2 operand returns. -/
theorem contract_4_2_spec {dim : Nat} {K : Type} [Field K] (A : Tensor dim 4 K)
    (B : Tensor dim 2 K) (hA : A.Sized) (hB : B.Sized) :
    ∃ R : Tensor dim 2 K, contract_4_2 A B = .ok R ∧ R.Sized
      ∧ ∀ i j, i < dim → j < dim →
          R.value i [j] = (Finset.range dim).sum (fun k =>
            (Finset.range dim).sum (fun l => A.value i [j, k, l] * B.value k [l])) := by
  have hfit := Tensor.fit_of_Sized hB
  have h4 : ∀ i j k l, i < dim → j < dim → k < dim → l < dim → _ :=
    fun i j k l hi hj hk hl =>
      Tensor.accumulate_Adds (by decide) (A.read i [j, k, l]) (B.read k [l]) _ _
        (Tensor.read_eq_value hA (by decide) (Tensor.valid_four hi hj hk hl))
        (Tensor.read_eq_value hB (by decide) (Tensor.valid_two hk hl))
        (Tensor.valid_two hi hj)
  have h3 : ∀ i j k, i < dim → j < dim → k < dim → _ := fun i j k hi hj hk =>
    Adds_forLoop _ _ _ _ _ dim (fun l hl => h4 i j k l hi hj hk hl)
  have h2 : ∀ i j, i < dim → j < dim → _ := fun i j hi hj =>
    Adds_forLoop _ _ _ _ _ dim (fun k hk => h3 i j k hi hj hk)
  have h1 : ∀ i, i < dim → _ := fun i hi =>
    Adds_forLoop _ _ _ _ _ dim (fun j hj => h2 i j hi hj)
  have h0 := Adds_forLoop _ _ _ _ _ dim (fun i hi => h1 i hi)
  obtain ⟨R, hR, hS, hval⟩ := h0 (Tensor.construct dim 2 true (fun _ => 0))
    (Tensor.Sized_of_fit (Tensor.construct_WF dim 2 true _) hfit)
  refine ⟨R, hR, hS, ?_⟩
  intro i j hi hj
  have := hval (i, [j]) (Tensor.valid_two hi hj)
  dsimp only at this
  rw [Tensor.construct_zero_value dim 2 hfit (by decide) (Tensor.valid_two hi hj), zero_add]
    at this
  rw [this]
  simp only [sum_ite_irrel]
  exact sum_pair_ite dim (fun i j => (Finset.range dim).sum (fun k =>
    (Finset.range dim).sum (fun l => A.value i [j, k, l] * B.value k [l]))) hi hj

/-- What `contract (T_a, T_b)` with a rank-3 and a rank-2 operand returns. -/
theorem contract_3_2_spec {dim : Nat} {K : Type} [Field K] (A : Tensor dim 3 K)
    (B : Tensor dim 2 K) (hA : A.Sized) (hB : B.Sized) :
    ∃ R : Tensor dim 1 K, contract_3_2 A B = .ok R ∧ R.Sized
      ∧ ∀ i, i < dim →
          R.value i [] = (Finset.range dim).sum (fun j =>
            (Finset.range dim).sum (fun k => A.value i [j, k] * B.value j [k])) := by
  have hfit : dim ^ 1 < UINT_RANGE := by
    have h2 := Tensor.fit_of_Sized hB
    have : dim ^ 1 ≤ dim ^ 2 := by
      rw [pow_one]; exact Nat.le_self_pow (by decide) dim
    omega
  have h3 : ∀ i j k, i < dim → j < dim → k < dim → _ :=
    fun i j k hi hj hk =>
      Tensor.accumulate_Adds (by decide) (A.read i [j, k]) (B.read j [k]) _ _
        (Tensor.read_eq_value hA (by decide) (Tensor.valid_three hi hj hk))
        (Tensor.read_eq_value hB (by decide) (Tensor.valid_two hj hk))
        (Tensor.valid_one hi)
  have h2 : ∀ i j, i < dim → j < dim → _ := fun i j hi hj =>
    Adds_forLoop _ _ _ _ _ dim (fun k hk => h3 i j k hi hj hk)
  have h1 : ∀ i, i < dim → _ := fun i hi =>
    Adds_forLoop _ _ _ _ _ dim (fun j hj => h2 i j hi hj)
  have h0 := Adds_forLoop _ _ _ _ _ dim (fun i hi => h1 i hi)
  obtain ⟨R, hR, hS, hval⟩ := h0 (Tensor.construct dim 1 true (fun _ => 0))
    (Tensor.Sized_of_fit (Tensor.construct_WF dim 1 true _) hfit)
  refine ⟨R, hR, hS, ?_⟩
  intro i hi
  have := hval (i, []) (Tensor.valid_one hi)
  dsimp only at this
  rw [Tensor.construct_zero_value dim 1 hfit (by decide) (Tensor.valid_one hi), zero_add]
    at this
  rw [this]
  simp only [sum_ite_irrel]
  exact sum_single_ite dim (fun i => (Finset.range dim).sum (fun j =>
    (Finset.range dim).sum (fun k => A.value i [j, k] * B.value j [k]))) hi

namespace Tensor

variable {dim : Nat} {K : Type}

/-- A tensor whose values at all valid multi-indices vanish holds only
zeros. -/
theorem all_zero_of_value [Zero K] {rank : Nat} {T : Tensor dim rank K} (hT : T.Sized)
    (hrank : 1 ≤ rank)
    (h : ∀ index l, valid_index dim rank index l → T.value index l = 0) :
    ∀ x ∈ T.data, x = 0 := by
  intro x hx
  obtain ⟨p, hp, rfl⟩ := List.getElem_of_mem hx
  have hp2 : p < dim ^ rank := by rw [← hT.2, ← hT.1.2]; exact hp
  have hdim : 0 < dim := by
    rcases Nat.eq_zero_or_pos dim with h0 | h0
    · subst h0
      rw [zero_pow (by omega)] at hp2
      omega
    · exact h0
  obtain ⟨r, rfl⟩ : ∃ r, rank = r + 1 := ⟨rank - 1, by omega⟩
  have hv : valid_index dim (r + 1) (p % dim) (to_index dim r (p / dim)) :=
    ⟨by simp [to_index_length], fun x hx => to_index_lt dim hdim (r + 1) p x hx⟩
  have hz := h _ _ hv
  rw [value_eq hT hrank hv] at hz
  have hl : linear_sum dim (r + 1) (p % dim :: to_index dim r (p / dim)) = p := by
    have h1 := linear_sum_eq_ofDigits dim (to_index dim (r + 1) p)
    rw [to_index_length] at h1
    show linear_sum dim (r + 1) (to_index dim (r + 1) p) = p
    rw [h1, ofDigits_to_index dim hdim (r + 1) p hp2]
  rw [hl, List.getD_eq_getElem _ 0 hp] at hz
  exact hz

end Tensor

namespace Tensor

variable {dim : Nat} {K : Type}

theorem value_zero_of_data [Zero K] {rank : Nat} {T : Tensor dim rank K} (hT : T.Sized)
    (hrank : 1 ≤ rank) (hz : ∀ x ∈ T.data, x = 0) {index : Nat} {l : List Nat}
    (hv : valid_index dim rank index l) : T.value index l = 0 := by
  have hlt : linear_sum dim rank (index :: l) < T.data.length := by
    rw [hT.1.2, hT.2]; exact linear_sum_lt hv
  rw [value_eq hT hrank hv, List.getD_eq_getElem _ 0 hlt]
  exact hz _ (List.getElem_mem _)

theorem all_zero_rank_two [Zero K] {T : Tensor dim 2 K} (hT : T.Sized)
    (h : ∀ i j, i < dim → j < dim → T.value i [j] = 0) :
    T.n_components = dim ^ 2 ∧ T.data.length = dim ^ 2 ∧ ∀ x ∈ T.data, x = 0 := by
  refine ⟨hT.2, by rw [hT.1.2, hT.2], all_zero_of_value hT (by decide) ?_⟩
  intro index l hv
  obtain ⟨hlen, hlt⟩ := hv
  match l, hlen, hlt with
  | [j], _, hlt =>
    exact h index j (hlt index (List.mem_cons_self _ _))
      (hlt j (List.mem_cons_of_mem _ (List.mem_cons_self _ _)))

end Tensor

/-- A power of `dim` with a smaller positive exponent is representable when
one with a larger exponent is. -/
theorem Tensor.fit_of_le {dim r r' : Nat} (hr : 1 ≤ r) (h : r ≤ r')
    (hfit : dim ^ r' < UINT_RANGE) : dim ^ r < UINT_RANGE := by
  rcases Nat.eq_zero_or_pos dim with h0 | hpos
  · subst h0
    rw [Nat.zero_pow (by omega)]
    decide
  · exact lt_of_le_of_lt (Nat.pow_le_pow_right hpos h) hfit

/-! ## Contraction: the claims -/

/-- C15 (amended): for every `dim` (in particular `dim >= 1`) with `dim^4`
representable as `unsigned int`, every rank-2 tensor `A` and rank-4 tensor `B`
in the state the constructors leave: `contract (A, B)` returns the rank-2
tensor `R` with `R(k,l) = sum_{i,j<dim} A(i,j)*B(i,j,k,l)`, and
`contract (B, A)` returns the rank-2 tensor with
`R(i,j) = sum_{k,l<dim} B(i,j,k,l)*A(k,l)`. The operands are `const`
references, only read. -/
theorem C15_contract_rank_two_with_four (K : Type) [Field K] (dim : Nat) (A : Tensor dim 2 K)
    (B : Tensor dim 4 K) (hA : A.WF) (hB : B.WF) (hfit : dim ^ 4 < UINT_RANGE) :
    (∃ R : Tensor dim 2 K, contract_2_4 A B = .ok R ∧ R.Sized
      ∧ ∀ k l, k < dim → l < dim →
          R.value k [l] = (Finset.range dim).sum (fun i =>
            (Finset.range dim).sum (fun j => A.value i [j] * B.value i [j, k, l])))
    ∧ ∃ R : Tensor dim 2 K, contract_4_2 B A = .ok R ∧ R.Sized
      ∧ ∀ i j, i < dim → j < dim →
          R.value i [j] = (Finset.range dim).sum (fun k =>
            (Finset.range dim).sum (fun l => B.value i [j, k, l] * A.value k [l])) :=
  ⟨contract_2_4_spec A B
      (Tensor.Sized_of_fit hA (Tensor.fit_of_le (by decide) (by decide) hfit))
      (Tensor.Sized_of_fit hB hfit),
    contract_4_2_spec B A (Tensor.Sized_of_fit hB hfit)
      (Tensor.Sized_of_fit hA (Tensor.fit_of_le (by decide) (by decide) hfit))⟩

theorem C15_witness :
    ∃ R : Tensor 2 2 ℚ,
      contract_2_4 (Tensor.mk 4 [1, 2, 3, 4])
        (Tensor.mk 16 [1, 0, 0, 0, 0, 1, 0, 0, 0, 0, 1, 0, 0, 0, 0, 1]) = .ok R ∧ R.Sized
      ∧ ∀ k l, k < 2 → l < 2 →
          R.value k [l] = (Finset.range 2).sum (fun i =>
            (Finset.range 2).sum (fun j =>
              (Tensor.mk 4 [1, 2, 3, 4] : Tensor 2 2 ℚ).value i [j]
                * (Tensor.mk 16 [1, 0, 0, 0, 0, 1, 0, 0, 0, 0, 1, 0, 0, 0, 0, 1] :
                    Tensor 2 4 ℚ).value i [j, k, l])) :=
  (C15_contract_rank_two_with_four ℚ 2 ⟨4, [1, 2, 3, 4]⟩
    ⟨16, [1, 0, 0, 0, 0, 1, 0, 0, 0, 0, 1, 0, 0, 0, 0, 1]⟩
    ⟨rfl, rfl⟩ ⟨rfl, rfl⟩ (by decide)).1

/-- C16 (amended): for every `dim` (in particular `dim >= 1`) with `dim^3`
representable as `unsigned int`, every rank-3 tensor `A` and rank-2 tensor `B`
in the state the constructors leave: `contract (A, B)` returns the rank-1
tensor `R` with `R(i) = sum_{j,k<dim} A(i,j,k)*B(j,k)` for every `i < dim`. -/
theorem C16_contract_rank_three_with_two (K : Type) [Field K] (dim : Nat)
    (A : Tensor dim 3 K) (B : Tensor dim 2 K) (hA : A.WF) (hB : B.WF)
    (hfit : dim ^ 3 < UINT_RANGE) :
    ∃ R : Tensor dim 1 K, contract_3_2 A B = .ok R ∧ R.Sized
      ∧ ∀ i, i < dim →
          R.value i [] = (Finset.range dim).sum (fun j =>
            (Finset.range dim).sum (fun k => A.value i [j, k] * B.value j [k])) :=
  contract_3_2_spec A B (Tensor.Sized_of_fit hA hfit)
    (Tensor.Sized_of_fit hB (Tensor.fit_of_le (by decide) (by decide) hfit))

theorem C16_witness :
    ∃ R : Tensor 2 1 ℚ,
      contract_3_2 (Tensor.mk 8 [1, 2, 3, 4, 5, 6, 7, 8]) (Tensor.mk 4 [1, 0, 0, 1]) = .ok R
      ∧ R.Sized
      ∧ ∀ i, i < 2 →
          R.value i [] = (Finset.range 2).sum (fun j =>
            (Finset.range 2).sum (fun k =>
              (Tensor.mk 8 [1, 2, 3, 4, 5, 6, 7, 8] : Tensor 2 3 ℚ).value i [j, k]
                * (Tensor.mk 4 [1, 0, 0, 1] : Tensor 2 2 ℚ).value j [k])) :=
  C16_contract_rank_three_with_two ℚ 2 ⟨8, [1, 2, 3, 4, 5, 6, 7, 8]⟩ ⟨4, [1, 0, 0, 1]⟩
    ⟨rfl, rfl⟩ ⟨rfl, rfl⟩ (by decide)

/-- C17 (amended): for every `dim` with `dim^4` representable as
`unsigned int`, contracting an all-zero rank-4 tensor `Z` with any rank-2
tensor `A` of the same `dim` (both in the state the constructors leave), in
either argument order, returns a rank-2 tensor with `dim^2` components, all
equal to zero. -/
theorem C17_zero_rank_four_contracts_to_zero (K : Type) [Field K] (dim : Nat)
    (A : Tensor dim 2 K) (Z : Tensor dim 4 K) (hA' : A.WF) (hZ' : Z.WF)
    (hfit : dim ^ 4 < UINT_RANGE) (hzero : ∀ x ∈ Z.data, x = 0) :
    (∃ R : Tensor dim 2 K, contract_2_4 A Z = .ok R
      ∧ R.n_components = dim ^ 2 ∧ R.data.length = dim ^ 2 ∧ ∀ x ∈ R.data, x = 0)
    ∧ ∃ R : Tensor dim 2 K, contract_4_2 Z A = .ok R
      ∧ R.n_components = dim ^ 2 ∧ R.data.length = dim ^ 2 ∧ ∀ x ∈ R.data, x = 0 := by
  have hA : A.Sized := Tensor.Sized_of_fit hA' (Tensor.fit_of_le (by decide) (by decide) hfit)
  have hZ : Z.Sized := Tensor.Sized_of_fit hZ' hfit
  obtain ⟨R, hR, hS, hval⟩ := contract_2_4_spec A Z hA hZ
  obtain ⟨R', hR', hS', hval'⟩ := contract_4_2_spec Z A hZ hA
  refine ⟨⟨R, hR, Tensor.all_zero_rank_two hS ?_⟩, ⟨R', hR', Tensor.all_zero_rank_two hS' ?_⟩⟩
  · intro k l hk hl
    rw [hval k l hk hl]
    apply Finset.sum_eq_zero
    intro i hi
    apply Finset.sum_eq_zero
    intro j hj
    rw [Tensor.value_zero_of_data hZ (by decide) hzero
      (Tensor.valid_four (Finset.mem_range.1 hi) (Finset.mem_range.1 hj) hk hl), mul_zero]
  · intro i j hi hj
    rw [hval' i j hi hj]
    apply Finset.sum_eq_zero
    intro k hk
    apply Finset.sum_eq_zero
    intro l hl
    rw [Tensor.value_zero_of_data hZ (by decide) hzero
      (Tensor.valid_four hi hj (Finset.mem_range.1 hk) (Finset.mem_range.1 hl)), zero_mul]

theorem C17_witness :
    ∃ R : Tensor 2 2 ℚ,
      contract_2_4 (Tensor.mk 4 [1, 2, 3, 4])
        (Tensor.mk 16 [0, 0, 0, 0, 0, 0, 0, 0, 0, 0, 0, 0, 0, 0, 0, 0]) = .ok R
      ∧ R.n_components = 2 ^ 2 ∧ R.data.length = 2 ^ 2 ∧ ∀ x ∈ R.data, x = 0 :=
  (C17_zero_rank_four_contracts_to_zero ℚ 2 ⟨4, [1, 2, 3, 4]⟩
    ⟨16, [0, 0, 0, 0, 0, 0, 0, 0, 0, 0, 0, 0, 0, 0, 0, 0]⟩
    ⟨rfl, rfl⟩ ⟨rfl, rfl⟩ (by decide) (by intro x hx; simp at hx; exact hx)).1

/-! ## Element-wise operations: lemmas -/

theorem except_bind_ok {α : Type} (x : Except Failure α) : (x >>= fun a => Except.ok a) = x := by
  cases x <;> rfl

theorem except_bind_assoc {α β γ : Type} (x : Except Failure α) (f : α → Except Failure β)
    (g : β → Except Failure γ) : (x >>= f >>= g) = (x >>= fun a => f a >>= g) := by
  cases x <;> rfl

/-- A loop of `n + 1` iterations is its first iteration followed by the loop
over the remaining ones. -/
theorem forLoop_head {σ : Type} (body : Nat → σ → Except Failure σ) :
    ∀ (n : Nat) (s : σ),
      forLoop body (n + 1) s = (body 0 s >>= fun s' => forLoop (fun i => body (i + 1)) n s')
  | 0, s => by
    show (Except.ok s >>= body 0) = (body 0 s >>= fun s' => Except.ok s')
    rw [except_bind_ok]
    rfl
  | n + 1, s => by
    show (forLoop body (n + 1) s >>= body (n + 1)) = _
    rw [forLoop_head body n s, except_bind_assoc]
    rfl

namespace Tensor

variable {dim rank : Nat} {K : Type}

theorem reinit_eq_construct [Zero K] {T : Tensor dim rank K} (hT : T.WF) :
    T.reinit = .ok (construct dim rank true (fun _ => 0)) := by
  have h : T.n_components ≤ T.data.length := by rw [hT.2]
  simp only [reinit, h, if_true]
  rw [List.drop_of_length_le (by rw [hT.2]), List.append_nil, hT.1]
  rfl

end Tensor

/-! ## Element-wise operations: the claims -/

namespace Tensor

variable {dim rank : Nat} {K : Type}

end Tensor

namespace Tensor

variable {dim rank : Nat} {K : Type}

theorem construct_zero_data [Zero K] (dim rank : Nat) :
    ∀ x ∈ (construct dim rank true (fun _ => (0 : K))).data, x = 0 := by
  intro x hx
  exact List.eq_of_mem_replicate hx

theorem clone_eq {T1 T2 : Tensor dim rank K} (h1 : T1.WF) (h2 : T2.WF) :
    T2.clone T1 = .ok ⟨T2.n_components, T1.data⟩ := by
  have hn : T1.n_components = T2.n_components := h1.1.trans h2.1.symm
  have hc : T2.n_components ≤ T1.data.length ∧ T2.n_components ≤ T2.data.length := by
    rw [h1.2, h2.2, hn]; exact ⟨le_refl _, le_refl _⟩
  simp only [clone, hc, and_self, if_true]
  rw [List.take_of_length_le (by rw [h1.2, hn]), List.drop_of_length_le (by rw [h2.2]),
    List.append_nil]

theorem copy_eq {T : Tensor dim rank K} (hT : T.WF) : T.copy = .ok T := by
  obtain ⟨n, d⟩ := T
  have hl : d.length = n := hT.2
  by_cases h0 : n = 0
  · subst h0
    have : d = [] := List.length_eq_zero.mp hl
    subst this
    rfl
  · simp only [copy, ne_eq, h0, not_false_eq_true, if_true, hl, le_refl]
    rw [List.take_of_length_le (by rw [hl])]

theorem equal_self_data [DecidableEq K] {R T : Tensor dim rank K} (hT : T.WF)
    (hn : R.n_components = T.n_components) (hd : R.data = T.data) :
    R.equal T = .ok true := by
  have hc : R.n_components ≤ R.data.length ∧ R.n_components ≤ T.data.length := by
    rw [hd, hT.2, hn]; exact ⟨le_refl _, le_refl _⟩
  unfold equal
  rw [assert_bind_of hn.symm, if_pos hc, hd]
  simp only [decide_True, pure, Except.pure]

/-- The loop of `operator ()` stops at the assertion `base_dim < dim` when one
of the listed indices is not below `dim`. -/
theorem index_loop_bad (dim : Nat) : ∀ (n i : Nat) (l : List Nat) (d : Nat),
    l.length = n → (∃ x ∈ l, dim ≤ x) → index_loop dim n i l d = .error .assertion
  | 0, _, l, _, hl, ⟨x, hx, _⟩ => by
    have : l = [] := List.length_eq_zero.mp hl
    subst this
    simp at hx
  | _ + 1, _, [], _, hl, _ => by simp at hl
  | n + 1, i, b :: l, d, hl, ⟨x, hx, hbad⟩ => by
    by_cases hb : b < dim
    · simp only [index_loop, hb, if_true]
      apply index_loop_bad dim n (i + 1) l _ (by simpa using hl)
      rcases List.mem_cons.1 hx with rfl | hx'
      · omega
      · exact ⟨x, hx', hbad⟩
    · simp only [index_loop, hb, if_false]

theorem offset_rw_bad (T : Tensor dim rank K) {index : Nat} {l : List Nat}
    (hlen : (index :: l).length = rank) (hbad : ∃ x ∈ index :: l, dim ≤ x) :
    T.offset_rw index l = .error .assertion := by
  unfold offset_rw
  by_cases h0 : T.n_components ≠ 0
  · rw [assert_bind_of h0]
    by_cases hi : index < dim
    · rw [assert_bind_of hi]
      obtain ⟨x, hx, hxd⟩ := hbad
      have hl : l.length = rank - 1 := by simp at hlen; omega
      have hx' : x ∈ l := by
        rcases List.mem_cons.1 hx with rfl | hx'
        · omega
        · exact hx'
      rw [index_loop_bad dim (rank - 1) 1 l index hl ⟨x, hx', hxd⟩]
      rfl
    · exact assert_bind_of_not hi _
  · exact assert_bind_of_not h0 _

end Tensor

/-- C23 (amended): for every `dim` and `rank >= 0` such that `dim^rank` is
representable as `unsigned int`, a tensor constructed with zero-fill has
`n_components () == dim^rank` (`pow (x, 0) = 1` for rank 0), a buffer of that
length and every component equal to zero; `reinit ()` on any tensor of that
type restores this same state without changing `n_components`, so `reinit ()`
followed by `reinit ()` equals a single `reinit ()`. -/
theorem C23_zero_construct_and_reinit (K : Type) [Zero K] (dim rank : Nat)
    (S : Tensor dim rank K) (hS : S.WF) (hfit : dim ^ rank < UINT_RANGE) :
    (Tensor.construct dim rank true (fun _ => (0 : K))).n_components = dim ^ rank
    ∧ (Tensor.construct dim 0 true (fun _ => (0 : K))).n_components = 1
    ∧ (Tensor.construct dim rank true (fun _ => (0 : K))).data.length = dim ^ rank
    ∧ (∀ x ∈ (Tensor.construct dim rank true (fun _ => (0 : K))).data, x = 0)
    ∧ S.reinit = .ok (Tensor.construct dim rank true (fun _ => 0))
    ∧ ∃ Z : Tensor dim rank K, S.reinit = .ok Z ∧ Z.n_components = S.n_components
        ∧ Z.reinit = .ok Z
        ∧ (S.reinit >>= fun Z1 => Z1.reinit) = S.reinit := by
  have hC := Tensor.construct_WF dim rank true (fun _ => (0 : K))
  have hn := Tensor.n_components_eq_of_fit hC hfit
  have hr := Tensor.reinit_eq_construct hS
  have hrr := Tensor.reinit_eq_construct hC
  refine ⟨hn, rfl, by rw [hC.2, hn], Tensor.construct_zero_data dim rank, hr,
    ⟨_, hr, hC.1.trans hS.1.symm, hrr, ?_⟩⟩
  rw [hr]
  exact hrr

theorem C23_witness :
    (Tensor.construct 3 2 true (fun _ => (0 : ℚ))).n_components = 3 ^ 2
    ∧ (Tensor.construct 3 0 true (fun _ => (0 : ℚ))).n_components = 1
    ∧ (Tensor.construct 3 2 true (fun _ => (0 : ℚ))).data.length = 3 ^ 2
    ∧ (∀ x ∈ (Tensor.construct 3 2 true (fun _ => (0 : ℚ))).data, x = 0)
    ∧ (Tensor.mk 9 [1, 2, 3, 4, 5, 6, 7, 8, 9] : Tensor 3 2 ℚ).reinit
        = .ok (Tensor.construct 3 2 true (fun _ => 0))
    ∧ ∃ Z : Tensor 3 2 ℚ,
        (Tensor.mk 9 [1, 2, 3, 4, 5, 6, 7, 8, 9] : Tensor 3 2 ℚ).reinit = .ok Z
        ∧ Z.n_components = 9 ∧ Z.reinit = .ok Z
        ∧ ((Tensor.mk 9 [1, 2, 3, 4, 5, 6, 7, 8, 9] : Tensor 3 2 ℚ).reinit
            >>= fun Z1 => Z1.reinit)
          = (Tensor.mk 9 [1, 2, 3, 4, 5, 6, 7, 8, 9] : Tensor 3 2 ℚ).reinit :=
  C23_zero_construct_and_reinit ℚ 3 2 ⟨9, [1, 2, 3, 4, 5, 6, 7, 8, 9]⟩ ⟨rfl, rfl⟩ (by decide)

/-- C23 as stated fails where `math::pow` wraps: a zero-filled
`Tensor<65536, 2>` has `n_components () == 0`, not `65536^2 = 4294967296`, and
holds no component. -/
theorem C23_counterexample :
    1 ≤ 65536
    ∧ (Tensor.construct 65536 2 true (fun _ => (0 : ℚ))).n_components = 0
    ∧ (Tensor.construct 65536 2 true (fun _ => (0 : ℚ))).data = []
    ∧ 65536 ^ 2 = 4294967296 := by
  decide

/-- C24: for well-formed tensors `T1` and `T2` of the same `dim` and `rank`
(`T2` holding any values), `T2.clone (T1)` returns, afterwards `T2 == T1` is
`true`, the component count of `T2` is unchanged and `T2` holds the values of
`T1`, which is only read. The same holds for the tensor the copy constructor
produces from `T1`. -/
theorem C24_clone_round_trip (K : Type) [DecidableEq K] (dim rank : Nat)
    (T1 T2 : Tensor dim rank K) (h1 : T1.WF) (h2 : T2.WF) :
    (∃ R : Tensor dim rank K, T2.clone T1 = .ok R ∧ R.equal T1 = .ok true
      ∧ R.n_components = T2.n_components ∧ R.WF ∧ R.data = T1.data)
    ∧ ∃ C : Tensor dim rank K, T1.copy = .ok C ∧ C.equal T1 = .ok true
      ∧ C.n_components = T1.n_components ∧ C.WF ∧ C.data = T1.data := by
  have hn : T2.n_components = T1.n_components := h2.1.trans h1.1.symm
  refine ⟨⟨⟨T2.n_components, T1.data⟩, Tensor.clone_eq h1 h2,
    Tensor.equal_self_data h1 hn rfl, rfl, ⟨h2.1, by show T1.data.length = T2.n_components; rw [h1.2, hn]⟩, rfl⟩,
    ⟨T1, Tensor.copy_eq h1, Tensor.equal_self_data h1 rfl rfl, rfl, h1, rfl⟩⟩

theorem C24_witness :
    ∃ R : Tensor 2 1 ℚ, (Tensor.mk 2 [7, 8] : Tensor 2 1 ℚ).clone ⟨2, [1, 2]⟩ = .ok R
      ∧ R.equal ⟨2, [1, 2]⟩ = .ok true
      ∧ R.n_components = 2 ∧ R.WF ∧ R.data = [1, 2] :=
  (C24_clone_round_trip ℚ 2 1 ⟨2, [1, 2]⟩ ⟨2, [7, 8]⟩ ⟨rfl, rfl⟩ ⟨rfl, rfl⟩).1

/-- C25: element access with `rank` supplied indices fails at an assertion
whenever one of them is not below `dim`, whichever position it has and
whatever offset the multi-index would linearise to: the offset computation of
both overloads, a read and a write all fail, so no index is clamped or
wrapped into range. -/
theorem C25_access_out_of_range_fails (K : Type) (dim rank : Nat) (T : Tensor dim rank K)
    (index : Nat) (l : List Nat) (hlen : (index :: l).length = rank)
    (hbad : ∃ x ∈ index :: l, dim ≤ x) :
    T.offset_rw index l = .error .assertion ∧ T.offset_ro index l = .error .assertion
    ∧ T.read index l = .error .assertion
    ∧ ∀ v, T.write index l v = .error .assertion := by
  have h := Tensor.offset_rw_bad T hlen hbad
  refine ⟨h, h, ?_, fun v => ?_⟩
  · unfold Tensor.read
    rw [Tensor.offset_ro_eq_rw, h]
    rfl
  · unfold Tensor.write
    rw [h]
    rfl

theorem C25_witness :
    Tensor.linear_sum 2 3 [0, 2, 0] = 4 ∧ 4 < 2 ^ 3
    ∧ (Tensor.construct 2 3 true (fun _ => (0 : ℚ))).offset_rw 0 [2, 0] = .error .assertion
    ∧ (Tensor.construct 2 3 true (fun _ => (0 : ℚ))).offset_ro 0 [2, 0] = .error .assertion
    ∧ (Tensor.construct 2 3 true (fun _ => (0 : ℚ))).read 0 [2, 0] = .error .assertion
    ∧ ∀ v, (Tensor.construct 2 3 true (fun _ => (0 : ℚ))).write 0 [2, 0] v
        = .error .assertion :=
  ⟨by decide, by decide,
    C25_access_out_of_range_fails ℚ 2 3 (Tensor.construct 2 3 true (fun _ => 0)) 0 [2, 0] rfl
      ⟨2, by decide, by decide⟩⟩

/-! ## Matrix storage and norms: lemmas -/

namespace Matrix

variable {K : Type}

theorem set_eq {M : Matrix K} (hM : M.WF) {i j : Nat} (hi : i < M.n_rows) (hj : j < M.n_cols)
    (v : K) : M.set i j v = .ok ⟨M.n_rows, M.n_cols, M.data.set (M.n_cols * i + j) v⟩ := by
  obtain ⟨ho, hlt⟩ := offset_eq hM hi hj
  simp only [set, assert, hi, hj, if_true, bind, Except.bind, ho, store_of_lt hlt]
  rfl

theorem get_out_of_range (M : Matrix K) {i j : Nat} (h : M.n_rows ≤ i ∨ M.n_cols ≤ j) :
    M.get i j = .error .assertion := by
  unfold get
  by_cases hi : i < M.n_rows
  · rw [assert_bind_of hi]
    exact assert_bind_of_not (by omega) _
  · exact assert_bind_of_not hi _

theorem set_out_of_range (M : Matrix K) {i j : Nat} (h : M.n_rows ≤ i ∨ M.n_cols ≤ j) (v : K) :
    M.set i j v = .error .assertion := by
  unfold set
  by_cases hi : i < M.n_rows
  · rw [assert_bind_of hi]
    exact assert_bind_of_not (by omega) _
  · exact assert_bind_of_not hi _

/-- One row of the assignment loops. -/
theorem assign_row [Zero K] (f : Nat → K) (S : Matrix K) (hS : S.WF) (i : Nat)
    (hi : i < S.n_rows) :
    ∃ S' : Matrix K, forLoop (fun j (M : Matrix K) => M.set i j (f j)) S.n_cols S = .ok S'
      ∧ S'.WF ∧ S'.n_rows = S.n_rows ∧ S'.n_cols = S.n_cols
      ∧ ∀ i' j', i' < S.n_rows → j' < S.n_cols →
          S'.val i' j' = if i' = i then f j' else S.val i' j' := by
  have key : ∀ n, n ≤ S.n_cols →
      ∃ S' : Matrix K, forLoop (fun j (M : Matrix K) => M.set i j (f j)) n S = .ok S'
        ∧ S'.WF ∧ S'.n_rows = S.n_rows ∧ S'.n_cols = S.n_cols
        ∧ ∀ i' j', i' < S.n_rows → j' < S.n_cols →
            S'.val i' j' = if i' = i ∧ j' < n then f j' else S.val i' j' := by
    intro n hn
    apply forLoop_inv _ (fun t (S' : Matrix K) =>
        S'.WF ∧ S'.n_rows = S.n_rows ∧ S'.n_cols = S.n_cols
        ∧ ∀ i' j', i' < S.n_rows → j' < S.n_cols →
            S'.val i' j' = if i' = i ∧ j' < t then f j' else S.val i' j')
    · exact ⟨hS, rfl, rfl, fun i' j' _ _ => by simp⟩
    · rintro k T hk ⟨hT, hr, hc, hv⟩
      obtain ⟨T', h1, h2, h3, h4, h5⟩ :=
        set_spec hT (show i < T.n_rows by omega) (show k < T.n_cols by omega) (f k)
      refine ⟨T', h1, h2, by omega, by omega, ?_⟩
      intro i' j' hi' hj'
      rw [h5 i' j' (by omega) (by omega), hv i' j' hi' hj']
      by_cases he : i' = i ∧ j' = k
      · obtain ⟨rfl, rfl⟩ := he
        rw [if_pos ⟨rfl, rfl⟩, if_pos ⟨rfl, by omega⟩]
      · rw [if_neg he]
        by_cases h6 : i' = i ∧ j' < k
        · rw [if_pos h6, if_pos ⟨h6.1, by omega⟩]
        · rw [if_neg h6, if_neg]
          rintro ⟨h7, h8⟩
          by_cases h9 : j' = k
          · exact he ⟨h7, h9⟩
          · exact h6 ⟨h7, by omega⟩
  obtain ⟨S', h1, h2, h3, h4, h5⟩ := key S.n_cols (le_refl _)
  refine ⟨S', h1, h2, h3, h4, ?_⟩
  intro i' j' hi' hj'
  rw [h5 i' j' hi' hj']
  by_cases he : i' = i
  · rw [if_pos ⟨he, hj'⟩, if_pos he]
  · rw [if_neg (fun h => he h.1), if_neg he]

/-- What the assignment loops of the test leave: every element holds the
value written there. -/
theorem assign_all_spec [Zero K] (f : Nat → Nat → K) (M : Matrix K) (hM : M.WF) :
    ∃ M' : Matrix K, M.assign_all f = .ok M' ∧ M'.WF ∧ M'.n_rows = M.n_rows
      ∧ M'.n_cols = M.n_cols
      ∧ ∀ i j, i < M.n_rows → j < M.n_cols → M'.get i j = .ok (f i j) := by
  have key : ∀ n, n ≤ M.n_rows →
      ∃ M' : Matrix K,
        forLoop (fun i (M : Matrix K) =>
          forLoop (fun j (M : Matrix K) => M.set i j (f i j)) M.n_cols M) n M = .ok M'
        ∧ M'.WF ∧ M'.n_rows = M.n_rows ∧ M'.n_cols = M.n_cols
        ∧ ∀ i j, i < M.n_rows → j < M.n_cols →
            M'.val i j = if i < n then f i j else M.val i j := by
    intro n hn
    apply forLoop_inv _ (fun t (M' : Matrix K) =>
        M'.WF ∧ M'.n_rows = M.n_rows ∧ M'.n_cols = M.n_cols
        ∧ ∀ i j, i < M.n_rows → j < M.n_cols →
            M'.val i j = if i < t then f i j else M.val i j)
    · exact ⟨hM, rfl, rfl, fun i j _ _ => by simp⟩
    · rintro k T hk ⟨hT, hr, hc, hv⟩
      obtain ⟨T', h1, h2, h3, h4, h5⟩ := assign_row (f k) T hT k (by omega)
      refine ⟨T', h1, h2, by omega, by omega, ?_⟩
      intro i j hi hj
      rw [h5 i j (by omega) (by omega), hv i j hi hj]
      by_cases he : i = k
      · subst he
        rw [if_pos rfl, if_pos (by omega)]
      · rw [if_neg he]
        by_cases h6 : i < k
        · rw [if_pos h6, if_pos (by omega)]
        · rw [if_neg h6, if_neg (by omega)]
  obtain ⟨M', h1, h2, h3, h4, h5⟩ := key M.n_rows (le_refl _)
  refine ⟨M', h1, h2, h3, h4, ?_⟩
  intro i j hi hj
  rw [get_eq_val h2 (by omega) (by omega), h5 i j hi hj, if_pos hi]

theorem construct_eq [Zero K] (m n : Nat) (zero : Bool) (u : Nat → K)
    (h : m * n < UINT_RANGE) :
    ∃ M : Matrix K, construct m n zero u = .ok M ∧ M.WF ∧ M.n_rows = m ∧ M.n_cols = n
      ∧ (zero = true → ∀ x ∈ M.data, x = 0) := by
  cases zero
  · refine ⟨⟨m, n, (List.range (m * n)).map u⟩, ?_, ⟨by simp, h⟩, rfl, rfl, ?_⟩
    · simp [construct, Nat.mod_eq_of_lt h]
    · intro hz; cases hz
  · refine ⟨⟨m, n, List.replicate (m * n) 0⟩, ?_, ⟨by simp, h⟩, rfl, rfl, ?_⟩
    · simp [construct, reinit_zero, Nat.mod_eq_of_lt h]
    · intro _ x hx
      exact List.eq_of_mem_replicate hx

theorem reinit_any [Zero K] (self : Matrix K) (m n : Nat) (zero : Bool) (u : Nat → K)
    (h : m * n < UINT_RANGE) :
    ∃ M : Matrix K, self.reinit m n zero u = .ok M ∧ M.WF ∧ M.n_rows = m ∧ M.n_cols = n := by
  cases zero
  · refine ⟨⟨m, n, (List.range (m * n)).map u⟩, ?_, ⟨by simp, h⟩, rfl, rfl⟩
    simp [reinit, Nat.mod_eq_of_lt h]
  · exact ⟨⟨m, n, List.replicate (m * n) 0⟩, reinit_eq self m n u h, ⟨by simp, h⟩, rfl, rfl⟩

theorem copy_of_WF {M : Matrix K} (hM : M.WF) : M.copy = .ok M := by
  obtain ⟨r, c, d⟩ := M
  have hl : d.length = r * c := hM.1
  have hfit : r * c < UINT_RANGE := hM.2
  simp only [copy, Nat.mod_eq_of_lt hfit, hl, le_refl, and_self, if_true]
  rw [List.take_of_length_le (by rw [hl])]

end Matrix

/-! ## Matrix storage: the claims -/

/-- C26 (amended): for every `m x n` matrix `M` with `m*n` representable as
`unsigned int` (its buffer then holds `m*n` elements) and every `i < m`,
`j < n`: element `(i,j)` lives at
offset `n*i + j`, which is `< m*n`; reading it returns the buffer element
there, and writing it changes that buffer element only, so that a following
read returns the value written and no other element changes. Distinct valid
pairs have distinct offsets. After a value is written at every `(i,j)`, reading
each `(i,j)` returns the value written there. Access with `i >= m` or `j >= n`
fails at the assertion. -/
theorem C26_matrix_row_major_storage (K : Type) [Zero K] (M : Matrix K) (hM : M.WF) :
    (∀ i j, i < M.n_rows → j < M.n_cols →
      M.n_cols * i + j < M.n_rows * M.n_cols
      ∧ M.get i j = .ok (M.data.getD (M.n_cols * i + j) 0)
      ∧ ∀ v, ∃ M' : Matrix K, M.set i j v = .ok M'
          ∧ M'.data = M.data.set (M.n_cols * i + j) v
          ∧ M'.n_rows = M.n_rows ∧ M'.n_cols = M.n_cols
          ∧ M'.get i j = .ok v
          ∧ ∀ i' j', i' < M.n_rows → j' < M.n_cols → ¬ (i' = i ∧ j' = j) →
              M'.get i' j' = M.get i' j')
    ∧ (∀ i j i' j', i < M.n_rows → j < M.n_cols → i' < M.n_rows → j' < M.n_cols →
        M.n_cols * i + j = M.n_cols * i' + j' → i = i' ∧ j = j')
    ∧ (∀ f : Nat → Nat → K, ∃ M' : Matrix K, M.assign_all f = .ok M'
        ∧ ∀ i j, i < M.n_rows → j < M.n_cols → M'.get i j = .ok (f i j))
    ∧ ∀ i j, M.n_rows ≤ i ∨ M.n_cols ≤ j →
        M.get i j = .error .assertion ∧ ∀ v, M.set i j v = .error .assertion := by
  refine ⟨?_, ?_, ?_, ?_⟩
  · intro i j hi hj
    obtain ⟨_, hlt⟩ := Matrix.offset_eq hM hi hj
    refine ⟨by rw [← hM.1]; exact hlt, Matrix.get_eq hM hi hj, fun v => ?_⟩
    obtain ⟨M', h1, h2, h3, h4, h5⟩ := Matrix.set_spec hM hi hj v
    have e := Matrix.set_eq hM hi hj v
    rw [h1] at e
    have e' : M' = ⟨M.n_rows, M.n_cols, M.data.set (M.n_cols * i + j) v⟩ := by
      injection e
    refine ⟨M', h1, by rw [e'], h3, h4, ?_, ?_⟩
    · rw [Matrix.get_eq_val h2 (by omega) (by omega), h5 i j hi hj, if_pos ⟨rfl, rfl⟩]
    · intro i' j' hi' hj' hne
      rw [Matrix.get_eq_val h2 (by omega) (by omega), h5 i' j' hi' hj', if_neg hne,
        Matrix.get_eq_val hM hi' hj']
  · intro i j i' j' _ hj _ hj' h
    exact Matrix.offset_inj hj hj' h
  · intro f
    obtain ⟨M', h1, _, _, _, h5⟩ := Matrix.assign_all_spec f M hM
    exact ⟨M', h1, h5⟩
  · intro i j h
    exact ⟨Matrix.get_out_of_range M h, fun v => Matrix.set_out_of_range M h v⟩

theorem C26_witness :
    ∃ M' : Matrix ℚ,
      (Matrix.mk 4 4 (List.replicate 16 (0 : ℚ))).assign_all (fun i j => (i : ℚ) + j) = .ok M'
      ∧ ∀ i j, i < 4 → j < 4 → M'.get i j = .ok ((i : ℚ) + j) :=
  (C26_matrix_row_major_storage ℚ (Matrix.mk 4 4 (List.replicate 16 (0 : ℚ)))
    ⟨rfl, by decide⟩).2.2.1 (fun i j => (i : ℚ) + j)

/-- C27 (amended): for every matrix in any state and every `m`, `n` whose
product is representable as `unsigned int`, after `reinit (m, n, true)` the
matrix has `n_rows () == m`, `n_cols () == n`, `n_elements () == m*n` and every
element equal to zero. The invariant `length == n_rows*n_cols` holds after the
default constructor, after `Matrix (m, n, zero)`, after the copy constructor
applied to a matrix that satisfies it, and after `reinit (m, n, zero)`. -/
theorem C27_reinit_sets_shape_and_zero (K : Type) [Zero K] (self : Matrix K) (m n : Nat)
    (uninit : Nat → K) (hfit : m * n < UINT_RANGE) :
    (∃ M : Matrix K, self.reinit m n true uninit = .ok M ∧ M.n_rows = m ∧ M.n_cols = n
      ∧ M.n_elements = m * n ∧ (∀ x ∈ M.data, x = 0) ∧ M.data.length = M.n_rows * M.n_cols)
    ∧ (Matrix.construct_default : Matrix K).data.length
        = (Matrix.construct_default : Matrix K).n_rows
          * (Matrix.construct_default : Matrix K).n_cols
    ∧ (∀ zero, ∃ M : Matrix K, Matrix.construct m n zero uninit = .ok M
        ∧ M.n_rows = m ∧ M.n_cols = n ∧ M.data.length = M.n_rows * M.n_cols)
    ∧ (∀ zero, ∃ M : Matrix K, self.reinit m n zero uninit = .ok M
        ∧ M.n_rows = m ∧ M.n_cols = n ∧ M.data.length = M.n_rows * M.n_cols)
    ∧ ∀ M : Matrix K, M.WF → ∃ C : Matrix K, M.copy = .ok C ∧ C = M
        ∧ C.data.length = C.n_rows * C.n_cols := by
  refine ⟨⟨⟨m, n, List.replicate (m * n) 0⟩, Matrix.reinit_eq self m n uninit hfit, rfl, rfl,
    Nat.mod_eq_of_lt hfit, fun x hx => List.eq_of_mem_replicate hx, by simp⟩, rfl, ?_, ?_, ?_⟩
  · intro zero
    obtain ⟨M, h1, h2, h3, h4, _⟩ := Matrix.construct_eq m n zero uninit hfit
    exact ⟨M, h1, h3, h4, h2.1⟩
  · intro zero
    obtain ⟨M, h1, h2, h3, h4⟩ := Matrix.reinit_any self m n zero uninit hfit
    exact ⟨M, h1, h3, h4, h2.1⟩
  · intro M hM
    exact ⟨M, Matrix.copy_of_WF hM, rfl, hM.1⟩

theorem C27_witness :
    ∃ M : Matrix ℚ, (Matrix.mk 2 2 [1, 2, 3, 4]).reinit 4 4 true (fun _ => 7) = .ok M
      ∧ M.n_rows = 4 ∧ M.n_cols = 4
      ∧ M.n_elements = 4 * 4 ∧ (∀ x ∈ M.data, x = 0) ∧ M.data.length = M.n_rows * M.n_cols :=
  (C27_reinit_sets_shape_and_zero ℚ ⟨2, 2, [1, 2, 3, 4]⟩ 4 4 (fun _ => 7) (by decide)).1

/-- C27 as stated fails where the `unsigned int` product `m*n` wraps: with
`m = n = 65536` the buffer is allocated with `0` elements, so
`reinit (m, n, true)` runs its `memset` of `2^32` elements past it (undefined),
and `reinit (m, n, false)` leaves `n_elements () == 0` and a buffer of length
`0`, not `n_rows*n_cols`. -/
theorem C27_counterexample :
    (Matrix.construct_default : Matrix ℚ).reinit 65536 65536 true (fun _ => 0)
      = .error .undefined
    ∧ (Matrix.construct_default : Matrix ℚ).reinit 65536 65536 false (fun _ => 0)
      = .ok ⟨65536, 65536, []⟩
    ∧ (Matrix.mk 65536 65536 ([] : List ℚ)).n_elements = 0
    ∧ (Matrix.mk 65536 65536 ([] : List ℚ)).data.length = 0
    ∧ 65536 * 65536 = 4294967296 := by
  decide

/-! ## Norms: lemmas -/

/-- A loop that reads the buffer front to back and adds `h` of every element
to an accumulator that starts at zero. -/
theorem sum_fetch_loop {K : Type} [AddCommMonoid K] (data : List K) (h : K → K) (d : K) :
    ∀ n, n ≤ data.length →
      forLoop (fun i (acc : K) => do
          let x ← fetch data i
          return acc + h x) n 0
        = .ok ((Finset.range n).sum (fun i => h (data.getD i d)))
  | 0, _ => by simp [forLoop]
  | n + 1, hn => by
    have ih := sum_fetch_loop data h d n (by omega)
    show (forLoop _ n 0 >>= _) = _
    rw [ih]
    show (fetch data n >>= fun x => _) = _
    rw [fetch_eq_getD (show n < data.length by omega) d, Finset.sum_range_succ]
    rfl

theorem sum_range_mul {K : Type} [AddCommMonoid K] (G : Nat → K) (c : Nat) :
    ∀ r, (Finset.range (r * c)).sum G
      = (Finset.range r).sum (fun i => (Finset.range c).sum (fun j => G (c * i + j)))
  | 0 => by simp
  | r + 1 => by
    rw [Nat.succ_mul, Finset.sum_range_add, sum_range_mul G c r, Finset.sum_range_succ,
      Nat.mul_comm r c]

theorem sum_abs_eq_zero_iff {K : Type} [LinearOrderedField K] (data : List K) :
    (Finset.range data.length).sum (fun i => |data.getD i 0|) = 0 ↔ ∀ x ∈ data, x = 0 := by
  rw [Finset.sum_eq_zero_iff_of_nonneg (fun i _ => abs_nonneg _)]
  constructor
  · intro h x hx
    obtain ⟨p, hp, rfl⟩ := List.getElem_of_mem hx
    have := h p (Finset.mem_range.2 hp)
    rw [List.getD_eq_getElem _ 0 hp] at this
    exact abs_eq_zero.1 this
  · intro h i hi
    rw [Finset.mem_range] at hi
    rw [List.getD_eq_getElem _ 0 hi]
    exact abs_eq_zero.2 (h _ (List.getElem_mem _))

namespace Matrix

variable {K : Type}

theorem norm_eq [LinearOrderedField K] {M : Matrix K} (hM : M.WF) :
    M.norm = .ok ((Finset.range (M.n_rows * M.n_cols)).sum (fun p => |M.data.getD p 0|)) := by
  unfold norm
  rw [Nat.mod_eq_of_lt hM.2]
  exact sum_fetch_loop M.data (fun x => |x|) 0 _ (by rw [hM.1])

theorem sum_abs_by_rows [LinearOrderedField K] {M : Matrix K} (hM : M.WF) :
    (Finset.range (M.n_rows * M.n_cols)).sum (fun p => |M.data.getD p 0|)
      = (Finset.range M.n_rows).sum (fun i =>
          (Finset.range M.n_cols).sum (fun j => |M.val i j|)) := by
  rw [sum_range_mul]
  apply Finset.sum_congr rfl
  intro i hi
  apply Finset.sum_congr rfl
  intro j hj
  rw [val_eq hM (Finset.mem_range.1 hi) (Finset.mem_range.1 hj)]

end Matrix

namespace Vector

variable {K : Type}

theorem wf_pair (a b : K) : (Vector.mk 2 [a, b]).WF :=
  ⟨rfl, by show 2 < UINT_RANGE; decide⟩

theorem l1_norm_eq [LinearOrderedField K] {v : Vector K} (hv : v.WF) :
    v.l1_norm = .ok ((Finset.range v.n_el).sum (fun i => |v.data.getD i 0|)) :=
  sum_fetch_loop v.data (fun x => |x|) 0 _ (by rw [hv.1])

theorem l2_norm_eq [Field K] (sqrt : K → K) {v : Vector K} (hv : v.WF) :
    v.l2_norm sqrt
      = .ok (sqrt ((Finset.range v.n_el).sum (fun i => v.data.getD i 0 * v.data.getD i 0))) := by
  unfold l2_norm
  have h := sum_fetch_loop v.data (fun x => x * x) 0 v.n_el (by rw [hv.1])
  simp only at h
  rw [h]
  rfl

theorem lp_norm_eq [Field K] (pow : K → K → K) {v : Vector K} (hv : v.WF) {p : Nat}
    (hp : p > 0) :
    v.lp_norm pow p
      = .ok (pow ((Finset.range v.n_el).sum (fun i => pow (v.data.getD i 0) (p : K)))
          (1 / (p : K))) := by
  unfold lp_norm
  rw [assert_bind_of hp]
  have h := sum_fetch_loop v.data (fun x => pow x (p : K)) 0 v.n_el (by rw [hv.1])
  simp only at h
  rw [h]
  rfl

end Vector

/-! ## Norms: the claims -/

/-- C28 (amended): for every matrix `M` over an ordered field with
`n_rows*n_cols` representable as `unsigned int` (its buffer then holds
`n_rows*n_cols` elements), `norm ()` returns the sum over all elements of the
absolute value of the element; hence it is `>= 0`, it is `0` if and only if
every element is zero (so for the `0 x 0` matrix), and the `n x n` matrix left
by `identity ()` has norm `n`. -/
theorem C28_matrix_norm_is_abs_sum (K : Type) [LinearOrderedField K] (M : Matrix K)
    (hM : M.WF) :
    (∃ s : K, M.norm = .ok s
      ∧ s = (Finset.range (M.n_rows * M.n_cols)).sum (fun p => |M.data.getD p 0|)
      ∧ s = (Finset.range M.n_rows).sum (fun i =>
          (Finset.range M.n_cols).sum (fun j => |M.val i j|))
      ∧ 0 ≤ s ∧ (s = 0 ↔ ∀ x ∈ M.data, x = 0))
    ∧ (Matrix.construct_default : Matrix K).norm = .ok 0
    ∧ (M.n_rows = M.n_cols →
        ∃ I : Matrix K, M.identity = .ok I ∧ I.norm = .ok (M.n_rows : K)) := by
  refine ⟨⟨_, Matrix.norm_eq hM, rfl, Matrix.sum_abs_by_rows hM,
    Finset.sum_nonneg (fun i _ => abs_nonneg _), ?_⟩, rfl, ?_⟩
  · rw [← hM.1]
    exact sum_abs_eq_zero_iff M.data
  · intro hsq
    obtain ⟨I, hI, hWF, hr, hc, _, hval⟩ := Matrix.identity_spec hM hsq
    refine ⟨I, hI, ?_⟩
    rw [Matrix.norm_eq hWF, Matrix.sum_abs_by_rows hWF, hr, hc, ← hsq]
    congr 1
    have : ∀ i ∈ Finset.range M.n_rows,
        (Finset.range M.n_rows).sum (fun j => |I.val i j|) = 1 := by
      intro i hi
      rw [Finset.sum_eq_single i]
      · rw [hval i i (Finset.mem_range.1 hi) (Finset.mem_range.1 hi), if_pos rfl, abs_one]
      · intro j hj hne
        rw [hval i j (Finset.mem_range.1 hi) (Finset.mem_range.1 hj),
          if_neg (fun h => hne h.symm), abs_zero]
      · intro h; exact absurd hi h
    rw [Finset.sum_congr rfl this]
    simp

theorem C28_witness :
    ∃ s : ℚ, (Matrix.mk 2 2 [(1 : ℚ), -2, 3, -4]).norm = .ok s
      ∧ s = (Finset.range (2 * 2)).sum (fun p => |([1, -2, 3, -4] : List ℚ).getD p 0|)
      ∧ s = (Finset.range 2).sum (fun i =>
          (Finset.range 2).sum (fun j => |(Matrix.mk 2 2 [(1 : ℚ), -2, 3, -4]).val i j|))
      ∧ 0 ≤ s ∧ (s = 0 ↔ ∀ x ∈ ([1, -2, 3, -4] : List ℚ), x = 0) :=
  (C28_matrix_norm_is_abs_sum ℚ ⟨2, 2, [1, -2, 3, -4]⟩ ⟨rfl, by decide⟩).1

/-- C29: for every vector `x` of length `n >= 0` over an ordered field (its
buffer holding `n` elements), with `std::sqrt` returning the non-negative
square root of a non-negative argument: `l1_norm ()` returns `sum_i |x_i|` and
`l2_norm ()` returns the non-negative `r` with `r*r = sum_i x_i^2`. The vector
`{3, 4}` has `l2_norm () == 5` and `l1_norm () == 7`, and the empty vector has
both norms `0`. -/
theorem C29_vector_l1_l2_norm (K : Type) [LinearOrderedField K] (sqrt : K → K)
    (hsqrt : ∀ x, 0 ≤ x → 0 ≤ sqrt x ∧ sqrt x * sqrt x = x) (v : Vector K) (hv : v.WF) :
    v.l1_norm = .ok ((Finset.range v.n_el).sum (fun i => |v.data.getD i 0|))
    ∧ (∃ r : K, v.l2_norm sqrt = .ok r ∧ 0 ≤ r
        ∧ r * r = (Finset.range v.n_el).sum (fun i => v.data.getD i 0 ^ 2)
        ∧ ∀ r' : K, 0 ≤ r' →
            r' * r' = (Finset.range v.n_el).sum (fun i => v.data.getD i 0 ^ 2) → r' = r)
    ∧ (Vector.mk 2 [(3 : K), 4]).l1_norm = .ok 7
    ∧ (Vector.mk 2 [(3 : K), 4]).l2_norm sqrt = .ok 5
    ∧ (Vector.mk 0 ([] : List K)).l1_norm = .ok 0
    ∧ (Vector.mk 0 ([] : List K)).l2_norm sqrt = .ok 0 := by
  have hsq : ∀ (s r : K), 0 ≤ s → 0 ≤ r → r * r = s → sqrt s = r := by
    intro s r hs hr hrs
    obtain ⟨h1, h2⟩ := hsqrt s hs
    exact (mul_self_inj_of_nonneg h1 hr).1 (h2.trans hrs.symm)
  have hnn : 0 ≤ (Finset.range v.n_el).sum (fun i => v.data.getD i 0 * v.data.getD i 0) :=
    Finset.sum_nonneg (fun i _ => mul_self_nonneg _)
  have hpow : (Finset.range v.n_el).sum (fun i => v.data.getD i 0 ^ 2)
      = (Finset.range v.n_el).sum (fun i => v.data.getD i 0 * v.data.getD i 0) :=
    Finset.sum_congr rfl (fun i _ => sq _)
  refine ⟨Vector.l1_norm_eq hv, ⟨_, Vector.l2_norm_eq sqrt hv, (hsqrt _ hnn).1, ?_, ?_⟩,
    ?_, ?_, ?_, ?_⟩
  · rw [hpow]; exact (hsqrt _ hnn).2
  · intro r' hr' hrr
    rw [hpow] at hrr
    exact (hsq _ r' hnn hr' hrr).symm
  · rw [Vector.l1_norm_eq (Vector.wf_pair (3 : K) 4)]
    show Except.ok ((Finset.range 2).sum (fun i => |([(3 : K), 4]).getD i 0|)) = _
    simp only [Finset.sum_range_succ, Finset.sum_range_zero, List.getD_cons_zero,
      List.getD_cons_succ]
    norm_num
  · rw [Vector.l2_norm_eq sqrt (Vector.wf_pair (3 : K) 4)]
    show Except.ok (sqrt ((Finset.range 2).sum
      (fun i => ([(3 : K), 4]).getD i 0 * ([(3 : K), 4]).getD i 0))) = _
    simp only [Finset.sum_range_succ, Finset.sum_range_zero, List.getD_cons_zero,
      List.getD_cons_succ]
    congr 1
    apply hsq <;> norm_num
  · rfl
  · show Except.ok (sqrt 0) = Except.ok 0
    congr 1
    apply hsq <;> norm_num

theorem C29_witness :
    (Vector.mk 2 [(3 : ℝ), 4]).l1_norm = .ok 7
    ∧ (Vector.mk 2 [(3 : ℝ), 4]).l2_norm Real.sqrt = .ok 5
    ∧ (Vector.mk 0 ([] : List ℝ)).l1_norm = .ok 0
    ∧ (Vector.mk 0 ([] : List ℝ)).l2_norm Real.sqrt = .ok 0 :=
  (C29_vector_l1_l2_norm ℝ Real.sqrt
    (fun x hx => ⟨Real.sqrt_nonneg x, Real.mul_self_sqrt hx⟩)
    ⟨2, [3, 4]⟩ ⟨rfl, by decide⟩).2.2

/-- C30: with `std::pow (x, n)` returning `x^n` for a positive integer `n`
given as a scalar: for every positive integer `p`, `lp_norm (p)` returns
`std::pow (sum_i x_i^p, 1/p)`, the powers taken of the signed components with
no absolute value. For `p = 1` it returns the plain signed sum of the
components, so for the vector `{-3, 4}` `lp_norm (1)` is `1` while
`l1_norm ()` is `7`; `lp_norm (0)` fails at the assertion. -/
theorem C30_lp_norm_signed_powers (K : Type) [LinearOrderedField K] (pow : K → K → K)
    (hpow : ∀ (x : K) (n : Nat), 0 < n → pow x (n : K) = x ^ n) (v : Vector K) (hv : v.WF) :
    (∀ p, 0 < p →
      v.lp_norm pow p
        = .ok (pow ((Finset.range v.n_el).sum (fun i => v.data.getD i 0 ^ p)) (1 / (p : K))))
    ∧ v.lp_norm pow 1 = .ok ((Finset.range v.n_el).sum (fun i => v.data.getD i 0))
    ∧ v.lp_norm pow 0 = .error .assertion
    ∧ (Vector.mk 2 [(-3 : K), 4]).lp_norm pow 1 = .ok 1
    ∧ (Vector.mk 2 [(-3 : K), 4]).l1_norm = .ok 7 := by
  have hgen : ∀ (w : Vector K), w.WF → ∀ p, 0 < p →
      w.lp_norm pow p
        = .ok (pow ((Finset.range w.n_el).sum (fun i => w.data.getD i 0 ^ p))
            (1 / (p : K))) := by
    intro w hw p hp
    rw [Vector.lp_norm_eq pow hw hp]
    congr 2
    exact Finset.sum_congr rfl (fun i _ => hpow _ p hp)
  have hone : ∀ (w : Vector K), w.WF →
      w.lp_norm pow 1 = .ok ((Finset.range w.n_el).sum (fun i => w.data.getD i 0)) := by
    intro w hw
    rw [hgen w hw 1 (by decide)]
    congr 1
    have h1 : (1 : K) / ((1 : Nat) : K) = ((1 : Nat) : K) := by simp
    rw [h1, hpow _ 1 (by decide), pow_one]
    exact Finset.sum_congr rfl (fun i _ => pow_one _)
  refine ⟨hgen v hv, hone v hv, ?_, ?_, ?_⟩
  · unfold Vector.lp_norm
    exact assert_bind_of_not (by decide) _
  · rw [hone _ (Vector.wf_pair (-3 : K) 4)]
    show Except.ok ((Finset.range 2).sum (fun i => ([(-3 : K), 4]).getD i 0)) = _
    simp only [Finset.sum_range_succ, Finset.sum_range_zero, List.getD_cons_zero,
      List.getD_cons_succ]
    norm_num
  · rw [Vector.l1_norm_eq (Vector.wf_pair (-3 : K) 4)]
    show Except.ok ((Finset.range 2).sum (fun i => |([(-3 : K), 4]).getD i 0|)) = _
    simp only [Finset.sum_range_succ, Finset.sum_range_zero, List.getD_cons_zero,
      List.getD_cons_succ]
    norm_num

theorem C30_witness :
    (Vector.mk 2 [(-3 : ℝ), 4]).lp_norm (fun x y => x ^ y) 1 = .ok 1
    ∧ (Vector.mk 2 [(-3 : ℝ), 4]).l1_norm = .ok 7 :=
  (C30_lp_norm_signed_powers ℝ (fun x y => x ^ y) (fun x n _ => Real.rpow_natCast x n)
    ⟨2, [-3, 4]⟩ ⟨rfl, by decide⟩).2.2.2

/-! ## Vector operations: lemmas -/

/-- A flat loop over a buffer seen through `view`: iteration `i` replaces
element `i` by `g i` of its value and keeps the relation `same` to the initial
state. -/
theorem map_loop_on {σ K : Type} [Zero K] (view : σ → List K) (same : σ → σ → Prop)
    (body : Nat → σ → Except Failure σ) (g : Nat → K → K) (S₀ : σ) (h0 : same S₀ S₀)
    (hbody : ∀ i S, i < (view S₀).length → (view S).length = (view S₀).length → same S₀ S →
      ∃ S', body i S = .ok S' ∧ view S' = (view S).set i (g i ((view S).getD i 0))
        ∧ same S₀ S') :
    ∀ n, n ≤ (view S₀).length →
      ∃ S', forLoop body n S₀ = .ok S' ∧ same S₀ S'
        ∧ (view S').length = (view S₀).length
        ∧ ∀ p, p < (view S₀).length →
            (view S').getD p 0
              = if p < n then g p ((view S₀).getD p 0) else (view S₀).getD p 0 := by
  intro n hn
  apply forLoop_inv body (fun t S' => same S₀ S' ∧ (view S').length = (view S₀).length
      ∧ ∀ p, p < (view S₀).length →
          (view S').getD p 0
            = if p < t then g p ((view S₀).getD p 0) else (view S₀).getD p 0)
  · exact ⟨h0, rfl, fun p _ => by simp⟩
  · rintro k S hk ⟨hs, hl, hv⟩
    obtain ⟨S', h1, h2, h3⟩ := hbody k S (by omega) hl hs
    refine ⟨S', h1, h3, by rw [h2, List.length_set]; exact hl, ?_⟩
    intro p hp
    rw [h2]
    by_cases hpk : p = k
    · subst hpk
      rw [getD_set_self _ (by omega), hv p hp, if_neg (by omega), if_pos (by omega)]
    · have hne : k ≠ p := fun h => hpk h.symm
      rw [getD_set_ne _ hne, hv p hp]
      by_cases h1 : p < k
      · rw [if_pos h1, if_pos (by omega)]
      · rw [if_neg h1, if_neg (by omega)]

namespace Vector

variable {K : Type}

/-- The flat loops of the vector operators. -/
theorem update_loop [Zero K] (body : Nat → Vector K → Except Failure (Vector K))
    (g : Nat → K → K) (v : Vector K) (hv : v.WF)
    (hbody : ∀ i (S : Vector K), i < v.n_el → S.data.length = v.n_el → S.n_el = v.n_el →
      body i S = .ok ⟨S.n_el, S.data.set i (g i (S.data.getD i 0))⟩) :
    ∃ R : Vector K, forLoop body v.n_el v = .ok R ∧ R.WF ∧ R.n_el = v.n_el
      ∧ ∀ p, p < v.n_el → R.data.getD p 0 = g p (v.data.getD p 0) := by
  obtain ⟨R, h1, h2, h3, h4⟩ := map_loop_on (fun S : Vector K => S.data)
    (fun S₀ S => S.n_el = S₀.n_el) body g v rfl
    (fun i S hi hl hs => ⟨_, hbody i S (by rw [← hv.1]; exact hi) (by rw [hl, hv.1]) hs,
      rfl, hs⟩)
    v.n_el (by rw [hv.1])
  refine ⟨R, h1, ⟨by rw [h3, hv.1, h2], by rw [h2]; exact hv.2⟩, h2, ?_⟩
  intro p hp
  have := h4 p (by rw [hv.1]; exact hp)
  rw [if_pos hp] at this
  exact this

/-- Two vectors with one count, buffers of that length and equal elements are
equal. -/
theorem eq_of_elements [Zero K] {u v : Vector K} (hn : u.n_el = v.n_el)
    (hu : u.data.length = u.n_el) (hv : v.data.length = v.n_el)
    (h : ∀ p, p < u.n_el → u.data.getD p 0 = v.data.getD p 0) : u = v := by
  obtain ⟨n, d⟩ := u
  obtain ⟨n', d'⟩ := v
  simp only at hn hu hv h
  subst hn
  have hd : d = d' := by
    apply List.ext_getElem (by rw [hu, hv])
    intro p h1 h2
    have := h p (by omega)
    rw [List.getD_eq_getElem _ 0 h1, List.getD_eq_getElem _ 0 h2] at this
    exact this
  rw [hd]

theorem get_of_lt [Zero K] {v : Vector K} (hv : v.WF) {i : Nat} (hi : i < v.n_el) :
    v.get i = .ok (v.data.getD i 0) := by
  unfold get
  rw [assert_bind_of hi]
  exact fetch_eq_getD (by rw [hv.1]; exact hi) 0

theorem get_of_not_lt (v : Vector K) {i : Nat} (hi : ¬ i < v.n_el) :
    v.get i = .error .assertion := by
  unfold get
  exact assert_bind_of_not hi _

theorem sadd_spec_vec [Field K] (self v : Vector K) (a : K) (hs : self.WF) (hv : v.WF)
    (hne : self.n_el ≠ 0) (hn : v.n_el = self.n_el) :
    ∃ R : Vector K, self.sadd a v = .ok R ∧ R.WF ∧ R.n_el = self.n_el
      ∧ ∀ i, i < self.n_el → R.data.getD i 0 = a * v.data.getD i 0 := by
  obtain ⟨R, h1, h2, h3, h4⟩ := update_loop
    (fun i (self : Vector K) => do
      let x ← v.get i
      let data ← store self.data i (a * x)
      return { self with data := data })
    (fun i _ => a * v.data.getD i 0) self hs
    (by
      intro i S hi hl _
      simp only [get_of_lt hv (show i < v.n_el by omega),
        store_of_lt (show i < S.data.length by omega), bind, Except.bind, pure, Except.pure])
  refine ⟨R, ?_, h2, h3, h4⟩
  unfold sadd
  rw [assert_bind_of hne, assert_bind_of hn]
  exact h1

theorem sadd_2_spec_vec [Field K] (self v w : Vector K) (a b : K) (hs : self.WF) (hv : v.WF)
    (hw : w.WF) (hne : self.n_el ≠ 0) (hn : v.n_el = self.n_el) (hnw : self.n_el ≤ w.n_el) :
    ∃ R : Vector K, self.sadd_2 a v b w = .ok R ∧ R.WF ∧ R.n_el = self.n_el
      ∧ ∀ i, i < self.n_el → R.data.getD i 0 = a * v.data.getD i 0 + b * w.data.getD i 0 := by
  obtain ⟨R, h1, h2, h3, h4⟩ := update_loop
    (fun i (self : Vector K) => do
      let x ← v.get i
      let y ← w.get i
      let data ← store self.data i (a * x + b * y)
      return { self with data := data })
    (fun i _ => a * v.data.getD i 0 + b * w.data.getD i 0) self hs
    (by
      intro i S hi hl _
      simp only [get_of_lt hv (show i < v.n_el by omega),
        get_of_lt hw (show i < w.n_el by omega),
        store_of_lt (show i < S.data.length by omega), bind, Except.bind, pure, Except.pure])
  refine ⟨R, ?_, h2, h3, h4⟩
  unfold sadd_2
  rw [assert_bind_of hne, assert_bind_of hn]
  exact h1

/-- With `w` shorter than `self` the two-term `sadd` stops at the bounds
assertion of `w (i)`. -/
theorem sadd_2_short [Field K] (self v w : Vector K) (a b : K) (hs : self.WF) (hv : v.WF)
    (hw : w.WF) (hne : self.n_el ≠ 0) (hn : v.n_el = self.n_el) (hnw : w.n_el < self.n_el) :
    self.sadd_2 a v b w = .error .assertion := by
  -- the first `w.n_el` iterations succeed
  have key : ∀ n, n ≤ w.n_el →
      ∃ S : Vector K, forLoop (fun i (self : Vector K) => do
          let x ← v.get i
          let y ← w.get i
          let data ← store self.data i (a * x + b * y)
          return { self with data := data }) n self = .ok S
        ∧ S.data.length = self.n_el := by
    intro n hn'
    apply forLoop_inv _ (fun _ (S : Vector K) => S.data.length = self.n_el)
    · exact hs.1
    · intro k S hk hl
      refine ⟨⟨S.n_el, S.data.set k (a * v.data.getD k 0 + b * w.data.getD k 0)⟩, ?_,
        by simp only [List.length_set]; exact hl⟩
      simp only [get_of_lt hv (show k < v.n_el by omega),
        get_of_lt hw (show k < w.n_el by omega),
        store_of_lt (show k < S.data.length by omega), bind, Except.bind, pure, Except.pure]
  obtain ⟨S, hS, _⟩ := key w.n_el (le_refl _)
  obtain ⟨r, hr⟩ : ∃ r, self.n_el = w.n_el + 1 + r := ⟨self.n_el - w.n_el - 1, by omega⟩
  have hfail : ∀ r, forLoop (fun i (self : Vector K) => do
          let x ← v.get i
          let y ← w.get i
          let data ← store self.data i (a * x + b * y)
          return { self with data := data }) (w.n_el + 1 + r) self = .error .assertion := by
    intro r
    induction r with
    | zero =>
      show (forLoop _ w.n_el self >>= _) = _
      rw [hS]
      show (v.get w.n_el >>= fun x => w.get w.n_el >>= fun y => _) = _
      rw [get_of_lt hv (show w.n_el < v.n_el by omega),
        get_of_not_lt w (show ¬ w.n_el < w.n_el by omega)]
      rfl
    | succ r ih =>
      show (forLoop _ (w.n_el + 1 + r) self >>= _) = _
      rw [ih]
      rfl
  unfold sadd_2
  rw [assert_bind_of hne, assert_bind_of hn, hr]
  exact hfail r

end Vector

/-! ## Vector operations: the claims -/

/-- C32: `Vector::sadd` overwrites: for well-formed vectors of equal non-zero
length `n`, `this.sadd (a, v)` returns and leaves every component `a*v_i`, and
`this.sadd (a, v, b, w)` leaves every component `a*v_i + b*w_i`, whatever
`this` held before (two destinations of the same length end equal). On a
3-vector, `sadd (2, {1,2,3})` yields `{2,4,6}`. -/
theorem C32_vector_sadd_overwrites (K : Type) [Field K] (self other v w : Vector K) (a b : K)
    (hs : self.WF) (ho : other.WF) (hv : v.WF) (hw : w.WF) (hne : self.n_el ≠ 0)
    (hon : other.n_el = self.n_el) (hn : v.n_el = self.n_el) (hnw : w.n_el = self.n_el) :
    (∃ R : Vector K, self.sadd a v = .ok R ∧ R.n_el = self.n_el
      ∧ (∀ i, i < self.n_el → R.data.getD i 0 = a * v.data.getD i 0)
      ∧ other.sadd a v = .ok R)
    ∧ (∃ R : Vector K, self.sadd_2 a v b w = .ok R ∧ R.n_el = self.n_el
      ∧ (∀ i, i < self.n_el → R.data.getD i 0 = a * v.data.getD i 0 + b * w.data.getD i 0)
      ∧ other.sadd_2 a v b w = .ok R)
    ∧ ∀ x y z : K, (Vector.mk 3 [x, y, z]).sadd 2 ⟨3, [1, 2, 3]⟩ = .ok ⟨3, [2, 4, 6]⟩ := by
  refine ⟨?_, ?_, ?_⟩
  · obtain ⟨R, h1, h2, h3, h4⟩ := Vector.sadd_spec_vec self v a hs hv hne hn
    obtain ⟨R', h1', h2', h3', h4'⟩ :=
      Vector.sadd_spec_vec other v a ho hv (by omega) (by omega)
    have e : R' = R := by
      apply Vector.eq_of_elements (by omega) h2'.1 h2.1
      intro p hp
      rw [h4' p (by omega), h4 p (by omega)]
    exact ⟨R, h1, h3, h4, by rw [h1', e]⟩
  · obtain ⟨R, h1, h2, h3, h4⟩ :=
      Vector.sadd_2_spec_vec self v w a b hs hv hw hne hn (by omega)
    obtain ⟨R', h1', h2', h3', h4'⟩ :=
      Vector.sadd_2_spec_vec other v w a b ho hv hw (by omega) (by omega) (by omega)
    have e : R' = R := by
      apply Vector.eq_of_elements (by omega) h2'.1 h2.1
      intro p hp
      rw [h4' p (by omega), h4 p (by omega)]
    exact ⟨R, h1, h3, h4, by rw [h1', e]⟩
  · intro x y z
    have h : (Vector.mk 3 [x, y, z]).sadd 2 ⟨3, [1, 2, 3]⟩
        = .ok ⟨3, [2 * 1, 2 * 2, 2 * 3]⟩ := rfl
    rw [h]
    norm_num

theorem C32_witness :
    ∃ R : Vector ℚ, (Vector.mk 3 [9, 9, 9]).sadd 2 ⟨3, [1, 2, 3]⟩ = .ok R ∧ R.n_el = 3
      ∧ (∀ i, i < 3 → R.data.getD i 0 = 2 * ([1, 2, 3] : List ℚ).getD i 0)
      ∧ (Vector.mk 3 [7, 8, 9]).sadd 2 ⟨3, [1, 2, 3]⟩ = .ok R :=
  (C32_vector_sadd_overwrites ℚ ⟨3, [9, 9, 9]⟩ ⟨3, [7, 8, 9]⟩ ⟨3, [1, 2, 3]⟩ ⟨3, [0, 0, 0]⟩ 2 0
    ⟨rfl, by decide⟩ ⟨rfl, by decide⟩ ⟨rfl, by decide⟩ ⟨rfl, by decide⟩ (by decide) rfl rfl
    rfl).1

/-- C40: for well-formed vectors, `sadd (a, v, b, w)` succeeds if and only if
`this` has non-zero length `n`, `v` has length exactly `n` and `w` has length
at least `n`. The shape assertion checks `v` only; a shorter `w` is caught by
the bounds assertion of `w (i)`; a longer `w` is accepted and its excess
components are not read. Both overloads fail at the assertion on vectors of
length 0. -/
theorem C40_vector_sadd_shape_checks (K : Type) [Field K] (self v w : Vector K) (a b : K)
    (hs : self.WF) (hv : v.WF) (hw : w.WF) :
    ((∃ R : Vector K, self.sadd_2 a v b w = .ok R)
      ↔ (self.n_el ≠ 0 ∧ v.n_el = self.n_el ∧ self.n_el ≤ w.n_el))
    ∧ (self.n_el ≠ 0 → v.n_el ≠ self.n_el → self.sadd_2 a v b w = .error .assertion)
    ∧ (self.n_el ≠ 0 → v.n_el = self.n_el → w.n_el < self.n_el →
        self.sadd_2 a v b w = .error .assertion)
    ∧ (self.n_el ≠ 0 → v.n_el = self.n_el → self.n_el ≤ w.n_el →
        ∃ R : Vector K, self.sadd_2 a v b w = .ok R ∧ R.n_el = self.n_el
          ∧ ∀ i, i < self.n_el →
              R.data.getD i 0 = a * v.data.getD i 0 + b * w.data.getD i 0)
    ∧ (self.n_el = 0 →
        self.sadd a v = .error .assertion ∧ self.sadd_2 a v b w = .error .assertion) := by
  have c0 : self.n_el = 0 →
      self.sadd a v = .error .assertion ∧ self.sadd_2 a v b w = .error .assertion := by
    intro h0
    have hne : ¬ self.n_el ≠ 0 := fun h => h h0
    constructor
    · unfold Vector.sadd; exact assert_bind_of_not hne _
    · unfold Vector.sadd_2; exact assert_bind_of_not hne _
  have c1 : self.n_el ≠ 0 → v.n_el ≠ self.n_el →
      self.sadd_2 a v b w = .error .assertion := by
    intro hne hn
    unfold Vector.sadd_2
    rw [assert_bind_of hne]
    exact assert_bind_of_not hn _
  have c2 : self.n_el ≠ 0 → v.n_el = self.n_el → w.n_el < self.n_el →
      self.sadd_2 a v b w = .error .assertion :=
    fun hne hn hlt => Vector.sadd_2_short self v w a b hs hv hw hne hn hlt
  have c3 : self.n_el ≠ 0 → v.n_el = self.n_el → self.n_el ≤ w.n_el →
      ∃ R : Vector K, self.sadd_2 a v b w = .ok R ∧ R.n_el = self.n_el
        ∧ ∀ i, i < self.n_el →
            R.data.getD i 0 = a * v.data.getD i 0 + b * w.data.getD i 0 := by
    intro hne hn hle
    obtain ⟨R, h1, _, h3, h4⟩ := Vector.sadd_2_spec_vec self v w a b hs hv hw hne hn hle
    exact ⟨R, h1, h3, h4⟩
  refine ⟨⟨?_, ?_⟩, c1, c2, c3, c0⟩
  · rintro ⟨R, hR⟩
    by_cases h0 : self.n_el = 0
    · rw [(c0 h0).2] at hR; cases hR
    by_cases hn : v.n_el = self.n_el
    · by_cases hle : self.n_el ≤ w.n_el
      · exact ⟨h0, hn, hle⟩
      · rw [c2 h0 hn (by omega)] at hR; cases hR
    · rw [c1 h0 hn] at hR; cases hR
  · rintro ⟨h0, hn, hle⟩
    obtain ⟨R, h1, _⟩ := c3 h0 hn hle
    exact ⟨R, h1⟩

theorem C40_witness :
    ((∃ R : Vector ℚ, (Vector.mk 2 [9, 9]).sadd_2 2 ⟨2, [1, 2]⟩ 1 ⟨3, [1, 1, 5]⟩ = .ok R)
      ↔ ((2 : Nat) ≠ 0 ∧ 2 = 2 ∧ 2 ≤ 3))
    ∧ (Vector.mk 2 [(9 : ℚ), 9]).sadd_2 2 ⟨2, [1, 2]⟩ 1 ⟨3, [1, 1, 5]⟩ = .ok ⟨2, [3, 5]⟩
    ∧ (Vector.mk 2 [(9 : ℚ), 9]).sadd_2 2 ⟨2, [1, 2]⟩ 1 ⟨1, [1]⟩ = .error .assertion :=
  ⟨(C40_vector_sadd_shape_checks ℚ ⟨2, [9, 9]⟩ ⟨2, [1, 2]⟩ ⟨3, [1, 1, 5]⟩ 2 1
    ⟨rfl, by decide⟩ ⟨rfl, by decide⟩ ⟨rfl, by decide⟩).1,
    by
      have h : (Vector.mk 2 [(9 : ℚ), 9]).sadd_2 2 ⟨2, [1, 2]⟩ 1 ⟨3, [1, 1, 5]⟩
          = .ok ⟨2, [2 * 1 + 1 * 1, 2 * 2 + 1 * 1]⟩ := rfl
      rw [h]
      norm_num,
    rfl⟩

namespace Vector

variable {K : Type}

theorem diag_eq (self : Vector K) (M : Matrix K) :
    self.diag M = (assert (M.n_rows = M.n_cols) >>= fun _ =>
      assert (self.n_el = M.n_rows) >>= fun _ =>
        if self.n_el = 0 then .ok self
        else forLoop (fun i (self : Vector K) => do
            let x ← M.get i i
            let data ← store self.data i x
            return { self with data := data }) self.n_el self) := rfl

theorem diag_spec [Zero K] (self : Vector K) (M : Matrix K) (hs : self.WF) (hM : M.WF)
    (hsq : M.n_rows = M.n_cols) (hn : self.n_el = M.n_rows) :
    ∃ R : Vector K, self.diag M = .ok R ∧ R.WF ∧ R.n_el = self.n_el
      ∧ ∀ i, i < self.n_el → R.data.getD i 0 = M.val i i := by
  rw [diag_eq, assert_bind_of hsq, assert_bind_of hn]
  by_cases h0 : self.n_el = 0
  · rw [if_pos h0]
    exact ⟨self, rfl, hs, rfl, fun i hi => by omega⟩
  · rw [if_neg h0]
    exact update_loop
      (fun i (self : Vector K) => do
        let x ← M.get i i
        let data ← store self.data i x
        return { self with data := data })
      (fun i _ => M.val i i) self hs
      (by
        intro i S hi hl _
        simp only [Matrix.get_eq_val hM (show i < M.n_rows by omega)
          (show i < M.n_cols by omega),
          store_of_lt (show i < S.data.length by omega), bind, Except.bind, pure, Except.pure])

theorem copy_of_WF_vec {v : Vector K} (hv : v.WF) : v.copy = .ok v := by
  obtain ⟨n, d⟩ := v
  have hl : d.length = n := hv.1
  by_cases h0 : n = 0
  · subst h0
    have : d = [] := List.length_eq_zero.mp hl
    subst this
    rfl
  · simp only [copy, ne_eq, h0, not_false_eq_true, if_true, hl, le_refl]
    rw [List.take_of_length_le (by rw [hl])]

theorem equal_of_data [DecidableEq K] {u v : Vector K} (hv : v.WF) (hn : u.n_el = v.n_el)
    (hd : u.data = v.data) : u.equal v = .ok true := by
  have hc : u.n_el ≤ u.data.length ∧ u.n_el ≤ v.data.length := by
    rw [hd, hv.1, hn]; exact ⟨le_refl _, le_refl _⟩
  unfold equal
  rw [assert_bind_of hn.symm, if_pos hc, hd]
  simp only [decide_True, pure, Except.pure]

theorem plus_assign_self [Field K] (c : Vector K) (hc : c.WF) :
    ∃ R : Vector K, c.plus_assign true c = .ok R ∧ R.WF ∧ R.n_el = c.n_el
      ∧ ∀ i, i < c.n_el → R.data.getD i 0 = c.data.getD i 0 + c.data.getD i 0 := by
  obtain ⟨R, h1, h2, h3, h4⟩ := update_loop
    (fun i (self : Vector K) => do
      let y ← fetch (source true self c).data i
      let x ← fetch self.data i
      let data ← store self.data i (x + y)
      return { self with data := data })
    (fun _ x => x + x) c hc
    (by
      intro i S hi hl _
      show (fetch S.data i >>= fun y => fetch S.data i >>= fun x => _) = _
      simp only [fetch_eq_getD (show i < S.data.length by omega) 0,
        store_of_lt (show i < S.data.length by omega), bind, Except.bind, pure, Except.pure])
  refine ⟨R, ?_, h2, h3, h4⟩
  unfold plus_assign
  rw [assert_bind_of (show (source true c c).n_el = c.n_el from rfl)]
  exact h1

theorem minus_assign_spec [Field K] (self v : Vector K) (hs : self.WF) (hv : v.WF)
    (hn : v.n_el = self.n_el) :
    ∃ R : Vector K, self.minus_assign v = .ok R ∧ R.WF ∧ R.n_el = self.n_el
      ∧ ∀ i, i < self.n_el → R.data.getD i 0 = self.data.getD i 0 - v.data.getD i 0 := by
  obtain ⟨R, h1, h2, h3, h4⟩ := update_loop
    (fun i (self : Vector K) => do
      let y ← fetch v.data i
      let c ← fetch self.data i
      let data ← store self.data i (c - y)
      return { self with data := data })
    (fun i x => x - v.data.getD i 0) self hs
    (by
      intro i S hi hl _
      simp only [fetch_eq_getD (show i < v.data.length by rw [hv.1]; omega) 0,
        fetch_eq_getD (show i < S.data.length by omega) 0,
        store_of_lt (show i < S.data.length by omega), bind, Except.bind, pure, Except.pure])
  refine ⟨R, ?_, h2, h3, h4⟩
  unfold minus_assign
  rw [assert_bind_of hn]
  exact h1

/-- The loop of `operator /=` and of the two normalisations. -/
theorem divide_loop [Field K] (self : Vector K) (s : K) (hs : self.WF) :
    ∃ R : Vector K, forLoop (fun i (self : Vector K) => do
          let c ← fetch self.data i
          let data ← store self.data i (c / s)
          return { self with data := data }) self.n_el self = .ok R
      ∧ R.WF ∧ R.n_el = self.n_el
      ∧ ∀ i, i < self.n_el → R.data.getD i 0 = self.data.getD i 0 / s :=
  update_loop
    (fun i (self : Vector K) => do
      let c ← fetch self.data i
      let data ← store self.data i (c / s)
      return { self with data := data })
    (fun _ x => x / s) self hs
    (by
      intro i S hi hl _
      simp only [fetch_eq_getD (show i < S.data.length by omega) 0,
        store_of_lt (show i < S.data.length by omega), bind, Except.bind, pure, Except.pure])

theorem construct_zero_eq [Zero K] (m : Nat) (u : Nat → K) :
    construct m true u = .ok ⟨m, List.replicate m 0⟩ := by
  simp [construct, reinit_zero]

theorem reinit_zero_fill [Zero K] (self : Vector K) (m : Nat) (u : Nat → K) :
    self.reinit m true u = .ok ⟨m, List.replicate m 0⟩ := by
  simp [reinit]

theorem construct_list_eq (list : List K) (h : list.length < UINT_RANGE) :
    construct_list list = .ok ⟨list.length, list⟩ := by
  by_cases h0 : list.length = 0
  · have : list = [] := List.length_eq_zero.mp h0
    subst this
    rfl
  · simp only [construct_list, Nat.mod_eq_of_lt h, ne_eq, h0, not_false_eq_true, if_true,
      le_refl]

end Vector

/-- C33 (amended): for every `n >= 0` with `n*n` representable as
`unsigned int`, `n x n` matrix `M` and vector `x` of length `n` (both with
buffers of the stated sizes), `x.diag (M)` returns and leaves
`x_i = M(i,i)` for every `i < n`, the length unchanged; `M` is a `const`
reference, only read. `diag` fails at an assertion if `M` is not square or if
the length of the vector differs from the row count of `M`. -/
theorem C33_vector_diag (K : Type) [Zero K] (n : Nat) (x : Vector K) (M : Matrix K)
    (hx : x.WF) (hM : M.WF) :
    (M.n_rows = n → M.n_cols = n → x.n_el = n →
      ∃ R : Vector K, x.diag M = .ok R ∧ R.n_el = n
        ∧ ∀ i, i < n → R.get i = .ok (M.val i i) ∧ M.get i i = .ok (M.val i i))
    ∧ (M.n_rows ≠ M.n_cols → x.diag M = .error .assertion)
    ∧ (x.n_el ≠ M.n_rows → x.diag M = .error .assertion) := by
  refine ⟨?_, ?_, ?_⟩
  · intro hr hc hn
    obtain ⟨R, h1, h2, h3, h4⟩ := Vector.diag_spec x M hx hM (by omega) (by omega)
    refine ⟨R, h1, by omega, fun i hi => ⟨?_, Matrix.get_eq_val hM (by omega) (by omega)⟩⟩
    rw [Vector.get_of_lt h2 (by omega), h4 i (by omega)]
  · intro h
    rw [Vector.diag_eq]
    exact assert_bind_of_not h _
  · intro h
    rw [Vector.diag_eq]
    by_cases hsq : M.n_rows = M.n_cols
    · rw [assert_bind_of hsq]
      exact assert_bind_of_not h _
    · exact assert_bind_of_not hsq _

theorem C33_witness :
    ∃ R : Vector ℚ, (Vector.mk 2 [9, 9]).diag ⟨2, 2, [1, 2, 3, 4]⟩ = .ok R ∧ R.n_el = 2
      ∧ ∀ i, i < 2 → R.get i = .ok ((Matrix.mk 2 2 [(1 : ℚ), 2, 3, 4]).val i i)
        ∧ (Matrix.mk 2 2 [(1 : ℚ), 2, 3, 4]).get i i
          = .ok ((Matrix.mk 2 2 [(1 : ℚ), 2, 3, 4]).val i i) :=
  (C33_vector_diag ℚ 2 ⟨2, [9, 9]⟩ ⟨2, 2, [1, 2, 3, 4]⟩ ⟨rfl, by decide⟩ ⟨rfl, by decide⟩).1
    rfl rfl rfl

/-- C34: for every well-formed vector `v` over exact arithmetic (a field of
characteristic zero) and the copy `c` made by the copy constructor: `c == v`
holds; `c += c`, with the operand the destination itself, doubles every
component; after the following `c /= 2`, `c == v` holds again; and after a
further `c -= v`, `c` holds only zeros and compares equal to the zero vector
of the same length. -/
theorem C34_vector_copy_round_trip (K : Type) [Field K] [CharZero K] [DecidableEq K]
    (v : Vector K) (hv : v.WF) (uninit : Nat → K) :
    ∃ c c2 c3 c4 Z : Vector K, v.copy = .ok c ∧ c.equal v = .ok true
      ∧ c.plus_assign true c = .ok c2
      ∧ (∀ i, i < v.n_el → c2.data.getD i 0 = 2 * v.data.getD i 0)
      ∧ c2.div_assign 2 = .ok c3 ∧ c3.equal v = .ok true
      ∧ c3.minus_assign v = .ok c4 ∧ c4.n_el = v.n_el ∧ (∀ x ∈ c4.data, x = 0)
      ∧ Vector.construct v.n_el true uninit = .ok Z ∧ c4.equal Z = .ok true := by
  obtain ⟨c2, h2, hW2, hn2, hv2⟩ := Vector.plus_assign_self v hv
  obtain ⟨c3, h3, hW3, hn3, hv3⟩ := Vector.divide_loop c2 2 hW2
  have e3 : c3 = v := by
    apply Vector.eq_of_elements (by omega) hW3.1 hv.1
    intro p hp
    rw [hv3 p (by omega), hv2 p (by omega)]
    exact add_self_div_two _
  subst e3
  obtain ⟨c4, h4, hW4, hn4, hv4⟩ := Vector.minus_assign_spec c3 c3 hv hv rfl
  have hZ : (Vector.mk c3.n_el (List.replicate c3.n_el (0 : K))).WF :=
    ⟨by simp, hv.2⟩
  have e4 : c4 = ⟨c3.n_el, List.replicate c3.n_el 0⟩ := by
    refine @Vector.eq_of_elements K _ c4 ⟨c3.n_el, List.replicate c3.n_el 0⟩ hn4 hW4.1
      hZ.1 ?_
    intro p hp
    rw [hv4 p (by omega), sub_self]
    show (0 : K) = (List.replicate c3.n_el (0 : K)).getD p 0
    rw [List.getD_eq_getElem _ 0 (by simp; omega)]
    simp
  refine ⟨c3, c2, c3, c4, ⟨c3.n_el, List.replicate c3.n_el 0⟩, Vector.copy_of_WF_vec hv,
    Vector.equal_of_data hv rfl rfl, h2, ?_, ?_, Vector.equal_of_data hv rfl rfl, h4, hn4, ?_,
    Vector.construct_zero_eq _ _, ?_⟩
  · intro i hi
    rw [hv2 i hi, two_mul]
  · exact h3
  · rw [e4]
    intro x hx
    exact List.eq_of_mem_replicate hx
  · exact Vector.equal_of_data hZ hn4 (by rw [e4])

theorem C34_witness :
    ∃ c c2 c3 c4 Z : Vector ℚ, (Vector.mk 3 [(0 : ℚ), 1, 2]).copy = .ok c
      ∧ c.equal ⟨3, [0, 1, 2]⟩ = .ok true
      ∧ c.plus_assign true c = .ok c2
      ∧ (∀ i, i < 3 → c2.data.getD i 0 = 2 * ([0, 1, 2] : List ℚ).getD i 0)
      ∧ c2.div_assign 2 = .ok c3 ∧ c3.equal ⟨3, [0, 1, 2]⟩ = .ok true
      ∧ c3.minus_assign ⟨3, [0, 1, 2]⟩ = .ok c4 ∧ c4.n_el = 3 ∧ (∀ x ∈ c4.data, x = 0)
      ∧ Vector.construct 3 true (fun _ => 7) = .ok Z ∧ c4.equal Z = .ok true :=
  C34_vector_copy_round_trip ℚ ⟨3, [0, 1, 2]⟩ ⟨rfl, by decide⟩ (fun _ => 7)

/-- C36: the list constructor applied to a list of fewer than `2^32` items
yields a vector whose length is the list length and whose `i`-th component is
the `i`-th list item (5 components for a list of five); and for a vector in any
state and any `unsigned int` `m`, `reinit (m)` leaves a vector of length `m`
(`n_rows () == size () == m`) with every component zero: the 4-vector holding
`0, 1, 2, 3` becomes the 2-vector `{0, 0}` after `reinit (2)`. -/
theorem C36_vector_construct_and_reinit (K : Type) [Zero K] (list : List K) (self : Vector K)
    (m : Nat) (uninit : Nat → K) (hlist : list.length < UINT_RANGE) (hm : m < UINT_RANGE) :
    (∃ v : Vector K, Vector.construct_list list = .ok v ∧ v.WF ∧ v.n_rows = list.length
      ∧ v.size = list.length ∧ v.data = list ∧ ∀ i, i < list.length → v.get i = fetch list i)
    ∧ (∀ a b c d e : K, ∃ v : Vector K,
        Vector.construct_list [a, b, c, d, e] = .ok v ∧ v.n_rows = 5)
    ∧ (∃ R : Vector K, self.reinit m true uninit = .ok R ∧ R.WF ∧ R.n_rows = m ∧ R.size = m
        ∧ (∀ x ∈ R.data, x = 0) ∧ ∀ i, i < m → R.get i = .ok 0)
    ∧ ∀ a b c d : K, (Vector.mk 4 [a, b, c, d]).reinit 2 true uninit = .ok ⟨2, [0, 0]⟩ := by
  have hR : (Vector.mk m (List.replicate m (0 : K))).WF := ⟨by simp, hm⟩
  refine ⟨⟨⟨list.length, list⟩, Vector.construct_list_eq list hlist, ⟨rfl, hlist⟩, rfl, rfl,
    rfl, fun i hi => ?_⟩, fun a b c d e => ⟨⟨5, [a, b, c, d, e]⟩, rfl, rfl⟩,
    ⟨⟨m, List.replicate m 0⟩, Vector.reinit_zero_fill self m uninit, hR, rfl, rfl,
      fun x hx => List.eq_of_mem_replicate hx, fun i hi => ?_⟩, fun a b c d => rfl⟩
  · unfold Vector.get
    rw [assert_bind_of (show i < list.length from hi)]
  · rw [Vector.get_of_lt hR hi]
    congr 1
    show (List.replicate m (0 : K)).getD i 0 = 0
    rw [List.getD_eq_getElem _ 0 (by simp; omega)]
    simp

theorem C36_witness :
    ∃ R : Vector ℚ, (Vector.mk 4 [(0 : ℚ), 1, 2, 3]).reinit 2 true (fun _ => 7) = .ok R ∧ R.WF
      ∧ R.n_rows = 2 ∧ R.size = 2
      ∧ (∀ x ∈ R.data, x = 0) ∧ ∀ i, i < 2 → R.get i = .ok 0 :=
  (C36_vector_construct_and_reinit ℚ [1, 11 / 10, 12 / 10, 13 / 10, 14 / 10] ⟨4, [0, 1, 2, 3]⟩ 2
    (fun _ => 7) (by decide) (by decide)).2.2.1

namespace Vector

variable {K : Type}

theorem l2_normalize_eq [Field K] [DecidableEq K] (sqrt : K → K) {v : Vector K} (hv : v.WF) :
    v.l2_normalize sqrt
      = (assert (sqrt ((Finset.range v.n_el).sum
            (fun i => v.data.getD i 0 * v.data.getD i 0)) ≠ 0) >>= fun _ =>
          forLoop (fun i (self : Vector K) => do
            let c ← fetch self.data i
            let data ← store self.data i
              (c / sqrt ((Finset.range v.n_el).sum
                (fun i => v.data.getD i 0 * v.data.getD i 0)))
            return { self with data := data }) v.n_el v) := by
  unfold l2_normalize
  rw [l2_norm_eq sqrt hv]
  rfl

theorem lp_normalize_eq [Field K] (pow : K → K → K) {v : Vector K} {p : Nat} {t : K}
    (h : v.lp_norm pow p = .ok t) :
    v.lp_normalize pow p
      = forLoop (fun i (self : Vector K) => do
          let c ← fetch self.data i
          let data ← store self.data i (c / t)
          return { self with data := data }) v.n_el v := by
  unfold lp_normalize
  rw [h]
  rfl

theorem sum_squares_eq_zero_iff [LinearOrderedField K] (v : Vector K) (hv : v.WF) :
    (Finset.range v.n_el).sum (fun i => v.data.getD i 0 * v.data.getD i 0) = 0
      ↔ ∀ x ∈ v.data, x = 0 := by
  rw [Finset.sum_eq_zero_iff_of_nonneg (fun i _ => mul_self_nonneg _)]
  constructor
  · intro h x hx
    obtain ⟨p, hp, rfl⟩ := List.getElem_of_mem hx
    have := h p (Finset.mem_range.2 (by rw [← hv.1]; exact hp))
    rw [List.getD_eq_getElem _ 0 hp] at this
    exact mul_self_eq_zero.1 this
  · intro h i hi
    rw [Finset.mem_range, ← hv.1] at hi
    rw [List.getD_eq_getElem _ 0 hi, h _ (List.getElem_mem _), mul_zero]

end Vector

/-- C31 (amended): over exact arithmetic (an ordered field), with `std::sqrt`
returning the exact non-negative square root of a non-negative argument,
`std::pow` the exact power for a positive integer exponent, and `s` the value
of `l2_norm ()` on a well-formed vector `x`: if `s` is not zero,
`l2_normalize ()` replaces each component `x_i` by `x_i / s`, the length
unchanged, after which `l2_norm ()` equals `1`; if `s` is zero, which is the
case exactly when every component is zero (so for length 0),
`l2_normalize ()` fails at the assertion. `lp_normalize (p)` with `p > 0`
asserts nothing about the norm: it returns, the length unchanged, also for
`{-3, 3}` and `p = 1`, where `lp_norm (p)` is zero, and when that norm is not
zero every component is the quotient by it. -/
theorem C31_normalize_guards (K : Type) [LinearOrderedField K] (sqrt : K → K)
    (pow : K → K → K) (hsqrt : ∀ x, 0 ≤ x → 0 ≤ sqrt x ∧ sqrt x * sqrt x = x)
    (hpow : ∀ (x : K) (n : Nat), 0 < n → pow x (n : K) = x ^ n) (v : Vector K) (hv : v.WF) :
    ∃ s : K, v.l2_norm sqrt = .ok s
      ∧ (s ≠ 0 → ∃ R : Vector K, v.l2_normalize sqrt = .ok R ∧ R.n_el = v.n_el
          ∧ (∀ i, i < v.n_el → R.data.getD i 0 = v.data.getD i 0 / s)
          ∧ R.l2_norm sqrt = .ok 1)
      ∧ (s = 0 → v.l2_normalize sqrt = .error .assertion)
      ∧ (s = 0 ↔ ∀ x ∈ v.data, x = 0)
      ∧ (∀ p, 0 < p → ∃ (t : K) (R : Vector K), v.lp_norm pow p = .ok t
          ∧ v.lp_normalize pow p = .ok R ∧ R.n_el = v.n_el
          ∧ (t ≠ 0 → ∀ i, i < v.n_el → R.data.getD i 0 = v.data.getD i 0 / t))
      ∧ (Vector.mk 2 [(-3 : K), 3]).lp_norm pow 1 = .ok 0
      ∧ ∃ R : Vector K, (Vector.mk 2 [(-3 : K), 3]).lp_normalize pow 1 = .ok R := by
  have hnn : 0 ≤ (Finset.range v.n_el).sum (fun i => v.data.getD i 0 * v.data.getD i 0) :=
    Finset.sum_nonneg (fun i _ => mul_self_nonneg _)
  obtain ⟨hs0, hss⟩ := hsqrt _ hnn
  have hone : sqrt 1 = 1 := by
    obtain ⟨h1, h2⟩ := hsqrt 1 zero_le_one
    exact (mul_self_inj_of_nonneg h1 zero_le_one).1 (by rw [h2, mul_one])
  have hlp : ∀ (w : Vector K), w.WF → ∀ p, 0 < p → ∃ (t : K) (R : Vector K),
      w.lp_norm pow p = .ok t ∧ w.lp_normalize pow p = .ok R ∧ R.n_el = w.n_el
        ∧ ∀ i, i < w.n_el → R.data.getD i 0 = w.data.getD i 0 / t := by
    intro w hw p hp
    have ht := Vector.lp_norm_eq pow hw hp
    obtain ⟨R, h1, _, h3, h4⟩ := Vector.divide_loop w
      (pow ((Finset.range w.n_el).sum (fun i => pow (w.data.getD i 0) (p : K)))
        (1 / (p : K))) hw
    exact ⟨_, R, ht, by rw [Vector.lp_normalize_eq pow ht]; exact h1, h3, h4⟩
  have hlpv : ∀ p, 0 < p → ∃ (t : K) (R : Vector K), v.lp_norm pow p = .ok t
      ∧ v.lp_normalize pow p = .ok R ∧ R.n_el = v.n_el
      ∧ (t ≠ 0 → ∀ i, i < v.n_el → R.data.getD i 0 = v.data.getD i 0 / t) := by
    intro p hp
    obtain ⟨t, R, a1, a2, a3, a4⟩ := hlp v hv p hp
    exact ⟨t, R, a1, a2, a3, fun _ => a4⟩
  refine ⟨_, Vector.l2_norm_eq sqrt hv, ?_, ?_, ?_, hlpv, ?_, ?_⟩
  · intro hs
    obtain ⟨R, h1, h2, h3, h4⟩ := Vector.divide_loop v
      (sqrt ((Finset.range v.n_el).sum (fun i => v.data.getD i 0 * v.data.getD i 0))) hv
    refine ⟨R, ?_, h3, h4, ?_⟩
    · rw [Vector.l2_normalize_eq sqrt hv, assert_bind_of hs]
      exact h1
    · rw [Vector.l2_norm_eq sqrt h2, h3]
      congr 1
      rw [← hone]
      congr 1
      rw [Finset.sum_congr rfl (fun i hi => by
        rw [h4 i (Finset.mem_range.1 hi), div_mul_div_comm])]
      rw [← Finset.sum_div, hss]
      exact div_self (by rw [← hss]; exact mul_ne_zero hs hs)
  · intro hs
    rw [Vector.l2_normalize_eq sqrt hv]
    exact assert_bind_of_not (fun h => h hs) _
  · rw [← Vector.sum_squares_eq_zero_iff v hv]
    constructor
    · intro h
      rw [← hss, h, mul_zero]
    · intro h
      exact mul_self_eq_zero.1 (hss.trans h)
  · rw [Vector.lp_norm_eq pow (Vector.wf_pair (-3 : K) 3) (show 1 > 0 by decide)]
    show Except.ok (pow ((Finset.range 2).sum
      (fun i => pow (([(-3 : K), 3]).getD i 0) ((1 : Nat) : K))) (1 / ((1 : Nat) : K))) = _
    congr 1
    have h1 : (1 : K) / ((1 : Nat) : K) = ((1 : Nat) : K) := by simp
    rw [h1, hpow _ 1 (by decide), pow_one]
    simp only [Finset.sum_range_succ, Finset.sum_range_zero, List.getD_cons_zero,
      List.getD_cons_succ]
    rw [hpow _ 1 (by decide), hpow _ 1 (by decide)]
    norm_num
  · obtain ⟨t, R, _, h, _⟩ := hlp _ (Vector.wf_pair (-3 : K) 3) 1 (by decide)
    exact ⟨R, h⟩

theorem C31_witness :
    ∃ s : ℝ, (Vector.mk 2 [(3 : ℝ), 4]).l2_norm Real.sqrt = .ok s
      ∧ (s ≠ 0 → ∃ R : Vector ℝ, (Vector.mk 2 [(3 : ℝ), 4]).l2_normalize Real.sqrt = .ok R
          ∧ R.n_el = 2
          ∧ (∀ i, i < 2 → R.data.getD i 0 = ([3, 4] : List ℝ).getD i 0 / s)
          ∧ R.l2_norm Real.sqrt = .ok 1)
      ∧ (s = 0 → (Vector.mk 2 [(3 : ℝ), 4]).l2_normalize Real.sqrt = .error .assertion)
      ∧ (s = 0 ↔ ∀ x ∈ ([3, 4] : List ℝ), x = 0) := by
  obtain ⟨s, h1, h2, h3, h4, _⟩ := C31_normalize_guards ℝ Real.sqrt (fun x y => x ^ y)
    (fun x hx => ⟨Real.sqrt_nonneg x, Real.mul_self_sqrt hx⟩)
    (fun x n _ => Real.rpow_natCast x n) ⟨2, [3, 4]⟩ ⟨rfl, by decide⟩
  exact ⟨s, h1, h2, h3, h4⟩

/-! ## Matrix and tensor conversions: lemmas -/

namespace Matrix

variable {K : Type}

theorem minus_assign_spec_mat [Field K] (self M : Matrix K) (hs : self.WF) (hM : M.WF)
    (hr : M.n_rows = self.n_rows) (hc : M.n_cols = self.n_cols) :
    ∃ R : Matrix K, self.minus_assign M = .ok R ∧ R.WF ∧ R.n_rows = self.n_rows
      ∧ R.n_cols = self.n_cols
      ∧ ∀ i j, i < self.n_rows → j < self.n_cols → R.val i j = self.val i j - M.val i j := by
  have hlM : M.data.length = self.data.length := by rw [hM.1, hs.1, hr, hc]
  obtain ⟨R, h1, h2, h3, h4⟩ := map_loop_on (fun S : Matrix K => S.data)
    (fun S₀ S => S.n_rows = S₀.n_rows ∧ S.n_cols = S₀.n_cols)
    (fun i (self : Matrix K) => do
      let y ← fetch M.data i
      let c ← fetch self.data i
      let data ← store self.data i (c - y)
      return { self with data := data })
    (fun i x => x - M.data.getD i 0) self ⟨rfl, rfl⟩
    (by
      intro i S hi hl hsame
      refine ⟨⟨S.n_rows, S.n_cols, S.data.set i (S.data.getD i 0 - M.data.getD i 0)⟩, ?_, rfl,
        hsame⟩
      simp only at hi hl
      simp only [fetch_eq_getD (show i < M.data.length by omega) 0,
        fetch_eq_getD (show i < S.data.length by omega) 0,
        store_of_lt (show i < S.data.length by omega), bind, Except.bind, pure, Except.pure])
    self.data.length (le_refl _)
  have hWF : R.WF := ⟨by rw [h3, hs.1, h2.1, h2.2], by rw [h2.1, h2.2]; exact hs.2⟩
  refine ⟨R, ?_, hWF, h2.1, h2.2, ?_⟩
  · unfold minus_assign
    rw [assert_bind_of hr, assert_bind_of hc, Nat.mod_eq_of_lt hs.2, ← hs.1]
    exact h1
  · intro i j hi hj
    obtain ⟨_, hlt⟩ := offset_eq hs hi hj
    rw [val_eq hWF (by omega) (by omega), val_eq hs hi hj,
      val_eq hM (by omega) (by omega), h2.2, hc, h4 _ hlt, if_pos hlt]

theorem val_const_matrix [Zero K] (r c : Nat) (x : K) (hfit : r * c < UINT_RANGE) {i j : Nat}
    (hi : i < r) (hj : j < c) : (Matrix.mk r c (List.replicate (r * c) x)).val i j = x := by
  have hWF : (Matrix.mk r c (List.replicate (r * c) x)).WF := ⟨by simp, hfit⟩
  rw [val_eq hWF hi hj]
  obtain ⟨_, hlt⟩ := offset_eq hWF hi hj
  show (List.replicate (r * c) x).getD (c * i + j) 0 = x
  rw [List.getD_eq_getElem _ 0 hlt]
  simp

/-- What `Matrix::Tmult` does on square operands of one size. -/
theorem Tmult_spec [Field K] (R A B : Matrix K) (hR : R.WF) (hA : A.WF) (hB : B.WF)
    (hsq : A.n_rows = A.n_cols) (h1 : A.n_rows = B.n_rows) (h2 : A.n_cols = B.n_cols)
    (hr : R.n_rows = A.n_rows) (hc : R.n_cols = A.n_rows) :
    ∃ R' : Matrix K, R.Tmult A B = .ok R' ∧ R'.WF ∧ R'.n_rows = R.n_rows
      ∧ R'.n_cols = R.n_cols
      ∧ ∀ i j, i < A.n_rows → j < A.n_rows →
          R'.val i j
            = R.val i j + (Finset.range A.n_rows).sum (fun t => A.val t i * B.val t j) := by
  obtain ⟨R', hloop, hWF, hr', hc', hval⟩ :=
    product_loops (fun i _ k => A.get k i) (fun _ j k => B.get k j)
      (fun i _ k => A.val k i) (fun _ j k => B.val k j) A.n_rows B.n_cols B.n_rows
      (fun i j k hi _ hk => get_eq_val hA (by omega) (by omega))
      (fun i j k _ hj hk => get_eq_val hB hk hj)
      R hR (by omega) (by omega)
  refine ⟨R', ?_, hWF, hr', hc', ?_⟩
  · unfold Tmult
    rw [assert_bind_of h1, assert_bind_of h2]
    exact hloop
  · intro i j hi hj
    rw [hval i j (by omega) (by omega), if_pos ⟨hi, by omega⟩, ← h1]

/-- What `Matrix::multT` does on square operands of one size. -/
theorem multT_spec [Field K] (R A B : Matrix K) (hR : R.WF) (hA : A.WF) (hB : B.WF)
    (hsq : A.n_rows = A.n_cols) (h1 : A.n_rows = B.n_rows) (h2 : A.n_cols = B.n_cols)
    (hr : R.n_rows = A.n_rows) (hc : R.n_cols = A.n_rows) :
    ∃ R' : Matrix K, R.multT A B = .ok R' ∧ R'.WF ∧ R'.n_rows = R.n_rows
      ∧ R'.n_cols = R.n_cols
      ∧ ∀ i j, i < A.n_rows → j < A.n_rows →
          R'.val i j
            = R.val i j + (Finset.range A.n_rows).sum (fun t => A.val i t * B.val j t) := by
  obtain ⟨R', hloop, hWF, hr', hc', hval⟩ :=
    product_loops (fun i _ k => A.get i k) (fun _ j k => B.get j k)
      (fun i _ k => A.val i k) (fun _ j k => B.val j k) A.n_rows B.n_cols B.n_rows
      (fun i j k hi _ hk => get_eq_val hA hi (by omega))
      (fun i j k _ hj hk => get_eq_val hB (by omega) (by omega))
      R hR (by omega) (by omega)
  refine ⟨R', ?_, hWF, hr', hc', ?_⟩
  · unfold multT
    rw [assert_bind_of h1, assert_bind_of h2]
    exact hloop
  · intro i j hi hj
    rw [hval i j (by omega) (by omega), if_pos ⟨hi, by omega⟩, ← h1]

/-- Accumulating `B * I` into a zero matrix, where `I` holds the identity
pattern, gives `B`. -/
theorem mult_identity_right [Field K] {I B : Matrix K} (hI : I.WF) (hB : B.WF)
    (hIr : I.n_rows = I.n_cols) (hBr : B.n_rows = I.n_rows) (hBc : B.n_cols = I.n_rows)
    (hval : ∀ i j, i < I.n_rows → j < I.n_rows → I.val i j = if i = j then 1 else 0) :
    (Matrix.mk B.n_rows B.n_cols (List.replicate (B.n_rows * B.n_cols) 0)).mult B I
      = .ok B := by
  have hR : (Matrix.mk B.n_rows B.n_cols (List.replicate (B.n_rows * B.n_cols) (0 : K))).WF :=
    ⟨by simp, hB.2⟩
  obtain ⟨R', hmult, hWF, hr', hc', hv⟩ :=
    mult_spec (Matrix.mk B.n_rows B.n_cols (List.replicate (B.n_rows * B.n_cols) 0)) B I
      hR hB hI (by omega) (by omega) rfl (by show B.n_cols = I.n_cols; omega)
  rw [hmult]
  congr 1
  apply eq_of_val hWF hB hr' hc'
  intro i j hi hj
  rw [hr'] at hi
  rw [hc'] at hj
  dsimp only at hi hj
  rw [hv i j hi (by omega), val_zero_matrix _ _ hB.2 hi hj, zero_add]
  rw [Finset.sum_eq_single j]
  · rw [hval j j (by omega) (by omega), if_pos rfl, mul_one]
  · intro t ht hne
    rw [Finset.mem_range] at ht
    rw [hval t j (by omega) (by omega), if_neg hne, mul_zero]
  · intro h
    rw [Finset.mem_range] at h
    omega

theorem transpose_spec_WF [Zero K] {A : Matrix K} (hA : A.WF) : A.transpose_spec.WF :=
  ⟨by simp [transpose_spec], by
    show A.n_cols * A.n_rows < UINT_RANGE
    rw [Nat.mul_comm]; exact hA.2⟩

theorem transpose_spec_val [Zero K] {A : Matrix K} (hA : A.WF) {i j : Nat}
    (hi : i < A.n_cols) (hj : j < A.n_rows) : A.transpose_spec.val i j = A.val j i := by
  have hW := transpose_spec_WF hA
  have hi' : i < A.transpose_spec.n_rows := hi
  have hj' : j < A.transpose_spec.n_cols := hj
  obtain ⟨_, hlt⟩ := offset_eq hW hi' hj'
  rw [val_eq hW hi' hj', List.getD_eq_getElem _ 0 hlt]
  show ((List.range (A.n_cols * A.n_rows)).map
    (fun p => A.val (p % A.n_rows) (p / A.n_rows)))[A.n_rows * i + j] = _
  rw [List.getElem_map, List.getElem_range]
  have hpos : 0 < A.n_rows := by omega
  rw [Nat.mul_add_mod, Nat.mod_eq_of_lt hj, Nat.mul_add_div hpos, Nat.div_eq_of_lt hj,
    Nat.add_zero]

end Matrix

namespace Tensor

variable {dim : Nat} {K : Type}

theorem linear_sum_pair (dim i j : Nat) : linear_sum dim 2 [i, j] = i + j * dim := by
  simp [linear_sum, Finset.sum_range_succ]

theorem val_eq_getD [Zero K] {T : Tensor dim 2 K} (hT : T.Sized) {i j : Nat} (hi : i < dim)
    (hj : j < dim) : T.val i j = T.data.getD (i + j * dim) 0 := by
  have h := value_eq hT (by decide) (valid_two hi hj)
  rw [linear_sum_pair] at h
  exact h

end Tensor

namespace Matrix

variable {K : Type}

theorem construct_from_tensor_eq {dim : Nat} {T : Tensor dim 2 K} (hT : T.Sized) :
    construct_from_tensor T = .ok ⟨dim, dim, T.data⟩ := by
  have hfit := Tensor.fit_of_Sized hT
  have hl : T.data.length = dim * dim := by rw [hT.1.2, hT.2, sq]
  rw [sq] at hfit
  by_cases h0 : dim = 0
  · subst h0
    have : T.data = [] := List.length_eq_zero.mp (by rw [hl])
    simp [construct_from_tensor, this]
  · simp only [construct_from_tensor, ne_eq, h0, not_false_eq_true, and_self, if_true,
      Nat.mod_eq_of_lt hfit, hl, le_refl]
    rw [List.take_of_length_le (by rw [hl])]

theorem from_tensor_WF {dim : Nat} {T : Tensor dim 2 K} (hT : T.Sized) :
    (Matrix.mk dim dim T.data).WF := by
  have hfit := Tensor.fit_of_Sized hT
  rw [sq] at hfit
  exact ⟨by show T.data.length = dim * dim; rw [hT.1.2, hT.2, sq], hfit⟩

/-- On square operands `Tmult (A, B)` returns what `mult` returns on the
transpose of `A` and `B`. -/
theorem Tmult_eq_mult_transpose [Field K] (R A B : Matrix K) (hR : R.WF) (hA : A.WF)
    (hB : B.WF) (hsq : A.n_rows = A.n_cols) (h1 : A.n_rows = B.n_rows)
    (h2 : A.n_cols = B.n_cols) (hr : R.n_rows = A.n_rows) (hc : R.n_cols = A.n_rows) :
    R.mult A.transpose_spec B = R.Tmult A B := by
  obtain ⟨Q, hQ, hQW, hQr, hQc, hQv⟩ := Tmult_spec R A B hR hA hB hsq h1 h2 hr hc
  have hTW := transpose_spec_WF hA
  have g1 : A.transpose_spec.n_rows = B.n_cols := h2
  have g2 : A.transpose_spec.n_cols = B.n_rows := h1
  have g3 : R.n_rows = A.transpose_spec.n_rows := hr.trans hsq
  have g4 : R.n_cols = B.n_cols := hc.trans (hsq.trans h2)
  obtain ⟨Q', hQ', hQW', hQr', hQc', hQv'⟩ := mult_spec R A.transpose_spec B hR hTW hB g1 g2 g3 g4
  rw [hQ', hQ]
  congr 1
  apply eq_of_val hQW' hQW (hQr'.trans hQr.symm) (hQc'.trans hQc.symm)
  intro i j hi hj
  have hi1 : i < A.n_rows := by rw [hQr', hr] at hi; exact hi
  have hj1 : j < A.n_rows := by rw [hQc', hc] at hj; exact hj
  have hi2 : i < A.transpose_spec.n_rows := by rw [hQr'] at hi; rw [← g3]; exact hi
  have hj2 : j < B.n_cols := by rw [hQc'] at hj; rw [← g4]; exact hj
  rw [hQv' i j hi2 hj2, hQv i j hi1 hj1]
  congr 1
  show (Finset.range A.n_rows).sum _ = _
  apply Finset.sum_congr rfl
  intro t ht
  rw [transpose_spec_val hA (hsq ▸ hi1) (Finset.mem_range.1 ht)]

end Matrix

/-- The two inversion routines and the conversion constructor in dimension
one. -/
theorem invert_agree_one {K : Type} [Field K] [DecidableEq K] (x a : K) (R : Matrix K) :
    ((∃ X, (Tensor.mk 1 [x] : Tensor 1 2 K).invert ⟨1, [a]⟩ = .ok X)
      ↔ ∃ Y, R.invert ⟨1, 1, [a]⟩ = .ok Y)
    ∧ ∀ X Y, (Tensor.mk 1 [x] : Tensor 1 2 K).invert ⟨1, [a]⟩ = .ok X →
        R.invert ⟨1, 1, [a]⟩ = .ok Y → Matrix.construct_from_tensor X = .ok Y := by
  have ht : (Tensor.mk 1 [x] : Tensor 1 2 K).invert ⟨1, [a]⟩
      = if a = 0 then .error .assertion else .ok ⟨1, [1 / a]⟩ :=
    Tensor.invert_impl_one false x a
  rw [ht, Matrix.invert_one]
  by_cases h0 : a = 0
  · rw [if_pos h0, if_pos h0]
    exact ⟨⟨fun ⟨_, h⟩ => (by cases h), fun ⟨_, h⟩ => (by cases h)⟩, fun _ _ h => (by cases h)⟩
  · rw [if_neg h0, if_neg h0]
    refine ⟨⟨fun _ => ⟨_, rfl⟩, fun _ => ⟨_, rfl⟩⟩, ?_⟩
    intro X Y hX hY
    cases hX
    cases hY
    rfl

/-- The two inversion routines and the conversion constructor in dimension
two. -/
theorem invert_agree_two {K : Type} [Field K] [DecidableEq K] (x0 x1 x2 x3 a b c d : K)
    (R : Matrix K) :
    ((∃ X, (Tensor.mk 4 [x0, x1, x2, x3] : Tensor 2 2 K).invert ⟨4, [a, b, c, d]⟩ = .ok X)
      ↔ ∃ Y, R.invert ⟨2, 2, [a, b, c, d]⟩ = .ok Y)
    ∧ ∀ X Y, (Tensor.mk 4 [x0, x1, x2, x3] : Tensor 2 2 K).invert ⟨4, [a, b, c, d]⟩ = .ok X →
        R.invert ⟨2, 2, [a, b, c, d]⟩ = .ok Y → Matrix.construct_from_tensor X = .ok Y := by
  have hdet : a * d - c * b = a * d - b * c := by ring
  rw [Tensor.invert_dim_two, Matrix.invert_two, hdet]
  by_cases h0 : a * d - b * c = 0
  · rw [if_pos h0, if_pos h0]
    exact ⟨⟨fun ⟨_, h⟩ => (by cases h), fun ⟨_, h⟩ => (by cases h)⟩, fun _ _ h => (by cases h)⟩
  · rw [if_neg h0, if_neg h0]
    refine ⟨⟨fun _ => ⟨_, rfl⟩, fun _ => ⟨_, rfl⟩⟩, ?_⟩
    intro X Y hX hY
    cases hX
    cases hY
    rfl

/-- The two inversion routines and the conversion constructor in dimension
three. -/
theorem invert_agree_three {K : Type} [Field K] [DecidableEq K]
    (x0 x1 x2 x3 x4 x5 x6 x7 x8 a b c d e f g h k : K) (R : Matrix K) :
    ((∃ X, (Tensor.mk 9 [x0, x1, x2, x3, x4, x5, x6, x7, x8] : Tensor 3 2 K).invert
        ⟨9, [a, b, c, d, e, f, g, h, k]⟩ = .ok X)
      ↔ ∃ Y, R.invert ⟨3, 3, [a, b, c, d, e, f, g, h, k]⟩ = .ok Y)
    ∧ ∀ X Y, (Tensor.mk 9 [x0, x1, x2, x3, x4, x5, x6, x7, x8] : Tensor 3 2 K).invert
          ⟨9, [a, b, c, d, e, f, g, h, k]⟩ = .ok X →
        R.invert ⟨3, 3, [a, b, c, d, e, f, g, h, k]⟩ = .ok Y →
        Matrix.construct_from_tensor X = .ok Y := by
  have e1 : k * e - f * h = k * e - h * f := by ring
  have e2 : k * b - c * h = k * b - h * c := by ring
  have e3 : f * b - c * e = f * b - e * c := by ring
  have e4 : k * d - f * g = k * d - g * f := by ring
  have e5 : k * a - c * g = k * a - g * c := by ring
  have e6 : f * a - c * d = f * a - d * c := by ring
  have e7 : h * d - e * g = h * d - g * e := by ring
  have e8 : h * a - b * g = h * a - g * b := by ring
  have e9 : e * a - b * d = e * a - d * b := by ring
  have hdet : a * (k * e - h * f) - b * (k * d - g * f) + c * (h * d - g * e)
      = a * (k * e - h * f) - d * (k * b - h * c) + g * (f * b - e * c) := by ring
  rw [Tensor.invert_dim_three, Matrix.invert_three, e1, e2, e3, e4, e5, e6, e7, e8, e9, hdet]
  generalize a * (k * e - h * f) - d * (k * b - h * c) + g * (f * b - e * c) = det
  generalize k * e - h * f = m0
  generalize k * b - h * c = m1
  generalize f * b - e * c = m2
  generalize k * d - g * f = m3
  generalize k * a - g * c = m4
  generalize f * a - d * c = m5
  generalize h * d - g * e = m6
  generalize h * a - g * b = m7
  generalize e * a - d * b = m8
  by_cases h0 : det = 0
  · rw [if_pos h0, if_pos h0]
    exact ⟨⟨fun ⟨_, h⟩ => (by cases h), fun ⟨_, h⟩ => (by cases h)⟩, fun _ _ h => (by cases h)⟩
  · rw [if_neg h0, if_neg h0]
    refine ⟨⟨fun _ => ⟨_, rfl⟩, fun _ => ⟨_, rfl⟩⟩, ?_⟩
    intro X Y hX hY
    cases hX
    cases hY
    rfl

/-! ## Matrix and tensor conversions: the claims -/

/-- C35 (amended): for every `n >= 0` with `n*n` representable as
`unsigned int`, with `I` the `n x n` matrix after `identity ()` and `J` the
`n x n` matrix of all ones: `I -= J` returns and leaves `-1` at every
off-diagonal element (`i != j`) and `0` at every diagonal element, so the
vector that `diag ()` fills from the result, whatever the vector of length `n`
held before, is equal (`operator ==`) to the zero-initialised vector of
length `n`. -/
theorem C35_identity_minus_ones (K : Type) [Field K] [DecidableEq K] (n : Nat) (M : Matrix K)
    (y : Vector K) (hM : M.WF) (hr : M.n_rows = n) (hc : M.n_cols = n) (hy : y.WF)
    (hyn : y.n_el = n) (uninit : Nat → K) :
    ∃ (I D : Matrix K) (x0 x : Vector K), M.identity = .ok I
      ∧ I.minus_assign ⟨n, n, List.replicate (n * n) 1⟩ = .ok D
      ∧ (∀ i j, i < n → j < n → D.val i j = if i = j then 0 else -1)
      ∧ Vector.construct n true uninit = .ok x0
      ∧ y.diag D = .ok x
      ∧ (∀ i, i < n → x.get i = .ok 0)
      ∧ x.equal x0 = .ok true := by
  subst hr
  have hfit : M.n_rows * M.n_rows < UINT_RANGE := by
    have := hM.2
    rw [hc] at this
    exact this
  have hn : M.n_rows < UINT_RANGE := by
    have := Matrix.side_lt_of_square_lt hfit
    omega
  obtain ⟨I, hI, hIW, hIr, hIc, _, hIv⟩ := Matrix.identity_spec hM hc.symm
  have hJ : (Matrix.mk M.n_rows M.n_rows (List.replicate (M.n_rows * M.n_rows) (1 : K))).WF :=
    ⟨by simp, hfit⟩
  obtain ⟨D, hD, hDW, hDr, hDc, hDv⟩ := Matrix.minus_assign_spec_mat I
    ⟨M.n_rows, M.n_rows, List.replicate (M.n_rows * M.n_rows) 1⟩ hIW hJ hIr.symm
    (by rw [hIc, hc])
  have hx0 : (Vector.mk M.n_rows (List.replicate M.n_rows (0 : K))).WF := ⟨by simp, hn⟩
  obtain ⟨x, hx, hxW, hxn, hxv⟩ := Vector.diag_spec y D hy hDW
    (by rw [hDr, hDc, hIr, hIc, hc]) (by rw [hDr, hIr, hyn])
  rw [hyn] at hxn hxv
  have hDval : ∀ i j, i < M.n_rows → j < M.n_rows → D.val i j = if i = j then 0 else -1 := by
    intro i j hi hj
    rw [hDv i j (by omega) (by omega), hIv i j hi hj,
      Matrix.val_const_matrix _ _ _ hfit hi hj]
    by_cases h : i = j
    · rw [if_pos h, if_pos h, sub_self]
    · rw [if_neg h, if_neg h, zero_sub]
  have hxz : ∀ p, p < M.n_rows → x.data.getD p 0 = 0 := by
    intro p hp
    rw [hxv p hp, hDval p p hp hp, if_pos rfl]
  have ex : x = ⟨M.n_rows, List.replicate M.n_rows 0⟩ := by
    refine @Vector.eq_of_elements K _ x ⟨M.n_rows, List.replicate M.n_rows 0⟩ hxn hxW.1
      hx0.1 ?_
    intro p hp
    rw [hxn] at hp
    rw [hxz p hp]
    show (0 : K) = (List.replicate M.n_rows (0 : K)).getD p 0
    rw [List.getD_eq_getElem _ 0 (by simp; exact hp)]
    simp
  refine ⟨I, D, ⟨M.n_rows, List.replicate M.n_rows 0⟩, x, hI, hD, hDval,
    Vector.construct_zero_eq _ _, hx, ?_, ?_⟩
  · intro i hi
    rw [Vector.get_of_lt hxW (by rw [hxn]; exact hi), hxz i hi]
  · exact Vector.equal_of_data hx0 hxn (by rw [ex])

theorem C35_witness :
    ∃ (I D : Matrix ℚ) (x0 x : Vector ℚ), (Matrix.mk 3 3 [9, 9, 9, 9, 9, 9, 9, 9, 9]).identity
        = .ok I
      ∧ I.minus_assign ⟨3, 3, List.replicate (3 * 3) 1⟩ = .ok D
      ∧ (∀ i j, i < 3 → j < 3 → D.val i j = if i = j then 0 else -1)
      ∧ Vector.construct 3 true (fun _ => 7) = .ok x0
      ∧ (Vector.mk 3 [(5 : ℚ), 6, 7]).diag D = .ok x
      ∧ (∀ i, i < 3 → x.get i = .ok 0)
      ∧ x.equal x0 = .ok true :=
  C35_identity_minus_ones ℚ 3 ⟨3, 3, [9, 9, 9, 9, 9, 9, 9, 9, 9]⟩ ⟨3, [5, 6, 7]⟩
    ⟨rfl, by decide⟩ rfl rfl ⟨rfl, by decide⟩ rfl (fun _ => 7)

/-- C37 (amended): for every `dim` with `dim^2` representable as
`unsigned int`, building a matrix from a rank-2 tensor `T` (in the state the
constructors leave) by buffer copy swaps the index roles: for all
`i, j < dim`,
`Matrix (T)(i,j) == T(j,i)`, since the tensor keeps `(i,j)` at offset
`i + dim*j` and the matrix reads `(i,j)` at offset `dim*i + j`. Hence
`Matrix (T)(i,j) == T(i,j)` for all `i, j` if and only if `T` is symmetric. -/
theorem C37_matrix_from_tensor_transposes (K : Type) [Zero K] (dim : Nat) (T : Tensor dim 2 K)
    (hT' : T.WF) (hfit : dim ^ 2 < UINT_RANGE) :
    ∃ M : Matrix K, Matrix.construct_from_tensor T = .ok M ∧ M.n_rows = dim ∧ M.n_cols = dim
      ∧ M.data = T.data
      ∧ (∀ i j, i < dim → j < dim →
          M.get i j = .ok (M.data.getD (dim * i + j) 0)
          ∧ T.read j [i] = .ok (T.data.getD (j + dim * i) 0)
          ∧ M.get i j = T.read j [i] ∧ M.val i j = T.val j i)
      ∧ ((∀ i j, i < dim → j < dim → M.val i j = T.val i j)
          ↔ ∀ i j, i < dim → j < dim → T.val i j = T.val j i) := by
  have hT : T.Sized := Tensor.Sized_of_fit hT' hfit
  have hW := Matrix.from_tensor_WF hT
  have hval : ∀ i j, i < dim → j < dim →
      (Matrix.mk dim dim T.data).val i j = T.val j i := by
    intro i j hi hj
    rw [Matrix.val_eq hW hi hj, Tensor.val_eq_getD hT hj hi, Nat.add_comm, Nat.mul_comm]
  refine ⟨⟨dim, dim, T.data⟩, Matrix.construct_from_tensor_eq hT, rfl, rfl, rfl, ?_, ?_⟩
  · intro i j hi hj
    have h1 := Matrix.get_eq hW hi hj
    have h2 : T.read j [i] = .ok (T.data.getD (j + dim * i) 0) := by
      rw [Tensor.read_eq hT (by decide) (Tensor.valid_two hj hi), Tensor.linear_sum_pair,
        Nat.mul_comm]
    refine ⟨h1, h2, ?_, hval i j hi hj⟩
    rw [h1, h2, Nat.add_comm]
  · constructor
    · intro h i j hi hj
      rw [← h i j hi hj, hval i j hi hj]
    · intro h i j hi hj
      rw [hval i j hi hj, h i j hi hj]

theorem C37_witness :
    ∃ M : Matrix ℚ, Matrix.construct_from_tensor (Tensor.mk 4 [1, 2, 3, 4] : Tensor 2 2 ℚ)
        = .ok M ∧ M.n_rows = 2 ∧ M.n_cols = 2
      ∧ M.data = [1, 2, 3, 4]
      ∧ (∀ i j, i < 2 → j < 2 →
          M.get i j = .ok (M.data.getD (2 * i + j) 0)
          ∧ (Tensor.mk 4 [1, 2, 3, 4] : Tensor 2 2 ℚ).read j [i]
              = .ok (([1, 2, 3, 4] : List ℚ).getD (j + 2 * i) 0)
          ∧ M.get i j = (Tensor.mk 4 [1, 2, 3, 4] : Tensor 2 2 ℚ).read j [i]
          ∧ M.val i j = (Tensor.mk 4 [1, 2, 3, 4] : Tensor 2 2 ℚ).val j i)
      ∧ ((∀ i j, i < 2 → j < 2 → M.val i j = (Tensor.mk 4 [1, 2, 3, 4] : Tensor 2 2 ℚ).val i j)
          ↔ ∀ i j, i < 2 → j < 2 →
              (Tensor.mk 4 [1, 2, 3, 4] : Tensor 2 2 ℚ).val i j
                = (Tensor.mk 4 [1, 2, 3, 4] : Tensor 2 2 ℚ).val j i) :=
  C37_matrix_from_tensor_transposes ℚ 2 ⟨4, [1, 2, 3, 4]⟩ ⟨rfl, rfl⟩ (by decide)

/-- C38: tensor inversion and matrix inversion agree through the conversion
constructor.  For dim in 1, 2, 3, every rank-two tensor T with the data-model
buffer and every destination D of the same shape, the matrix MT built from T
exists and has the same determinant value as T; inverting T into D succeeds
exactly when inverting MT (into any matrix R) succeeds; and when both
succeed, the matrix built from the inverted tensor is the matrix that
Matrix::invert returns. -/
theorem C38_tensor_matrix_invert_agree (K : Type) [Field K] [DecidableEq K] (dim : Nat)
    (hdim : dim = 1 ∨ dim = 2 ∨ dim = 3) (T D : Tensor dim 2 K) (R : Matrix K)
    (hT : T.WF) (hD : D.WF) :
    ∃ MT : Matrix K, Matrix.construct_from_tensor T = .ok MT ∧ T.det_spec = MT.det_spec
      ∧ ((∃ X, D.invert T = .ok X) ↔ (∃ Y, R.invert MT = .ok Y))
      ∧ ∀ X Y, D.invert T = .ok X → R.invert MT = .ok Y →
          Matrix.construct_from_tensor X = .ok Y := by
  rcases hdim with rfl | rfl | rfl
  · obtain ⟨a, rfl⟩ := Tensor.lit_of_WF_one hT
    obtain ⟨x, rfl⟩ := Tensor.lit_of_WF_one hD
    refine ⟨⟨1, 1, [a]⟩, rfl, ?_, invert_agree_one x a R⟩
    rw [Tensor.det_spec_dim_one, Matrix.det_spec_one]
  · obtain ⟨a, b, c, d, rfl⟩ := Tensor.lit_of_WF_two hT
    obtain ⟨x0, x1, x2, x3, rfl⟩ := Tensor.lit_of_WF_two hD
    refine ⟨⟨2, 2, [a, b, c, d]⟩, rfl, ?_, invert_agree_two x0 x1 x2 x3 a b c d R⟩
    rw [Tensor.det_spec_dim_two, Matrix.det_spec_two]
    ring
  · obtain ⟨a, b, c, d, e, f, g, h, k, rfl⟩ := Tensor.lit_of_WF_three hT
    obtain ⟨x0, x1, x2, x3, x4, x5, x6, x7, x8, rfl⟩ := Tensor.lit_of_WF_three hD
    refine ⟨⟨3, 3, [a, b, c, d, e, f, g, h, k]⟩, rfl, ?_,
      invert_agree_three x0 x1 x2 x3 x4 x5 x6 x7 x8 a b c d e f g h k R⟩
    rw [Tensor.det_spec_dim_three, Matrix.det_spec_three]
    ring

/-- C38 at a concrete input: the tensor with buffer 1, 2, 3, 4 in dimension
two, inverted into a zero tensor, against the matrix built from it. -/
theorem C38_witness :
    ∃ MT : Matrix ℚ,
      Matrix.construct_from_tensor (Tensor.mk 4 [1, 2, 3, 4] : Tensor 2 2 ℚ) = .ok MT
      ∧ (Tensor.mk 4 [1, 2, 3, 4] : Tensor 2 2 ℚ).det_spec = MT.det_spec
      ∧ ((∃ X, (Tensor.mk 4 [0, 0, 0, 0] : Tensor 2 2 ℚ).invert ⟨4, [1, 2, 3, 4]⟩ = .ok X)
          ↔ (∃ Y, (Matrix.mk 0 0 []).invert MT = .ok Y))
      ∧ ∀ X Y, (Tensor.mk 4 [0, 0, 0, 0] : Tensor 2 2 ℚ).invert ⟨4, [1, 2, 3, 4]⟩ = .ok X →
          (Matrix.mk 0 0 []).invert MT = .ok Y → Matrix.construct_from_tensor X = .ok Y :=
  C38_tensor_matrix_invert_agree ℚ 2 (Or.inr (Or.inl rfl)) ⟨4, [1, 2, 3, 4]⟩ ⟨4, [0, 0, 0, 0]⟩
    ⟨0, 0, []⟩ ⟨rfl, rfl⟩ ⟨rfl, rfl⟩

/-- C39 (amended): on square operands the three product routines are exact.
For every `n >= 0` with `n*n` representable as `unsigned int`, all `n x n`
matrices `A`, `B` and every `n x n` destination `R` other than `A` and `B`
(each buffer then holds `n*n` elements): `mult`, `Tmult` and `multT` return and add to `R`
respectively `A*B`, `transpose(A)*B` and `A*transpose(B)`; `Tmult (A, B)`
leaves what `mult (transpose(A), B)` leaves; and when `A` holds the identity
and `R` is zero-initialised, `R.mult (A, B)` and `R.mult (B, A)` both leave `R`
equal to `B`. -/
theorem C39_square_products_exact (K : Type) [Field K] (n : Nat) (R A B : Matrix K)
    (hR : R.WF) (hA : A.WF) (hB : B.WF) (hRr : R.n_rows = n) (hRc : R.n_cols = n)
    (hAr : A.n_rows = n) (hAc : A.n_cols = n) (hBr : B.n_rows = n) (hBc : B.n_cols = n) :
    (∃ P Q S : Matrix K, R.mult A B = .ok P ∧ R.Tmult A B = .ok Q ∧ R.multT A B = .ok S
      ∧ P.n_rows = n ∧ P.n_cols = n ∧ Q.n_rows = n ∧ Q.n_cols = n ∧ S.n_rows = n ∧ S.n_cols = n
      ∧ (∀ i j, i < n → j < n →
          P.val i j = R.val i j + (Finset.range n).sum (fun t => A.val i t * B.val t j))
      ∧ (∀ i j, i < n → j < n →
          Q.val i j = R.val i j + (Finset.range n).sum (fun t => A.val t i * B.val t j))
      ∧ (∀ i j, i < n → j < n →
          S.val i j = R.val i j + (Finset.range n).sum (fun t => A.val i t * B.val j t))
      ∧ R.mult A.transpose_spec B = .ok Q)
    ∧ ((∀ i j, i < n → j < n → A.val i j = if i = j then 1 else 0) →
        (Matrix.mk n n (List.replicate (n * n) 0)).mult A B = .ok B
        ∧ (Matrix.mk n n (List.replicate (n * n) 0)).mult B A = .ok B) := by
  have a1 : A.n_rows = A.n_cols := hAr.trans hAc.symm
  have a2 : A.n_rows = B.n_rows := hAr.trans hBr.symm
  have a3 : A.n_cols = B.n_cols := hAc.trans hBc.symm
  have a4 : A.n_rows = B.n_cols := hAr.trans hBc.symm
  have a5 : A.n_cols = B.n_rows := hAc.trans hBr.symm
  have r1 : R.n_rows = A.n_rows := hRr.trans hAr.symm
  have r2 : R.n_cols = A.n_rows := hRc.trans hAr.symm
  have r3 : R.n_cols = B.n_cols := hRc.trans hBc.symm
  constructor
  · obtain ⟨P, hP, _, hPr, hPc, hPv⟩ := Matrix.mult_spec R A B hR hA hB a4 a5 r1 r3
    obtain ⟨Q, hQ, _, hQr, hQc, hQv⟩ := Matrix.Tmult_spec R A B hR hA hB a1 a2 a3 r1 r2
    obtain ⟨S, hS, _, hSr, hSc, hSv⟩ := Matrix.multT_spec R A B hR hA hB a1 a2 a3 r1 r2
    have hlast : R.mult A.transpose_spec B = .ok Q :=
      (Matrix.Tmult_eq_mult_transpose R A B hR hA hB a1 a2 a3 r1 r2).trans hQ
    rw [hAr, hBc, hAc] at hPv
    rw [hAr] at hQv hSv
    exact ⟨P, Q, S, hP, hQ, hS, hPr.trans hRr, hPc.trans hRc, hQr.trans hRr, hQc.trans hRc,
      hSr.trans hRr, hSc.trans hRc, hPv, hQv, hSv, hlast⟩
  · intro hI
    rw [← hAr] at hI
    have h1 := Matrix.mult_identity_left hA hB a1 a2.symm a4.symm hI
    have h2 := Matrix.mult_identity_right hA hB a1 a2.symm a4.symm hI
    rw [hBr, hBc] at h1 h2
    exact ⟨h1, h2⟩

theorem C39_witness :
    ∃ P Q S : Matrix ℚ, (Matrix.mk 2 2 [0, 0, 0, 0]).mult ⟨2, 2, [1, 2, 3, 4]⟩ ⟨2, 2, [5, 6, 7, 8]⟩
        = .ok P
      ∧ (Matrix.mk 2 2 [0, 0, 0, 0]).Tmult ⟨2, 2, [1, 2, 3, 4]⟩ ⟨2, 2, [5, 6, 7, 8]⟩ = .ok Q
      ∧ (Matrix.mk 2 2 [0, 0, 0, 0]).multT ⟨2, 2, [1, 2, 3, 4]⟩ ⟨2, 2, [5, 6, 7, 8]⟩ = .ok S
      ∧ P.n_rows = 2 ∧ P.n_cols = 2 ∧ Q.n_rows = 2 ∧ Q.n_cols = 2 ∧ S.n_rows = 2 ∧ S.n_cols = 2
      ∧ (∀ i j, i < 2 → j < 2 →
          P.val i j = (Matrix.mk 2 2 [(0 : ℚ), 0, 0, 0]).val i j
            + (Finset.range 2).sum (fun t =>
                (Matrix.mk 2 2 [(1 : ℚ), 2, 3, 4]).val i t
                  * (Matrix.mk 2 2 [(5 : ℚ), 6, 7, 8]).val t j))
      ∧ (∀ i j, i < 2 → j < 2 →
          Q.val i j = (Matrix.mk 2 2 [(0 : ℚ), 0, 0, 0]).val i j
            + (Finset.range 2).sum (fun t =>
                (Matrix.mk 2 2 [(1 : ℚ), 2, 3, 4]).val t i
                  * (Matrix.mk 2 2 [(5 : ℚ), 6, 7, 8]).val t j))
      ∧ (∀ i j, i < 2 → j < 2 →
          S.val i j = (Matrix.mk 2 2 [(0 : ℚ), 0, 0, 0]).val i j
            + (Finset.range 2).sum (fun t =>
                (Matrix.mk 2 2 [(1 : ℚ), 2, 3, 4]).val i t
                  * (Matrix.mk 2 2 [(5 : ℚ), 6, 7, 8]).val j t))
      ∧ (Matrix.mk 2 2 [0, 0, 0, 0]).mult (Matrix.mk 2 2 [(1 : ℚ), 2, 3, 4]).transpose_spec
          ⟨2, 2, [5, 6, 7, 8]⟩ = .ok Q :=
  (C39_square_products_exact ℚ 2 ⟨2, 2, [0, 0, 0, 0]⟩ ⟨2, 2, [1, 2, 3, 4]⟩ ⟨2, 2, [5, 6, 7, 8]⟩
    ⟨rfl, by decide⟩ ⟨rfl, by decide⟩ ⟨rfl, by decide⟩ rfl rfl rfl rfl rfl rfl).1

/-! ## Element counts beyond `unsigned int`: lemmas -/

/-- A loop whose first iteration fails, fails in the same way. -/
theorem forLoop_error_first {σ : Type} (body : Nat → σ → Except Failure σ) (s : σ)
    (e : Failure) (h : body 0 s = .error e) : ∀ n, forLoop body (n + 1) s = .error e := by
  intro n
  rw [forLoop_head, h]
  rfl

namespace Matrix

variable {K : Type}

/-- Reading `M (0, 0)` is reading the first buffer element. -/
theorem get_origin (M : Matrix K) (hr : 0 < M.n_rows) (hc : 0 < M.n_cols) :
    M.get 0 0 = fetch M.data 0 := by
  unfold get
  rw [assert_bind_of hr, assert_bind_of hc, Nat.mul_zero, Nat.zero_mod, Nat.add_zero,
    Nat.zero_mod]

/-- In a matrix with `65537` columns the pair `(65535, 1)` is sent to offset
`0`, the offset of `(0, 0)`: a write at the first reaches the second. -/
theorem wrapped_offset_alias (M : Matrix K) (hr : M.n_rows = 65536) (hc : M.n_cols = 65537)
    (hlen : 0 < M.data.length) (v : K) :
    M.set 65535 1 v = .ok { M with data := M.data.set 0 v }
    ∧ ({ M with data := M.data.set 0 v } : Matrix K).get 0 0 = .ok v := by
  obtain ⟨r, c, data⟩ := M
  simp only at hr hc hlen
  subst hr hc
  constructor
  · show (assert (65535 < 65536) >>= fun _ => assert (1 < 65537) >>= fun _ =>
      store data (((65537 * 65535) % UINT_RANGE + 1) % UINT_RANGE) v >>= fun d =>
        Except.ok (Matrix.mk 65536 65537 d)) = _
    rw [assert_bind_of (by decide), assert_bind_of (by decide)]
    have h0 : ((65537 * 65535) % UINT_RANGE + 1) % UINT_RANGE = 0 := by decide
    rw [h0]
    simp only [store, hlen, if_true]
    rfl
  · show (assert (0 < 65536) >>= fun _ => assert (0 < 65537) >>= fun _ =>
      fetch (data.set 0 v) (((65537 * 0) % UINT_RANGE + 0) % UINT_RANGE)) = _
    rw [assert_bind_of (by decide), assert_bind_of (by decide)]
    have h0 : ((65537 * 0) % UINT_RANGE + 0) % UINT_RANGE = 0 := by decide
    rw [h0]
    cases data with
    | nil => simp at hlen
    | cons a l => simp [fetch]

end Matrix

/-- The constructor `Matrix (m, n, false)` keeps what the allocation held. -/
theorem Matrix.construct_uninit {K : Type} [Zero K] (m n : Nat) (uninit : Nat → K) :
    Matrix.construct m n false uninit
      = .ok ⟨m, n, (List.range ((m * n) % UINT_RANGE)).map uninit⟩ := rfl

/-- The elements of a buffer the allocation left holding `uninit`. -/
theorem getD_uninit {K : Type} [Zero K] (uninit : Nat → K) (n : Nat) {p : Nat} (hp : p < n) :
    ((List.range n).map uninit).getD p 0 = uninit p := by
  have h : p < ((List.range n).map uninit).length := by
    rw [List.length_map, List.length_range]; exact hp
  rw [List.getD_eq_getElem _ 0 h, List.getElem_map, List.getElem_range]

namespace Matrix

variable {K : Type}

/-- The flat loop of `norm ()` over the `n_rows*n_cols mod 2^32` buffer
elements it visits. -/
theorem norm_of_count [LinearOrderedField K] (M : Matrix K)
    (h : (M.n_rows * M.n_cols) % UINT_RANGE ≤ M.data.length) :
    M.norm = .ok ((Finset.range ((M.n_rows * M.n_cols) % UINT_RANGE)).sum
      (fun p => |M.data.getD p 0|)) :=
  sum_fetch_loop M.data (fun x => |x|) 0 _ h

/-- A `65536 x 65537` matrix over a buffer of `65536` elements that holds `1`
in the first and `0` in the others: `norm ()` returns `1`, while `M (0, 0)` and
`M (65535, 1)` both read `1`. -/
theorem wrapped_norm [LinearOrderedField K] (data : List K) (hlen : data.length = 65536)
    (h0 : data.getD 0 0 = 1) (hrest : ∀ p, p ≠ 0 → p < 65536 → data.getD p 0 = 0) :
    (Matrix.mk 65536 65537 data).norm = .ok 1
    ∧ (Matrix.mk 65536 65537 data).get 0 0 = .ok 1
    ∧ (Matrix.mk 65536 65537 data).get 65535 1 = .ok 1
    ∧ (1 : K) < (Finset.range 65536).sum (fun i =>
        (Finset.range 65537).sum (fun j => |(Matrix.mk 65536 65537 data).val i j|)) := by
  have hpos : 0 < data.length := by rw [hlen]; exact Nat.succ_pos 65535
  have hcount : (65536 * 65537) % UINT_RANGE = 65536 := by decide
  have h00 : (Matrix.mk 65536 65537 data).get 0 0 = .ok 1 := by
    rw [get_origin _ (Nat.succ_pos 65535) (Nat.succ_pos 65536)]
    show fetch data 0 = _
    rw [fetch_eq_getD hpos 0, h0]
  have h01 : (Matrix.mk 65536 65537 data).get 65535 1 = .ok 1 := by
    show (assert (65535 < 65536) >>= fun _ => assert (1 < 65537) >>= fun _ =>
      fetch data (((65537 * 65535) % UINT_RANGE + 1) % UINT_RANGE)) = _
    rw [assert_bind_of (by decide), assert_bind_of (by decide)]
    have e : ((65537 * 65535) % UINT_RANGE + 1) % UINT_RANGE = 0 := by decide
    rw [e, fetch_eq_getD hpos 0, h0]
  have hv00 : |(Matrix.mk 65536 65537 data).val 0 0| = 1 := by
    unfold val
    rw [h00]
    exact abs_one
  have hv01 : |(Matrix.mk 65536 65537 data).val 65535 1| = 1 := by
    unfold val
    rw [h01]
    exact abs_one
  refine ⟨?_, h00, h01, ?_⟩
  · have hle : ((Matrix.mk 65536 65537 data).n_rows * (Matrix.mk 65536 65537 data).n_cols)
        % UINT_RANGE ≤ (Matrix.mk 65536 65537 data).data.length := by
      show (65536 * 65537) % UINT_RANGE ≤ data.length
      rw [hcount, hlen]
    rw [norm_of_count _ hle]
    show Except.ok ((Finset.range ((65536 * 65537) % UINT_RANGE)).sum
      (fun p => |data.getD p 0|)) = _
    rw [hcount]
    refine congrArg Except.ok ?_
    rw [Finset.sum_eq_single 0]
    · show |data.getD 0 0| = 1
      rw [h0, abs_one]
    · intro p hp hne
      show |data.getD p 0| = 0
      rw [hrest p hne (Finset.mem_range.1 hp), abs_zero]
    · intro h
      exact absurd (Finset.mem_range.2 (Nat.succ_pos 65535)) h
  · have hrow : ∀ i j, j < 65537 →
        |(Matrix.mk 65536 65537 data).val i j|
          ≤ (Finset.range 65537).sum (fun j => |(Matrix.mk 65536 65537 data).val i j|) :=
      fun i j hj => Finset.single_le_sum
        (fun (j : Nat) (_ : j ∈ Finset.range 65537) =>
          abs_nonneg ((Matrix.mk 65536 65537 data).val i j))
        (Finset.mem_range.2 hj)
    have hsub : ({0, 65535} : Finset Nat) ⊆ Finset.range 65536 := by
      intro x hx
      rw [Finset.mem_insert, Finset.mem_singleton] at hx
      rw [Finset.mem_range]
      omega
    have hle := Finset.sum_le_sum_of_subset_of_nonneg hsub
      (fun (i : Nat) (_ : i ∈ Finset.range 65536) (_ : i ∉ ({0, 65535} : Finset Nat)) =>
        Finset.sum_nonneg (fun (j : Nat) (_ : j ∈ Finset.range 65537) =>
          abs_nonneg ((Matrix.mk 65536 65537 data).val i j)))
    rw [Finset.sum_pair (by decide)] at hle
    have r0 := hrow 0 0 (by decide)
    have r1 := hrow 65535 1 (by decide)
    rw [hv00] at r0
    rw [hv01] at r1
    linarith

end Matrix

/-- A loop that runs at least once and whose first iteration fails, fails in
the same way. -/
theorem forLoop_error_of_pos {σ : Type} (body : Nat → σ → Except Failure σ) (s : σ)
    (e : Failure) (h : body 0 s = .error e) {n : Nat} (hn : n ≠ 0) :
    forLoop body n s = .error e := by
  obtain ⟨k, rfl⟩ := Nat.exists_eq_succ_of_ne_zero hn
  exact forLoop_error_first body s e h k

namespace Vector

variable {K : Type}

/-- When `M (0, 0)` cannot be read, `diag (M)` on a non-empty vector of
matching length ends as that read does. -/
theorem diag_error_first (x : Vector K) (M : Matrix K) (hsq : M.n_rows = M.n_cols)
    (hn : x.n_el = M.n_rows) (h0 : x.n_el ≠ 0) (e : Failure) (h : M.get 0 0 = .error e) :
    x.diag M = .error e := by
  rw [diag_eq, assert_bind_of hsq, assert_bind_of hn, if_neg h0]
  apply forLoop_error_of_pos _ _ _ _ h0
  show (M.get 0 0 >>= fun v => _) = _
  rw [h]
  rfl

end Vector

namespace Matrix

variable {K : Type}

/-- When `M_a (0, 0)` cannot be read, `mult` on non-empty operands that pass
its assertions ends as that read does. -/
theorem mult_error_first [Field K] (R A B : Matrix K) (h1 : A.n_rows = B.n_cols)
    (h2 : A.n_cols = B.n_rows) (ha : A.n_rows ≠ 0) (hb : B.n_rows ≠ 0) (e : Failure)
    (h : A.get 0 0 = .error e) : R.mult A B = .error e := by
  unfold mult
  rw [assert_bind_of h1, assert_bind_of h2]
  apply forLoop_error_of_pos _ _ _ _ ha
  apply forLoop_error_of_pos _ _ _ _ (h1 ▸ ha)
  apply forLoop_error_of_pos _ _ _ _ hb
  show (A.get 0 0 >>= fun a => _) = _
  rw [h]
  rfl

/-- The same for `Tmult`. -/
theorem Tmult_error_first [Field K] (R A B : Matrix K) (h1 : A.n_rows = B.n_rows)
    (h2 : A.n_cols = B.n_cols) (ha : A.n_rows ≠ 0) (hb : B.n_cols ≠ 0) (e : Failure)
    (h : A.get 0 0 = .error e) : R.Tmult A B = .error e := by
  unfold Tmult
  rw [assert_bind_of h1, assert_bind_of h2]
  apply forLoop_error_of_pos _ _ _ _ ha
  apply forLoop_error_of_pos _ _ _ _ hb
  apply forLoop_error_of_pos _ _ _ _ (h1 ▸ ha)
  show (A.get 0 0 >>= fun a => _) = _
  rw [h]
  rfl

/-- The same for `multT`. -/
theorem multT_error_first [Field K] (R A B : Matrix K) (h1 : A.n_rows = B.n_rows)
    (h2 : A.n_cols = B.n_cols) (ha : A.n_rows ≠ 0) (hb : B.n_cols ≠ 0) (e : Failure)
    (h : A.get 0 0 = .error e) : R.multT A B = .error e := by
  unfold multT
  rw [assert_bind_of h1, assert_bind_of h2]
  apply forLoop_error_of_pos _ _ _ _ ha
  apply forLoop_error_of_pos _ _ _ _ hb
  apply forLoop_error_of_pos _ _ _ _ (h1 ▸ ha)
  show (A.get 0 0 >>= fun a => _) = _
  rw [h]
  rfl

end Matrix

namespace Tensor

variable {dim rank : Nat} {K : Type}

/-- Reading a tensor whose component count is zero fails at the first
assertion of `operator ()`. -/
theorem read_of_no_components (T : Tensor dim rank K) (h : T.n_components = 0) (index : Nat)
    (l : List Nat) : T.read index l = .error .assertion := by
  unfold read offset_ro
  have : ¬ T.n_components ≠ 0 := fun hne => hne h
  rw [assert_bind_of_not this]
  rfl

end Tensor

/-- When the first product cannot be formed because the read of `T_b` fails,
`contract (T_a, T_b)` ends as that read does. -/
theorem contract_2_4_error_first {dim : Nat} {K : Type} [Field K] (A : Tensor dim 2 K)
    (B : Tensor dim 4 K) (hdim : dim ≠ 0) (a : K) (e : Failure) (ha : A.read 0 [0] = .ok a)
    (hb : B.read 0 [0, 0, 0] = .error e) : contract_2_4 A B = .error e := by
  unfold contract_2_4
  apply forLoop_error_of_pos _ _ _ _ hdim
  apply forLoop_error_of_pos _ _ _ _ hdim
  apply forLoop_error_of_pos _ _ _ _ hdim
  apply forLoop_error_of_pos _ _ _ _ hdim
  show (A.read 0 [0] >>= fun a => B.read 0 [0, 0, 0] >>= fun b => _) = _
  rw [ha]
  show (B.read 0 [0, 0, 0] >>= fun b => _) = _
  rw [hb]
  rfl

/-- When the first read of `T_a` fails, `contract (T_a, T_b)` ends as that
read does. -/
theorem contract_2_4_error_left {dim : Nat} {K : Type} [Field K] (A : Tensor dim 2 K)
    (B : Tensor dim 4 K) (hdim : dim ≠ 0) (e : Failure) (ha : A.read 0 [0] = .error e) :
    contract_2_4 A B = .error e := by
  unfold contract_2_4
  apply forLoop_error_of_pos _ _ _ _ hdim
  apply forLoop_error_of_pos _ _ _ _ hdim
  apply forLoop_error_of_pos _ _ _ _ hdim
  apply forLoop_error_of_pos _ _ _ _ hdim
  show (A.read 0 [0] >>= fun a => _) = _
  rw [ha]
  rfl

/-- When the first read of `T_a` fails, `contract (T_a, T_b)` ends as that
read does. -/
theorem contract_4_2_error_first {dim : Nat} {K : Type} [Field K] (A : Tensor dim 4 K)
    (B : Tensor dim 2 K) (hdim : dim ≠ 0) (e : Failure)
    (ha : A.read 0 [0, 0, 0] = .error e) : contract_4_2 A B = .error e := by
  unfold contract_4_2
  apply forLoop_error_of_pos _ _ _ _ hdim
  apply forLoop_error_of_pos _ _ _ _ hdim
  apply forLoop_error_of_pos _ _ _ _ hdim
  apply forLoop_error_of_pos _ _ _ _ hdim
  show (A.read 0 [0, 0, 0] >>= fun a => _) = _
  rw [ha]
  rfl

/-- When the first read of `T_a` fails, `contract (T_a, T_b)` ends as that
read does. -/
theorem contract_3_2_error_first {dim : Nat} {K : Type} [Field K] (A : Tensor dim 3 K)
    (B : Tensor dim 2 K) (hdim : dim ≠ 0) (e : Failure) (ha : A.read 0 [0, 0] = .error e) :
    contract_3_2 A B = .error e := by
  unfold contract_3_2
  apply forLoop_error_of_pos _ _ _ _ hdim
  apply forLoop_error_of_pos _ _ _ _ hdim
  apply forLoop_error_of_pos _ _ _ _ hdim
  show (A.read 0 [0, 0] >>= fun a => _) = _
  rw [ha]
  rfl

/-! ## Element counts beyond `unsigned int`: the counterexamples -/

/-- C6 as stated fails for `n = 65536`: `Matrix (65536, 65536, false)` holds a
buffer of `65536*65536 mod 2^32 = 0` elements, and inverting it does not end
at an assertion: the `memset` of `reinit` runs past the empty buffer of the
destination. -/
theorem C6_counterexample :
    4 ≤ 65536
    ∧ Matrix.construct 65536 65536 false (fun _ => (0 : ℚ)) = .ok ⟨65536, 65536, []⟩
    ∧ (Matrix.construct_default : Matrix ℚ).invert ⟨65536, 65536, []⟩ = .error .undefined
    ∧ (Matrix.construct_default : Matrix ℚ).invert ⟨65536, 65536, []⟩
        ≠ .error .assertion := by
  decide

/-- C12 as stated fails for `n = 65536`: on the matrix `Matrix (65536, 65536,
false)`, whose buffer has `65536*65536 mod 2^32 = 0` elements, `identity ()`
does not return: its `memset` of `65536*65536` elements runs past the
buffer. -/
theorem C12_counterexample :
    Matrix.construct 65536 65536 false (fun _ => (0 : ℚ)) = .ok ⟨65536, 65536, []⟩
    ∧ (Matrix.mk 65536 65536 ([] : List ℚ)).n_rows = (Matrix.mk 65536 65536 ([] : List ℚ)).n_cols
    ∧ (Matrix.mk 65536 65536 ([] : List ℚ)).identity = .error .undefined := by
  decide

/-- C14 as stated fails for `n = 65536`: on the square matrix `Matrix (65536,
65536, false)`, whose buffer has no element, `is_symmetric ()` returns neither
`true` nor `false`: its first comparison reads `M(0,1)` outside of the
buffer. -/
theorem C14_counterexample :
    Matrix.construct 65536 65536 false (fun _ => (0 : ℚ)) = .ok ⟨65536, 65536, []⟩
    ∧ (Matrix.mk 65536 65536 ([] : List ℚ)).get 0 1 = .error .undefined
    ∧ (Matrix.mk 65536 65536 ([] : List ℚ)).is_symmetric = .error .undefined := by
  decide

/-- C15 as stated fails where `math::pow` wraps: a `Tensor<256, 4>` is built
with `n_components = 256^4 mod 2^32 = 0` and holds no component, so with the
zero-filled `Tensor<256, 2>` (which holds its `65536` components) both
`contract (A, B)` and `contract (B, A)` fail at the first read of `B`, at the
assertion `n_components != 0`. -/
theorem C15_counterexample :
    1 ≤ 256 ∧ 256 ^ 4 = 4294967296
    ∧ (Tensor.construct 256 2 true (fun _ => (0 : ℚ))).n_components = 256 ^ 2
    ∧ (Tensor.construct 256 4 true (fun _ => (0 : ℚ))).n_components = 0
    ∧ (Tensor.construct 256 4 true (fun _ => (0 : ℚ))).data = []
    ∧ contract_2_4 (Tensor.construct 256 2 true (fun _ => (0 : ℚ)))
        (Tensor.construct 256 4 true (fun _ => (0 : ℚ))) = .error .assertion
    ∧ contract_4_2 (Tensor.construct 256 4 true (fun _ => (0 : ℚ)))
        (Tensor.construct 256 2 true (fun _ => (0 : ℚ))) = .error .assertion := by
  have hB : (Tensor.construct 256 4 true (fun _ => (0 : ℚ))).n_components = 0 := by decide
  have hA : (Tensor.construct 256 2 true (fun _ => (0 : ℚ))).Sized :=
    Tensor.Sized_of_fit (Tensor.construct_WF 256 2 true _) (by decide)
  refine ⟨by decide, by norm_num, hA.2, hB, by decide, ?_, ?_⟩
  · exact contract_2_4_error_first _ _ (Nat.succ_ne_zero 255) _ _
      (Tensor.read_eq hA (by decide) (by decide))
      (Tensor.read_of_no_components _ hB _ _)
  · exact contract_4_2_error_first _ _ (Nat.succ_ne_zero 255) _
      (Tensor.read_of_no_components _ hB _ _)

/-- C16 as stated fails where `math::pow` wraps: a `Tensor<2048, 3>` is built
with `n_components = 2048^3 mod 2^32 = 0` and holds no component, so
`contract (A, B)` fails at the first read of `A`, at the assertion
`n_components != 0`. -/
theorem C16_counterexample :
    1 ≤ 2048 ∧ 2048 ^ 3 = 2 * 4294967296
    ∧ (Tensor.construct 2048 3 true (fun _ => (0 : ℚ))).n_components = 0
    ∧ (Tensor.construct 2048 3 true (fun _ => (0 : ℚ))).data = []
    ∧ contract_3_2 (Tensor.construct 2048 3 true (fun _ => (0 : ℚ)))
        (Tensor.construct 2048 2 true (fun _ => (0 : ℚ))) = .error .assertion := by
  have hA : (Tensor.construct 2048 3 true (fun _ => (0 : ℚ))).n_components = 0 := by decide
  exact ⟨by decide, by norm_num, hA, by decide,
    contract_3_2_error_first _ _ (Nat.succ_ne_zero 2047) _
      (Tensor.read_of_no_components _ hA _ _)⟩

/-- C17 as stated fails where `math::pow` wraps: for `dim = 65536` the
all-zero rank-4 tensor and the rank-2 tensor are both built with
`n_components = 0`, the tensor in which `contract` collects its result has `0`
components instead of `65536^2`, and the contraction fails in either argument
order at the assertion `n_components != 0` of the first read. -/
theorem C17_counterexample :
    (Tensor.construct 65536 4 true (fun _ => (0 : ℚ))).n_components = 0
    ∧ (∀ x ∈ (Tensor.construct 65536 4 true (fun _ => (0 : ℚ))).data, x = 0)
    ∧ (Tensor.construct 65536 2 true (fun _ => (0 : ℚ))).n_components = 0
    ∧ 65536 ^ 2 = 4294967296
    ∧ contract_2_4 (Tensor.construct 65536 2 true (fun _ => (0 : ℚ)))
        (Tensor.construct 65536 4 true (fun _ => (0 : ℚ))) = .error .assertion
    ∧ contract_4_2 (Tensor.construct 65536 4 true (fun _ => (0 : ℚ)))
        (Tensor.construct 65536 2 true (fun _ => (0 : ℚ))) = .error .assertion := by
  have hZ : (Tensor.construct 65536 4 true (fun _ => (0 : ℚ))).n_components = 0 := by decide
  have hA : (Tensor.construct 65536 2 true (fun _ => (0 : ℚ))).n_components = 0 := by decide
  have hZd : (Tensor.construct 65536 4 true (fun _ => (0 : ℚ))).data = [] := by decide
  refine ⟨hZ, ?_, hA, by norm_num, ?_, ?_⟩
  · intro x hx
    rw [hZd] at hx
    cases hx
  · exact contract_2_4_error_left _ _ (Nat.succ_ne_zero 65535) _
      (Tensor.read_of_no_components _ hA _ _)
  · exact contract_4_2_error_first _ _ (Nat.succ_ne_zero 65535) _
      (Tensor.read_of_no_components _ hZ _ _)

/-- C26 as stated fails where the `unsigned int` product `n_rows*n_cols`
wraps: `Matrix (65536, 65537, false)` has a buffer of
`65536*65537 mod 2^32 = 65536` elements, the valid pairs `(0, 0)` and
`(65535, 1)` are distinct, yet `65537*65535 + 1 = 2^32` is reduced to offset
`0`: after `M (65535, 1) = 7` the element `M (0, 0)`, which was `0`, reads
`7`. -/
theorem C26_counterexample :
    ∃ M M' : Matrix ℚ, Matrix.construct 65536 65537 false (fun _ => 0) = .ok M
      ∧ M.n_rows = 65536 ∧ M.n_cols = 65537 ∧ M.data.length = 65536
      ∧ 65537 * 65535 + 1 = 4294967296
      ∧ M.get 0 0 = .ok 0
      ∧ M.set 65535 1 7 = .ok M'
      ∧ M'.get 0 0 = .ok 7 := by
  have hlen : ((List.range 65536).map (fun _ => (0 : ℚ))).length = 65536 := by
    rw [List.length_map, List.length_range]
  obtain ⟨h1, h2⟩ := Matrix.wrapped_offset_alias
    (Matrix.mk 65536 65537 ((List.range 65536).map (fun _ => (0 : ℚ)))) rfl rfl
    (by rw [hlen]; decide) 7
  have hcount : (65536 * 65537) % UINT_RANGE = 65536 := by decide
  have hM : Matrix.construct 65536 65537 false (fun _ => (0 : ℚ))
      = .ok ⟨65536, 65537, (List.range 65536).map (fun _ => 0)⟩ := by
    rw [Matrix.construct_uninit, hcount]
  refine ⟨_, _, hM, ?_, ?_, ?_, ?_, ?_, h1, h2⟩
  · exact Eq.refl 65536
  · exact Eq.refl 65537
  · dsimp only
    exact hlen
  · norm_num
  · have hpos : 0 < ((List.range 65536).map (fun _ => (0 : ℚ))).length := by
      rw [hlen]; exact Nat.succ_pos 65535
    rw [Matrix.get_origin _ (Nat.succ_pos 65535) (Nat.succ_pos 65536)]
    dsimp only
    rw [fetch_eq_getD hpos 0, List.getD_eq_getElem _ 0 hpos, List.getElem_map]

/-- C28 as stated fails where the `unsigned int` product `n_rows*n_cols`
wraps. `Matrix (65536, 65537, false)` has a buffer of
`65536*65537 mod 2^32 = 65536` elements; let the allocation hold `1` in the
first and `0` in the others. `norm ()` adds up the `65536` buffer elements and
returns `1`, but the distinct elements `M (0, 0)` and `M (65535, 1)` both read
`1`, so the sum of the absolute values of all elements is more than `1`. -/
theorem C28_counterexample :
    ∃ M : Matrix ℚ,
      Matrix.construct 65536 65537 false (fun p => if p = 0 then 1 else 0) = .ok M
      ∧ M.n_rows = 65536 ∧ M.n_cols = 65537
      ∧ M.norm = .ok 1
      ∧ M.get 0 0 = .ok 1 ∧ M.get 65535 1 = .ok 1
      ∧ (1 : ℚ) < (Finset.range 65536).sum (fun i =>
          (Finset.range 65537).sum (fun j => |M.val i j|)) := by
  obtain ⟨L, hL⟩ : ∃ L : List ℚ,
      L = (List.range 65536).map (fun p => if p = 0 then (1 : ℚ) else 0) := ⟨_, rfl⟩
  have hcount : (65536 * 65537) % UINT_RANGE = 65536 := by decide
  have hM : Matrix.construct 65536 65537 false (fun p => if p = 0 then (1 : ℚ) else 0)
      = .ok ⟨65536, 65537, L⟩ := by
    rw [Matrix.construct_uninit, hcount, hL]
  have hlen : L.length = 65536 := by
    rw [hL, List.length_map, List.length_range]
  have h0 : L.getD 0 0 = 1 := by
    rw [hL, getD_uninit _ _ (Nat.succ_pos 65535), if_pos rfl]
  have hrest : ∀ p, p ≠ 0 → p < 65536 → L.getD p 0 = 0 := by
    intro p hne hp
    rw [hL, getD_uninit _ _ hp, if_neg hne]
  obtain ⟨h1, h2, h3, h4⟩ := Matrix.wrapped_norm L hlen h0 hrest
  exact ⟨_, hM, Eq.refl 65536, Eq.refl 65537, h1, h2, h3, h4⟩

/-- C33 as stated fails for `n = 65536`: `Matrix (65536, 65536, false)` has a
buffer of `65536*65536 mod 2^32 = 0` elements, and on a vector of length
`65536` the call `x.diag (M)` does not return: its first iteration reads
`M (0, 0)` outside of the buffer. -/
theorem C33_counterexample :
    ∃ x : Vector ℚ,
      Matrix.construct 65536 65536 false (fun _ => (0 : ℚ)) = .ok ⟨65536, 65536, []⟩
      ∧ Vector.construct 65536 true (fun _ => (0 : ℚ)) = .ok x
      ∧ x.n_el = 65536
      ∧ (Matrix.mk 65536 65536 ([] : List ℚ)).get 0 0 = .error .undefined
      ∧ x.diag ⟨65536, 65536, []⟩ = .error .undefined := by
  have hget : (Matrix.mk 65536 65536 ([] : List ℚ)).get 0 0 = .error .undefined := by decide
  exact ⟨⟨65536, List.replicate 65536 0⟩, by decide, Vector.construct_zero_eq _ _,
    Eq.refl 65536, hget,
    Vector.diag_error_first _ _ (Eq.refl 65536) (Eq.refl 65536) (Nat.succ_ne_zero 65535) _ hget⟩

/-- C35 as stated fails for `n = 65536`: on `Matrix (65536, 65536, false)`,
whose buffer has `65536*65536 mod 2^32 = 0` elements, `identity ()` does not
return (its `memset` runs past the buffer), so there is no matrix `I`. On the
same object `-=` runs its flat loop `0` times, and `diag ()` of the result reads
`M (0, 0)` outside of the buffer. -/
theorem C35_counterexample :
    ∃ x : Vector ℚ,
      Matrix.construct 65536 65536 false (fun _ => (0 : ℚ)) = .ok ⟨65536, 65536, []⟩
      ∧ (Matrix.mk 65536 65536 ([] : List ℚ)).identity = .error .undefined
      ∧ (Matrix.mk 65536 65536 ([] : List ℚ)).minus_assign ⟨65536, 65536, []⟩
          = .ok ⟨65536, 65536, []⟩
      ∧ Vector.construct 65536 true (fun _ => (0 : ℚ)) = .ok x
      ∧ x.diag ⟨65536, 65536, []⟩ = .error .undefined := by
  have hget : (Matrix.mk 65536 65536 ([] : List ℚ)).get 0 0 = .error .undefined := by decide
  exact ⟨⟨65536, List.replicate 65536 0⟩, by decide, by decide, by decide,
    Vector.construct_zero_eq _ _,
    Vector.diag_error_first _ _ (Eq.refl 65536) (Eq.refl 65536) (Nat.succ_ne_zero 65535) _ hget⟩

/-- C37 as stated fails where `unsigned int` wraps: a `Tensor<65536, 2>` is
built with `n_components = 65536^2 mod 2^32 = 0` and an empty buffer; the
matrix built from it is `65536 x 65536` over an empty buffer. For the valid
indices `i = j = 0` neither side of `Matrix (T)(i,j) == T(j,i)` has a value:
the matrix access reads outside of the buffer and the tensor access fails at
the assertion `n_components != 0`. -/
theorem C37_counterexample :
    1 ≤ 65536
    ∧ (Tensor.construct 65536 2 true (fun _ => (0 : ℚ))).n_components = 0
    ∧ Matrix.construct_from_tensor (Tensor.construct 65536 2 true (fun _ => (0 : ℚ)))
        = .ok ⟨65536, 65536, []⟩
    ∧ (Matrix.mk 65536 65536 ([] : List ℚ)).get 0 0 = .error .undefined
    ∧ (Tensor.construct 65536 2 true (fun _ => (0 : ℚ))).read 0 [0] = .error .assertion := by
  decide

/-- C39 as stated fails for `n = 65536`: three objects built by
`Matrix (65536, 65536, false)` hold buffers of `65536*65536 mod 2^32 = 0`
elements; `mult`, `Tmult` and `multT` pass their shape assertions and then
read `M_a (0, 0)` outside of the buffer. -/
theorem C39_counterexample :
    Matrix.construct 65536 65536 false (fun _ => (0 : ℚ)) = .ok ⟨65536, 65536, []⟩
    ∧ (Matrix.mk 65536 65536 ([] : List ℚ)).mult ⟨65536, 65536, []⟩ ⟨65536, 65536, []⟩
        = .error .undefined
    ∧ (Matrix.mk 65536 65536 ([] : List ℚ)).Tmult ⟨65536, 65536, []⟩ ⟨65536, 65536, []⟩
        = .error .undefined
    ∧ (Matrix.mk 65536 65536 ([] : List ℚ)).multT ⟨65536, 65536, []⟩ ⟨65536, 65536, []⟩
        = .error .undefined := by
  have hget : (Matrix.mk 65536 65536 ([] : List ℚ)).get 0 0 = .error .undefined := by decide
  exact ⟨by decide,
    Matrix.mult_error_first _ _ _ (Eq.refl 65536) (Eq.refl 65536) (Nat.succ_ne_zero 65535)
      (Nat.succ_ne_zero 65535) _ hget,
    Matrix.Tmult_error_first _ _ _ (Eq.refl 65536) (Eq.refl 65536) (Nat.succ_ne_zero 65535)
      (Nat.succ_ne_zero 65535) _ hget,
    Matrix.multT_error_first _ _ _ (Eq.refl 65536) (Eq.refl 65536) (Nat.succ_ne_zero 65535)
      (Nat.succ_ne_zero 65535) _ hget⟩

/-! ## Square root in binary64: lemmas -/

/-- The exponent `Int.log 4 x` from the binade of `x`. -/
theorem int_log_four_eq {x : ℚ} (k : ℤ) (hx : 0 < x) (h1 : (4 : ℚ) ^ k ≤ x)
    (h2 : x < (4 : ℚ) ^ (k + 1)) : Int.log 4 x = k := by
  have hb : 1 < 4 := by decide
  have a1 : k ≤ Int.log 4 x := by
    rw [← Int.zpow_le_iff_le_log hb hx]
    exact_mod_cast h1
  have a2 : Int.log 4 x < k + 1 := by
    rw [← Int.lt_zpow_iff_log_lt hb hx]
    exact_mod_cast h2
  omega

/-- The integer square root of the floor of `q` from a bracket of `q`. -/
theorem nat_sqrt_floor_eq {q : ℚ} (n : Nat) (h1 : (n : ℚ) * n ≤ q)
    (h2 : q < ((n : ℚ) + 1) * (n + 1)) : Nat.sqrt ⌊q⌋₊ = n := by
  have hq : 0 ≤ q := le_trans (mul_nonneg (Nat.cast_nonneg n) (Nat.cast_nonneg n)) h1
  symm
  rw [Nat.eq_sqrt]
  constructor
  · rw [Nat.le_floor_iff hq]
    push_cast
    exact h1
  · rw [Nat.floor_lt hq]
    push_cast
    exact h2

/-- Rounding down: `q` is below the square of `n + 1/2`. -/
theorem round_sqrt_down {q : ℚ} (n : Nat) (h1 : (n : ℚ) * n ≤ q)
    (h2 : q < (n : ℚ) * n + n + 1 / 4) : round_sqrt q = n := by
  have hs := nat_sqrt_floor_eq n h1 (by nlinarith [(Nat.cast_nonneg n : (0 : ℚ) ≤ n)])
  unfold round_sqrt
  rw [hs, if_neg (not_le.2 h2)]

/-- Rounding up: `q` is at least the square of `n + 1/2`. -/
theorem round_sqrt_up {q : ℚ} (n : Nat) (h1 : (n : ℚ) * n + n + 1 / 4 ≤ q)
    (h2 : q < ((n : ℚ) + 1) * (n + 1)) : round_sqrt q = n + 1 := by
  have hs := nat_sqrt_floor_eq n (by nlinarith [(Nat.cast_nonneg n : (0 : ℚ) ≤ n)]) h2
  unfold round_sqrt
  rw [hs, if_pos h1]

/-- The value of `sqrt_binary64` from the binade of `x` and the rounded
significand. -/
theorem sqrt_binary64_eq {x : ℚ} (k : ℤ) (m : Nat) (hx : 0 < x) (h1 : (4 : ℚ) ^ k ≤ x)
    (h2 : x < (4 : ℚ) ^ (k + 1)) (hm : round_sqrt (x * 4 ^ (52 - k)) = m) :
    sqrt_binary64 x = (m : ℚ) * 2 ^ (k - 52) := by
  unfold sqrt_binary64
  rw [if_neg (not_le.2 hx), int_log_four_eq k hx h1 h2, hm]

/-- The binary64 square root of `2` is `6369051672525773 / 2^52`. -/
theorem sqrt_binary64_two : sqrt_binary64 2 = 6369051672525773 / 4503599627370496 := by
  have hm : round_sqrt ((2 : ℚ) * 4 ^ ((52 : ℤ) - 0)) = 6369051672525772 + 1 := by
    apply round_sqrt_up
    · norm_num
    · norm_num
  rw [sqrt_binary64_eq 0 _ (by norm_num) (by norm_num) (by norm_num) hm]
  norm_num


/-- The binary64 square root of the sum of squares of the normalised `{1, 1}`
is `1 - 2^-53`. -/
theorem sqrt_binary64_below_one :
    sqrt_binary64 (1 / (6369051672525773 / 4503599627370496)
        * (1 / (6369051672525773 / 4503599627370496))
      + 1 / (6369051672525773 / 4503599627370496)
        * (1 / (6369051672525773 / 4503599627370496)))
      = 1 - 1 / 9007199254740992 := by
  have hm : round_sqrt ((1 / (6369051672525773 / 4503599627370496)
        * (1 / (6369051672525773 / 4503599627370496))
      + 1 / (6369051672525773 / 4503599627370496)
        * (1 / (6369051672525773 / 4503599627370496)) : ℚ) * 4 ^ ((52 : ℤ) - (-1)))
      = 9007199254740991 := by
    apply round_sqrt_down
    · norm_num
    · norm_num
  rw [sqrt_binary64_eq (-1) _ (by norm_num) (by norm_num) (by norm_num) hm]
  norm_num

namespace Vector

variable {K : Type}

/-- What `l2_norm ()` returns after `l2_normalize ()`, for any `std::sqrt`. -/
theorem l2_norm_after_normalize [Field K] [DecidableEq K] (sqrt : K → K) {v : Vector K}
    (hv : v.WF)
    (hs : sqrt ((Finset.range v.n_el).sum (fun i => v.data.getD i 0 * v.data.getD i 0)) ≠ 0) :
    ∃ R : Vector K, v.l2_normalize sqrt = .ok R ∧ R.n_el = v.n_el
      ∧ R.l2_norm sqrt = .ok (sqrt ((Finset.range v.n_el).sum (fun i =>
          v.data.getD i 0
              / sqrt ((Finset.range v.n_el).sum (fun i => v.data.getD i 0 * v.data.getD i 0))
            * (v.data.getD i 0
              / sqrt ((Finset.range v.n_el).sum
                  (fun i => v.data.getD i 0 * v.data.getD i 0)))))) := by
  obtain ⟨R, h1, h2, h3, h4⟩ := divide_loop v
    (sqrt ((Finset.range v.n_el).sum (fun i => v.data.getD i 0 * v.data.getD i 0))) hv
  refine ⟨R, ?_, h3, ?_⟩
  · rw [l2_normalize_eq sqrt hv, assert_bind_of hs]
    exact h1
  · rw [l2_norm_eq sqrt h2, h3]
    refine congrArg (fun t => Except.ok (sqrt t)) ?_
    exact Finset.sum_congr rfl (fun i hi => by rw [h4 i (Finset.mem_range.1 hi)])

end Vector

/-! ## Square root in binary64: the counterexample -/

/-- C31 as stated fails in binary64 arithmetic, where `std::sqrt` returns the
root rounded to 53 significant bits. For the vector `{1, 1}` the norm is
`sqrt (2) = 6369051672525773 / 2^52`, which is not zero, so `l2_normalize ()`
divides both components by it; the sum of their squares is then a little
below `1` and `l2_norm ()` returns `1 - 2^-53` (printed
`0.9999999999999999`), not `1`. Sums, products and quotients are taken exactly
here; rounding them as well gives the same value. -/
theorem C31_counterexample :
    ∃ R : Vector ℚ,
      (Vector.mk 2 [(1 : ℚ), 1]).l2_norm sqrt_binary64
        = .ok (6369051672525773 / 4503599627370496)
      ∧ (Vector.mk 2 [(1 : ℚ), 1]).l2_normalize sqrt_binary64 = .ok R
      ∧ R.n_el = 2
      ∧ R.l2_norm sqrt_binary64 = .ok (1 - 1 / 9007199254740992)
      ∧ (1 - 1 / 9007199254740992 : ℚ) ≠ 1 := by
  have hv : (Vector.mk 2 [(1 : ℚ), 1]).WF := Vector.wf_pair 1 1
  have hsum : (Finset.range (Vector.mk 2 [(1 : ℚ), 1]).n_el).sum
      (fun i => (Vector.mk 2 [(1 : ℚ), 1]).data.getD i 0
        * (Vector.mk 2 [(1 : ℚ), 1]).data.getD i 0) = 2 := by
    show (Finset.range 2).sum (fun i => ([(1 : ℚ), 1]).getD i 0 * ([(1 : ℚ), 1]).getD i 0) = 2
    simp only [Finset.sum_range_succ, Finset.sum_range_zero, List.getD_cons_zero,
      List.getD_cons_succ]
    norm_num
  have hnorm : (Vector.mk 2 [(1 : ℚ), 1]).l2_norm sqrt_binary64
      = .ok (6369051672525773 / 4503599627370496) := by
    rw [Vector.l2_norm_eq sqrt_binary64 hv, hsum, sqrt_binary64_two]
  obtain ⟨R, h1, h2, h3⟩ := Vector.l2_norm_after_normalize sqrt_binary64 hv
    (by rw [hsum, sqrt_binary64_two]; norm_num)
  refine ⟨R, hnorm, h1, h2, ?_, by norm_num⟩
  rw [h3, hsum, sqrt_binary64_two]
  refine congrArg Except.ok ?_
  rw [← sqrt_binary64_below_one]
  refine congrArg sqrt_binary64 ?_
  show (Finset.range 2).sum (fun i => ([(1 : ℚ), 1]).getD i 0
      / (6369051672525773 / 4503599627370496)
    * (([(1 : ℚ), 1]).getD i 0 / (6369051672525773 / 4503599627370496))) = _
  simp only [Finset.sum_range_succ, Finset.sum_range_zero, List.getD_cons_zero,
    List.getD_cons_succ, zero_add]

end ewalena
